import Mathlib

/-!
# Point containment in curved hexahedra (`dMeshBlock.h`)

A shallow embedding of `dMeshBlock::calcDShape`, `dMeshBlock::getRefLoc` and
`dMeshBlock::checkContainment`, and theorems about them.

Conventions of the embedding.

* In `calcDShape`, `getRefLoc` and `checkContainment` a finite `double` is an exact rational
  number (`ℚ`): these functions are the algorithm of the source in exact arithmetic. What is
  proved of them is either a property of the control flow, in which the computed numbers
  enter only through the tests the source makes on them, or a property stated for exact
  arithmetic.
* The section on binary64 arithmetic repeats the functions with every operation rounded to
  the nearest double (`calcDShape64`, `getRefLoc64`). They show which properties of the exact
  computation do not survive rounding. Overflow is not represented.
* A division by a zero determinant gives an infinity or a NaN (`Dbl`), which the clamp
  `max(min(., 1.), -1.)` of device code turns into `1` or `-1`. Which zero the determinant
  is, `+0` or `-0`, follows from the sign rules of IEEE arithmetic (`det_3x3_negZero`).
* The index of the gather loop of `checkContainment` is an `int` expression: it is reduced to
  its 32-bit two's-complement representative (`int32`).
* A C array is a function from its index (`Arr`).  A local array the source leaves
  uninitialised starts from arbitrary contents, supplied in a `Scratch`.
* `norm` and `norm_prev` are square roots.  A `SqrtVal` stores the radicand, and every
  comparison the source makes on the root is the equivalent comparison on radicands
  (`SqrtVal.gt_iff_sqrt`, `SqrtVal.le_iff_sqrt`, `SqrtVal.gtScaled_iff_sqrt`).
* The `while` loop is a structural recursion on a fuel counter; `iterMax` units of fuel
  are always enough (`newtonLoop_fuel`).  `passStarts` lists the states from which the
  passes of the loop start.
* `cuda_funcs.h` is not part of the sources: `Lagrange_gpu`, `dLagrange_gpu`, `det_3x3` and
  `adjoint_3x3` are the Lagrange basis, its derivative, the determinant and the adjugate.
-/

namespace Tioga

/-! ## Data model -/

/-- A C array of doubles, addressed by index. -/
abbrev Arr := Nat → ℚ

/-- Three doubles: a point or a local-coordinate triple (`rst[0]`, `rst[1]`, `rst[2]`). -/
structure Vec3 where
  c0 : ℚ
  c1 : ℚ
  c2 : ℚ
  deriving DecidableEq

/-- A double that may be an IEEE special value. The quotients of the Newton step are of
this kind: a division by a zero determinant gives an infinity or a NaN. -/
inductive Dbl where
  | fin (q : ℚ)
  | posInf
  | negInf
  | nan
  deriving DecidableEq

/-- The quotient `x / y` of two finite doubles. When the divisor is zero it is a NaN for
`x = 0` and otherwise an infinity, negative when exactly one of `x` and the zero is negative;
`negZero` is the sign bit of the zero divisor. -/
def Dbl.div (x y : ℚ) (negZero : Bool) : Dbl :=
  if y = 0 then
    (if x = 0 then Dbl.nan else if decide (x < 0) = negZero then Dbl.posInf else Dbl.negInf)
  else Dbl.fin (x / y)

/-- The sum `a + b`: a NaN operand, or infinities of opposite signs, give a NaN. -/
def Dbl.add : Dbl → Dbl → Dbl
  | Dbl.fin a, Dbl.fin b => Dbl.fin (a + b)
  | Dbl.nan, _ => Dbl.nan
  | _, Dbl.nan => Dbl.nan
  | Dbl.posInf, Dbl.negInf => Dbl.nan
  | Dbl.negInf, Dbl.posInf => Dbl.nan
  | Dbl.posInf, _ => Dbl.posInf
  | _, Dbl.posInf => Dbl.posInf
  | Dbl.negInf, _ => Dbl.negInf
  | _, Dbl.negInf => Dbl.negInf

/-- A finite double together with its sign bit, which tells the zero `-0` from `+0`. -/
structure Signed where
  val : ℚ
  neg : Bool

/-- A double whose zero is `+0`. -/
def Signed.ofRat (q : ℚ) : Signed := ⟨q, decide (q < 0)⟩

/-- The product `a * b`: its sign bit is the exclusive or of the sign bits. -/
def Signed.mul (a b : Signed) : Signed := ⟨a.val * b.val, a.neg != b.neg⟩

/-- The difference `a - b`: a zero difference is `-0` only as `(-0) - (+0)`. -/
def Signed.sub (a b : Signed) : Signed :=
  ⟨a.val - b.val, if a.val - b.val = 0 then a.neg && !b.neg else decide (a.val - b.val < 0)⟩

/-- The sum `a + b`: a zero sum is `-0` only as `(-0) + (-0)`. -/
def Signed.add (a b : Signed) : Signed :=
  ⟨a.val + b.val, if a.val + b.val = 0 then a.neg && b.neg else decide (a.val + b.val < 0)⟩

/-- The nonnegative real `√sq`, known by its radicand. -/
structure SqrtVal where
  sq : ℚ
  deriving DecidableEq

/-- The double constant `c ≥ 0` seen as a square root. -/
def SqrtVal.ofConst (c : ℚ) : SqrtVal := ⟨c * c⟩

/-- Comparison `√sq > t`. -/
def SqrtVal.gt (n : SqrtVal) (t : ℚ) : Prop := t < 0 ∨ t * t < n.sq

/-- Comparison `√sq ≤ t`. -/
def SqrtVal.le (n : SqrtVal) (t : ℚ) : Prop := 0 ≤ t ∧ n.sq ≤ t * t

/-- Comparison `√n.sq > c * √p.sq` for a constant `c ≥ 0`. -/
def SqrtVal.gtScaled (n : SqrtVal) (c : ℚ) (p : SqrtVal) : Prop := c * c * p.sq < n.sq

instance (n : SqrtVal) (t : ℚ) : Decidable (n.gt t) :=
  inferInstanceAs (Decidable (t < 0 ∨ t * t < n.sq))

instance (n : SqrtVal) (t : ℚ) : Decidable (n.le t) :=
  inferInstanceAs (Decidable (0 ≤ t ∧ n.sq ≤ t * t))

instance (n : SqrtVal) (c : ℚ) (p : SqrtVal) : Decidable (n.gtScaled c p) :=
  inferInstanceAs (Decidable (c * c * p.sq < n.sq))

/-- The fields of `class dMeshBlock` that the three member functions read. -/
structure dMeshBlock where
  /-- Number of cells/elements in grid. -/
  ncells : Int
  /-- Element node coordinates `[ncells * nvert * ndim]`. -/
  coord : Int → ℚ
  /-- List of elements in the ADT. -/
  eleList : Nat → Int
  /-- Tensor-product index to storage position of the node. -/
  ijk2gmsh : Nat → Nat
  /-- Nodal locations along one edge of the reference element. -/
  xlist : Arr
  /-- Whether a rigid-frame transform is active. -/
  rrot : Bool
  /-- Rotation matrix of the transform. -/
  Rmat : Arr
  /-- Offset of the transform. -/
  offset : Arr

/-- Arbitrary initial contents of the local arrays the source does not initialise. -/
structure Scratch where
  shape : Arr
  dshape : Arr
  ecoord : Arr
  x2 : Arr

/-- The loop `for (int i = 0; i < n; i++) body(i)` acting on a state. -/
def forRange {σ : Type} : Nat → (Nat → σ → σ) → σ → σ
  | 0, _, s => s
  | n + 1, body, s => body n (forRange n body s)

/-! ## Helpers of `cuda_funcs.h` -/

/-- Modelled from the spec: `cuda_funcs::Lagrange_gpu` is not in the sources. The value at
`xi` of the 1-D Lagrange basis function number `mode` on the `npts` nodal locations `xiGrid`:
the product over the other nodes `i` of `(xi - xiGrid[i]) / (xiGrid[mode] - xiGrid[i])`. -/
def Lagrange_gpu (xiGrid : Arr) (npts : Nat) (xi : ℚ) (mode : Nat) : ℚ :=
  forRange npts (fun i val =>
    if i = mode then val else val * ((xi - xiGrid i) / (xiGrid mode - xiGrid i))) 1

/-- Modelled from the spec: `cuda_funcs::dLagrange_gpu` is not in the sources. The derivative
at `xi` of the 1-D Lagrange basis function number `mode`: the sum over the other nodes `i` of
`1 / (xiGrid[mode] - xiGrid[i])` times the product over the remaining nodes `j` of
`(xi - xiGrid[j]) / (xiGrid[mode] - xiGrid[j])`. -/
def dLagrange_gpu (xiGrid : Arr) (npts : Nat) (xi : ℚ) (mode : Nat) : ℚ :=
  forRange npts (fun i val =>
    if i = mode then val
    else val + forRange npts (fun j term =>
      if j = mode ∨ j = i then term
      else term * ((xi - xiGrid j) / (xiGrid mode - xiGrid j))) (1 / (xiGrid mode - xiGrid i))) 0

/-- Modelled from the spec: `cuda_funcs::det_3x3` is not in the sources. The determinant of
the row-major 3×3 matrix `mat`. -/
def det_3x3 (mat : Arr) : ℚ :=
  mat 0 * (mat 4 * mat 8 - mat 5 * mat 7)
    - mat 1 * (mat 3 * mat 8 - mat 5 * mat 6)
    + mat 2 * (mat 3 * mat 7 - mat 4 * mat 6)

/-- Modelled from the spec: `cuda_funcs::adjoint_3x3` is not in the sources. The adjugate of
the row-major 3×3 matrix `mat`, row-major: `mat * adjoint = det * identity`. -/
def adjoint_3x3 (mat : Arr) : Arr := fun m =>
  match m with
  | 0 => mat 4 * mat 8 - mat 5 * mat 7
  | 1 => mat 2 * mat 7 - mat 1 * mat 8
  | 2 => mat 1 * mat 5 - mat 2 * mat 4
  | 3 => mat 5 * mat 6 - mat 3 * mat 8
  | 4 => mat 0 * mat 8 - mat 2 * mat 6
  | 5 => mat 2 * mat 3 - mat 0 * mat 5
  | 6 => mat 3 * mat 7 - mat 4 * mat 6
  | 7 => mat 1 * mat 6 - mat 0 * mat 7
  | 8 => mat 0 * mat 4 - mat 1 * mat 3
  | _ => 0

/-- Modelled from the spec: the sign bit of the value of `cuda_funcs::det_3x3`, by the sign
rules of IEEE arithmetic on the cofactor expansion of `det_3x3`, for a matrix whose zero
entries are `+0`. It tells which zero a vanishing determinant is. -/
def det_3x3_negZero (mat : Arr) : Bool :=
  let a : Nat → Signed := fun m => Signed.ofRat (mat m)
  ((((a 0).mul (((a 4).mul (a 8)).sub ((a 5).mul (a 7)))).sub
    ((a 1).mul (((a 3).mul (a 8)).sub ((a 5).mul (a 6))))).add
      ((a 2).mul (((a 3).mul (a 7)).sub ((a 4).mul (a 6))))).neg

/-! ## `dMeshBlock::calcDShape` -/

/-- The member `calcDShape<nSide>(shape, dshape, loc)`: the arrays `shape` and `dshape` after
the call. -/
def calcDShape (mb : dMeshBlock) (nSide : Nat) (shape dshape : Arr) (loc : Vec3) :
    Arr × Arr :=
  let xi := loc.c0
  let eta := loc.c1
  let mu := loc.c2
  let lag_i : Arr := fun i => Lagrange_gpu mb.xlist nSide xi i
  let lag_j : Arr := fun i => Lagrange_gpu mb.xlist nSide eta i
  let lag_k : Arr := fun i => Lagrange_gpu mb.xlist nSide mu i
  let dlag_i : Arr := fun i => dLagrange_gpu mb.xlist nSide xi i
  let dlag_j : Arr := fun i => dLagrange_gpu mb.xlist nSide eta i
  let dlag_k : Arr := fun i => dLagrange_gpu mb.xlist nSide mu i
  forRange nSide (fun k =>
    forRange nSide (fun j =>
      forRange nSide (fun i sd =>
        let gnd := mb.ijk2gmsh (i + nSide * (j + nSide * k))
        (Function.update sd.1 gnd (lag_i i * lag_j j * lag_k k),
         Function.update
          (Function.update
            (Function.update sd.2 (gnd * 3 + 0) (dlag_i i * lag_j j * lag_k k))
            (gnd * 3 + 1) (lag_i i * dlag_j j * lag_k k))
          (gnd * 3 + 2) (lag_i i * lag_j j * dlag_k k)))))
    (shape, dshape)

/-! ## `dMeshBlock::getRefLoc` -/

/-- The iteration budget `iterMax`. -/
def iterMax : Nat := 10

/-- The variables of `getRefLoc` that live across iterations, with two counters that the
source does not have: `passes` counts the executions of the loop body (the calls of
`calcDShape`), `stalled` records that the loop was left through `break`. -/
structure NewtonState where
  rst : Vec3
  norm : SqrtVal
  norm_prev : SqrtVal
  iter : Nat
  shape : Arr
  dshape : Arr
  passes : Nat
  stalled : Bool

/-- The Jacobian `grad[i][j]` accumulated over the nodes. -/
def gradOf (nNodes : Nat) (coords dshape : Arr) (i j : Nat) : ℚ :=
  forRange nNodes (fun nd acc => acc + coords (i + 3 * nd) * dshape (nd * 3 + j)) 0

/-- The residual `dx[i]`: the target minus the image of the guess. -/
def dxOf (nNodes : Nat) (coords xyz shape : Arr) (i : Nat) : ℚ :=
  forRange nNodes (fun nd acc => acc - shape nd * coords (i + 3 * nd)) (xyz i)

/-- The Newton step `delta[i]` from the Jacobian (row-major) and the residual: the sum,
started from `0.0`, of the three quotients `ginv[i][j]*dx[j]/detJ`. The entries of `grad`
are sums started from `+0`, so a zero entry is `+0`. -/
def deltaOf (grad dx : Arr) (i : Nat) : Dbl :=
  let detJ := det_3x3 grad
  let negZero := det_3x3_negZero grad
  let ginv := adjoint_3x3 grad
  (((Dbl.fin 0).add (Dbl.div (ginv (3 * i + 0) * dx 0) detJ negZero)).add
    (Dbl.div (ginv (3 * i + 1) * dx 1) detJ negZero)).add
      (Dbl.div (ginv (3 * i + 2) * dx 2) detJ negZero)

/-- The update `max(min(r + d, 1.), -1.)` of one local coordinate. The `min` and `max` of
device code return the other operand when one operand is a NaN: `r + ∞ = ∞` is cut to `1`,
`r - ∞` to `-1`, and `min(NaN, 1.) = 1`. -/
def clampStep (r : ℚ) : Dbl → ℚ
  | Dbl.fin d => max (min (r + d) 1) (-1)
  | Dbl.posInf => 1
  | Dbl.negInf => -1
  | Dbl.nan => 1

/-- The body of the `while` loop up to and including the update of `rst`. -/
def newtonPass (mb : dMeshBlock) (nSide : Nat) (coords xyz : Arr) (s : NewtonState) :
    NewtonState :=
  let nNodes := nSide * nSide * nSide
  let sd := calcDShape mb nSide s.shape s.dshape s.rst
  let grad : Arr := fun m => gradOf nNodes coords sd.2 (m / 3) (m % 3)
  let dx : Arr := dxOf nNodes coords xyz sd.1
  let delta : Nat → Dbl := deltaOf grad dx
  { rst := ⟨clampStep s.rst.c0 (delta 0), clampStep s.rst.c1 (delta 1),
            clampStep s.rst.c2 (delta 2)⟩
    norm := ⟨dx 0 * dx 0 + dx 1 * dx 1 + dx 2 * dx 2⟩
    norm_prev := s.norm_prev
    iter := s.iter
    shape := sd.1
    dshape := sd.2
    passes := s.passes + 1
    stalled := s.stalled }

/-- The loop condition `norm > tol && iter < iterMax`. -/
def loopCond (tol : ℚ) (s : NewtonState) : Prop := s.norm.gt tol ∧ s.iter < iterMax

instance (tol : ℚ) (s : NewtonState) : Decidable (loopCond tol s) :=
  inferInstanceAs (Decidable (s.norm.gt tol ∧ s.iter < iterMax))

/-- The stall test `iter > 1 && norm > .99*norm_prev`. -/
def stallCond (s : NewtonState) : Prop := s.iter > 1 ∧ s.norm.gtScaled (99 / 100) s.norm_prev

instance (s : NewtonState) : Decidable (stallCond s) :=
  inferInstanceAs (Decidable (s.iter > 1 ∧ s.norm.gtScaled (99 / 100) s.norm_prev))

/-- The end of a pass that does not stall: `norm_prev = norm; iter++`. -/
def nextIter (s : NewtonState) : NewtonState :=
  { s with norm_prev := s.norm, iter := s.iter + 1 }

/-- The `while (norm > tol && iter < iterMax)` loop, run for at most `fuel` passes. -/
def newtonLoop (mb : dMeshBlock) (nSide : Nat) (coords xyz : Arr) (tol : ℚ) :
    Nat → NewtonState → NewtonState
  | 0, s => s
  | fuel + 1, s =>
    if loopCond tol s then
      let s1 := newtonPass mb nSide coords xyz s
      if stallCond s1 then
        { s1 with stalled := true }
      else
        newtonLoop mb nSide coords xyz tol fuel (nextIter s1)
    else s

/-- The tolerance `1e-12 * h`, `h` the smallest extent of the bounding box. -/
def tolOf (bbox : Arr) : ℚ :=
  let h := min (bbox 3 - bbox 0) (bbox 4 - bbox 1)
  let h := min h (bbox 5 - bbox 2)
  1 / 1000000000000 * h

/-- The state of `getRefLoc` before the loop. -/
def initState (u : Scratch) : NewtonState :=
  { rst := ⟨0, 0, 0⟩
    norm := SqrtVal.ofConst 1
    norm_prev := SqrtVal.ofConst 2
    iter := 0
    shape := u.shape
    dshape := u.dshape
    passes := 0
    stalled := false }

/-- The state of `getRefLoc` when the loop is left. -/
def getRefLocState (mb : dMeshBlock) (nSide : Nat) (u : Scratch) (coords bbox xyz : Arr) :
    NewtonState :=
  newtonLoop mb nSide coords xyz (tolOf bbox) iterMax (initState u)

/-- The member `getRefLoc<nSide>(coords, bbox, xyz, rst)`: the returned boolean and `rst`. -/
def getRefLoc (mb : dMeshBlock) (nSide : Nat) (u : Scratch) (coords bbox xyz : Arr) :
    Bool × Vec3 :=
  let s := getRefLocState mb nSide u coords bbox xyz
  (decide (s.norm.le (tolOf bbox)), s.rst)

/-! ## `dMeshBlock::checkContainment` -/

/-- The value of an `int` expression whose mathematical value is `x`: the 32-bit
two's-complement representative of `x`. A signed overflow, undefined in C++, wraps on the
hardware. -/
def int32 (x : Int) : Int := (x + 2147483648) % 4294967296 - 2147483648

/-- The gather loop of `checkContainment`: `ecoord` after it. The index
`ele+ncells*(d+ndim*i)` is an expression of `int` operands and is evaluated in `int`. -/
def gatherCoords (mb : dMeshBlock) (ndim nNodes : Nat) (ele : Int) (ecoord : Arr) : Arr :=
  forRange nNodes (fun i =>
    forRange ndim (fun d ec =>
      Function.update ec (i * ndim + d)
        (mb.coord (int32 (ele + int32 (mb.ncells *
          int32 ((d : Int) + int32 ((ndim : Int) * (i : Int))))))))) ecoord

/-- The member `checkContainment<ndim, nside>(adtEle, cellID, bbox, xyz, rst)`: `cellID` and `rst`
after the call. -/
def checkContainment (mb : dMeshBlock) (ndim nside : Nat) (u : Scratch) (adtEle : Nat)
    (bbox xyz : Arr) : Int × Vec3 :=
  let nNodes := nside * nside * nside
  let ele := mb.eleList adtEle
  let ecoord := gatherCoords mb ndim nNodes ele u.ecoord
  let r :=
    if mb.rrot then
      let x2 := forRange ndim (fun d x2 => Function.update x2 d (xyz d + mb.offset d)) u.x2
      getRefLoc mb nside u ecoord bbox x2
    else
      getRefLoc mb nside u ecoord bbox xyz
  (if r.1 then ele else -1, r.2)

/-! ## Notions the properties are stated with -/

/-- The reference cube `[-1, 1]³`. -/
def inCube (v : Vec3) : Prop :=
  (-1 ≤ v.c0 ∧ v.c0 ≤ 1) ∧ (-1 ≤ v.c1 ∧ v.c1 ≤ 1) ∧ (-1 ≤ v.c2 ∧ v.c2 ≤ 1)

instance (v : Vec3) : Decidable (inCube v) :=
  inferInstanceAs (Decidable ((-1 ≤ v.c0 ∧ v.c0 ≤ 1) ∧ (-1 ≤ v.c1 ∧ v.c1 ≤ 1) ∧
    (-1 ≤ v.c2 ∧ v.c2 ≤ 1)))

/-- Component `i` of the forward isoparametric map at `loc`: the sum over the nodes of
`shape[node] * coords[i + 3*node]`, `shape` as `calcDShape` leaves it when called at `loc`
on the arrays `shape`, `dshape`. -/
def isoMap (mb : dMeshBlock) (nSide : Nat) (shape dshape coords : Arr) (loc : Vec3)
    (i : Nat) : ℚ :=
  let sd := calcDShape mb nSide shape dshape loc
  forRange (nSide * nSide * nSide) (fun nd acc => acc + sd.1 nd * coords (i + 3 * nd)) 0

/-- The Euclidean distance between the target `xyz` and the forward map at `loc`. -/
def residNorm (mb : dMeshBlock) (nSide : Nat) (shape dshape coords xyz : Arr) (loc : Vec3) :
    SqrtVal :=
  let r : Arr := fun i => xyz i - isoMap mb nSide shape dshape coords loc i
  ⟨r 0 * r 0 + r 1 * r 1 + r 2 * r 2⟩

/-- The states from which the passes of the loop start, in order: the first `fuel` of them
at most. -/
def passStarts (mb : dMeshBlock) (nSide : Nat) (coords xyz : Arr) (tol : ℚ) :
    Nat → NewtonState → List NewtonState
  | 0, _ => []
  | fuel + 1, s =>
    if loopCond tol s then
      let s1 := newtonPass mb nSide coords xyz s
      s :: (if stallCond s1 then [] else passStarts mb nSide coords xyz tol fuel (nextIter s1))
    else []

/-- The node-order map `g` is a bijection of `[0, nSide³)`. -/
def NodeOrderOK (g : Nat → Nat) (nSide : Nat) : Prop :=
  (∀ t, t < nSide * nSide * nSide → g t < nSide * nSide * nSide) ∧
  (∀ s, s < nSide * nSide * nSide → ∀ t, t < nSide * nSide * nSide → g s = g t → s = t)

instance (g : Nat → Nat) (nSide : Nat) : Decidable (NodeOrderOK g nSide) :=
  inferInstanceAs (Decidable ((∀ t, t < nSide * nSide * nSide → g t < nSide * nSide * nSide) ∧
    (∀ s, s < nSide * nSide * nSide → ∀ t, t < nSide * nSide * nSide → g s = g t → s = t)))

/-- The nodal locations `x[0], …, x[n-1]` are pairwise distinct. -/
def DistinctNodes (x : Arr) (n : Nat) : Prop :=
  ∀ i, i < n → ∀ j, j < n → x i = x j → i = j

instance (x : Arr) (n : Nat) : Decidable (DistinctNodes x n) :=
  inferInstanceAs (Decidable (∀ i, i < n → ∀ j, j < n → x i = x j → i = j))

/-- The element is an affine image of the nodal lattice: the node of tensor index `(i, j, k)`
is `c + A (x[i], x[j], x[k])`, `A` a row-major 3×3 matrix. -/
def AffineElement (mb : dMeshBlock) (nSide : Nat) (coords c A : Arr) : Prop :=
  ∀ i, i < nSide → ∀ j, j < nSide → ∀ k, k < nSide → ∀ d, d < 3 →
    coords (d + 3 * mb.ijk2gmsh (i + nSide * (j + nSide * k))) =
      c d + A (3 * d + 0) * mb.xlist i + A (3 * d + 1) * mb.xlist j + A (3 * d + 2) * mb.xlist k

/-- The affine map `c + A p`, component `d`. -/
def affineAt (c A : Arr) (p : Vec3) (d : Nat) : ℚ :=
  c d + A (3 * d + 0) * p.c0 + A (3 * d + 1) * p.c1 + A (3 * d + 2) * p.c2

/-- The box `bbox` is the axis-aligned bounding box of the `nNodes` nodes of `coords`. -/
def IsBBox (nNodes : Nat) (coords bbox : Arr) : Prop :=
  ∀ d, d < 3 →
    (∀ nd, nd < nNodes → bbox d ≤ coords (d + 3 * nd) ∧ coords (d + 3 * nd) ≤ bbox (d + 3)) ∧
    (∃ nd, nd < nNodes ∧ coords (d + 3 * nd) = bbox d) ∧
    (∃ nd, nd < nNodes ∧ coords (d + 3 * nd) = bbox (d + 3))

instance (nNodes : Nat) (coords bbox : Arr) : Decidable (IsBBox nNodes coords bbox) :=
  inferInstanceAs (Decidable (∀ d, d < 3 →
    (∀ nd, nd < nNodes → bbox d ≤ coords (d + 3 * nd) ∧ coords (d + 3 * nd) ≤ bbox (d + 3)) ∧
    (∃ nd, nd < nNodes ∧ coords (d + 3 * nd) = bbox d) ∧
    (∃ nd, nd < nNodes ∧ coords (d + 3 * nd) = bbox (d + 3))))

instance (mb : dMeshBlock) (nSide : Nat) (coords c A : Arr) :
    Decidable (AffineElement mb nSide coords c A) :=
  inferInstanceAs (Decidable (∀ i, i < nSide → ∀ j, j < nSide → ∀ k, k < nSide → ∀ d, d < 3 →
    coords (d + 3 * mb.ijk2gmsh (i + nSide * (j + nSide * k))) =
      c d + A (3 * d + 0) * mb.xlist i + A (3 * d + 1) * mb.xlist j +
        A (3 * d + 2) * mb.xlist k))

/-- All entries of an array multiplied by `s`. -/
def scaleArr (s : ℚ) (a : Arr) : Arr := fun m => s * a m

/-- Two states of the loop that differ by the scale `k` of the physical lengths: the norms
are in the ratio `k`, everything else agrees. -/
def ScaledState (k : ℚ) (a b : NewtonState) : Prop :=
  b.rst = a.rst ∧ b.norm.sq = k * k * a.norm.sq ∧ b.norm_prev.sq = k * k * a.norm_prev.sq ∧
    b.iter = a.iter ∧ b.shape = a.shape ∧ b.dshape = a.dshape ∧ b.passes = a.passes ∧
    b.stalled = a.stalled

/-- The determinant of the Jacobian of the forward map at `loc`, as `getRefLoc` assembles
it from `dshape`. -/
def jacDet (mb : dMeshBlock) (nSide : Nat) (shape dshape coords : Arr) (loc : Vec3) : ℚ :=
  det_3x3 (fun m => gradOf (nSide * nSide * nSide) coords
    (calcDShape mb nSide shape dshape loc).2 (m / 3) (m % 3))

/-- The Euclidean distance between two local-coordinate triples. -/
def distVec (a b : Vec3) : SqrtVal :=
  ⟨(a.c0 - b.c0) * (a.c0 - b.c0) + (a.c1 - b.c1) * (a.c1 - b.c1) +
    (a.c2 - b.c2) * (a.c2 - b.c2)⟩

/-! ## Concrete data -/

/-- The array holding the entries of a list, `0` beyond its end. -/
def arrOfList (l : List ℚ) : Arr := fun m => l.getD m 0

/-- The array of zeros. -/
def zeroArr : Arr := fun _ => 0

/-- A mesh block for trilinear elements: nodes per edge at `-1` and `1`, identity node
order, one element, no transform. -/
def mbTri : dMeshBlock :=
  { ncells := 1
    coord := fun _ => 0
    eleList := fun _ => 0
    ijk2gmsh := fun t => t
    xlist := arrOfList [-1, 1]
    rrot := false
    Rmat := zeroArr
    offset := zeroArr }

/-- Local arrays that start out filled with zeros. -/
def u0 : Scratch := ⟨zeroArr, zeroArr, zeroArr, zeroArr⟩

/-- The unit cube `[0,1]³`: node `i + 2*(j + 2*k)` is the corner `(i, j, k)`. -/
def cubeCoords : Arr :=
  arrOfList [0, 0, 0, 1, 0, 0, 0, 1, 0, 1, 1, 0, 0, 0, 1, 1, 0, 1, 0, 1, 1, 1, 1, 1]

/-- The bounding box of the unit cube. -/
def cubeBBox : Arr := arrOfList [0, 0, 0, 1, 1, 1]

/-- The affine map of the unit cube: centre `(1/2, 1/2, 1/2)`. -/
def cubeCentre : Arr := fun _ => 1 / 2

/-- The affine map of the unit cube: matrix `diag (1/2, 1/2, 1/2)`, row-major. -/
def cubeMatrix : Arr := arrOfList [1 / 2, 0, 0, 0, 1 / 2, 0, 0, 0, 1 / 2]

/-- A convex element: the prism `-1 ≤ z ≤ 1` over the convex quadrilateral with vertices
`(-5,-5)`, `(-1,-10)`, `(12,5)`, `(-12,4)`; node `i + 2*(j + 2*k)` is the image of the corner
`(i, j, k)` of the reference cube. -/
def prismCoords : Arr :=
  arrOfList [-5, -5, -1, -1, -10, -1, -12, 4, -1, 12, 5, -1,
    -5, -5, 1, -1, -10, 1, -12, 4, 1, 12, 5, 1]

/-- The bounding box of the nodes of `prismCoords`. -/
def prismBBox : Arr := arrOfList [-12, -10, -1, 12, 5, 1]

/-- The image of the local point `(-1, -1, 0)` in the element `prismCoords`. -/
def prismTarget : Arr := arrOfList [-5, -5, 0]

/-- The eight corners of the reference cube. -/
def cubeCorners : List Vec3 :=
  [⟨-1, -1, -1⟩, ⟨1, -1, -1⟩, ⟨-1, 1, -1⟩, ⟨1, 1, -1⟩,
   ⟨-1, -1, 1⟩, ⟨1, -1, 1⟩, ⟨-1, 1, 1⟩, ⟨1, 1, 1⟩]

/-- A folded element: `x = ε ξ + ξ η`, `y = ε η + ξ`, `z = μ` with `ε = 10⁻⁶`. -/
def foldCoords : Arr :=
  arrOfList [999999 / 1000000, -1000001 / 1000000, -1,
    -999999 / 1000000, 999999 / 1000000, -1,
    -1000001 / 1000000, -999999 / 1000000, -1,
    1000001 / 1000000, 1000001 / 1000000, -1,
    999999 / 1000000, -1000001 / 1000000, 1,
    -999999 / 1000000, 999999 / 1000000, 1,
    -1000001 / 1000000, -999999 / 1000000, 1,
    1000001 / 1000000, 1000001 / 1000000, 1]

/-- The bounding box of the nodes of `foldCoords`. -/
def foldBBox : Arr :=
  arrOfList [-1000001 / 1000000, -1000001 / 1000000, -1, 1000001 / 1000000, 1000001 / 1000000, 1]

/-- A target at distance `10⁻¹²` from the image of the centre of `foldCoords`. -/
def foldTarget : Arr := arrOfList [1 / 1000000000000, 0, 0]

/-- A convex element: the prism `-1 ≤ z ≤ 1` over the quadrilateral with vertices `(-2,-1)`,
`(2,-2)`, `(3,2)`, `(-2,2)`. -/
def stallCoords : Arr :=
  arrOfList [-2, -1, -1, 2, -2, -1, -2, 2, -1, 3, 2, -1,
    -2, -1, 1, 2, -2, 1, -2, 2, 1, 3, 2, 1]

/-- A box of extent `4.88·10¹¹`, for which `tol = 0.488`. -/
def stallBBox : Arr := arrOfList [0, 0, 0, 488000000000, 488000000000, 488000000000]

/-- A target below the element `stallCoords`. -/
def stallTarget : Arr := arrOfList [0, -2, 0]

/-- The position in `coord` of coordinate `d` of node `i` of the element `ele`, as
`checkContainment` computes it for `ndim = 3`: the expression `ele+ncells*(d+3*i)` in `int`. -/
def coordIdx (ncells ele : Int) (d i : Nat) : Int :=
  int32 (ele + int32 (ncells * int32 ((d : Int) + int32 (3 * (i : Int)))))

/-- A mesh block with `10⁸` trilinear elements whose `coord` array holds its own indices. -/
def mbBig : dMeshBlock :=
  { ncells := 100000000
    coord := fun x => (x : ℚ)
    eleList := fun a => (a : Int)
    ijk2gmsh := fun t => t
    xlist := arrOfList [-1, 1]
    rrot := false
    Rmat := zeroArr
    offset := zeroArr }

/-- A mesh block with two trilinear elements whose `coord` array holds its own indices. -/
def mbPair : dMeshBlock :=
  { ncells := 2
    coord := fun x => (x : ℚ)
    eleList := fun a => (a : Int)
    ijk2gmsh := fun t => t
    xlist := arrOfList [-1, 1]
    rrot := false
    Rmat := zeroArr
    offset := zeroArr }

/-- The smallest extent `h` of the bounding box, of which `tolOf` is `1e-12` times. -/
def minExtent (bbox : Arr) : ℚ :=
  min (min (bbox 3 - bbox 0) (bbox 4 - bbox 1)) (bbox 5 - bbox 2)

/-- The array `a` of points (three entries per point) translated by the vector `t`. -/
def shiftArr (t a : Arr) : Arr := fun m => a m + t (m % 3)

/-- The function `calcDShape` with a record of its stores: beside the arrays, the list of
the indices of `shape` and the list of the indices of `dshape` that are assigned, in the
order of the assignments. -/
def calcDShapeTrace (mb : dMeshBlock) (nSide : Nat) (shape dshape : Arr) (loc : Vec3) :
    (Arr × Arr) × (List Nat × List Nat) :=
  let xi := loc.c0
  let eta := loc.c1
  let mu := loc.c2
  let lag_i : Arr := fun i => Lagrange_gpu mb.xlist nSide xi i
  let lag_j : Arr := fun i => Lagrange_gpu mb.xlist nSide eta i
  let lag_k : Arr := fun i => Lagrange_gpu mb.xlist nSide mu i
  let dlag_i : Arr := fun i => dLagrange_gpu mb.xlist nSide xi i
  let dlag_j : Arr := fun i => dLagrange_gpu mb.xlist nSide eta i
  let dlag_k : Arr := fun i => dLagrange_gpu mb.xlist nSide mu i
  forRange nSide (fun k =>
    forRange nSide (fun j =>
      forRange nSide (fun i st =>
        let gnd := mb.ijk2gmsh (i + nSide * (j + nSide * k))
        ((Function.update st.1.1 gnd (lag_i i * lag_j j * lag_k k),
          Function.update
            (Function.update
              (Function.update st.1.2 (gnd * 3 + 0) (dlag_i i * lag_j j * lag_k k))
              (gnd * 3 + 1) (lag_i i * dlag_j j * lag_k k))
            (gnd * 3 + 2) (lag_i i * lag_j j * dlag_k k)),
         (st.2.1 ++ [gnd], st.2.2 ++ [gnd * 3 + 0, gnd * 3 + 1, gnd * 3 + 2])))))
    ((shape, dshape), ([], []))

/-- The first pass of `getRefLoc` on the element of `mbTri`, all of whose nodes are at the
origin, for the target `(1,1,1)`. -/
def degenPass : NewtonState :=
  newtonPass mbTri 2 (gatherCoords mbTri 3 (2 * 2 * 2) (mbTri.eleList 0) u0.ecoord)
    (fun d => if mbTri.rrot then arrOfList [1, 1, 1] d + mbTri.offset d
      else arrOfList [1, 1, 1] d) (initState u0)

/-! ## Binary64 arithmetic

The functions above compute with exact rationals. The functions of this section round the
result of every arithmetic operation to the nearest binary64 number, as the hardware does,
each operation on its own (no fused multiply-add); they serve to exhibit the properties of
the exact computation that rounding breaks. -/

/-- The power `2^e` of two, for an integer exponent. -/
def pow2 (e : Int) : ℚ :=
  if 0 ≤ e then ((2 ^ e.toNat : Nat) : ℚ) else 1 / ((2 ^ (-e).toNat : Nat) : ℚ)

/-- Bisection for `floorLog2`: the bits of the result from bit `b - 1` down. -/
def log2Bits (n : Nat) : Nat → Nat → Nat
  | 0, l => l
  | b + 1, l => if 2 ^ (l + 2 ^ b) ≤ n then log2Bits n b (l + 2 ^ b) else log2Bits n b l

/-- The largest `l` with `2^l ≤ n`, for `0 < n < 2^4096`. -/
def floorLog2 (n : Nat) : Nat := log2Bits n 12 0

/-- The exponent of `x ≠ 0`: the integer `e` with `2^e ≤ |x| < 2^(e+1)`. -/
def ilog2 (x : ℚ) : Int :=
  let e : Int := (floorLog2 x.num.natAbs : Int) - (floorLog2 x.den : Int)
  if pow2 e ≤ |x| then e else e - 1

/-- The integer nearest to `m`, the even one of the two when `m` is half-way. -/
def roundEven (m : ℚ) : Int :=
  let f := ⌊m⌋
  let r := m - f
  if r < 1 / 2 then f else if 1 / 2 < r then f + 1 else if f % 2 = 0 then f else f + 1

/-- The binary64 number nearest to `x` (round to nearest, ties to even): 53 significant
bits, exponent at least `-1022` (subnormal numbers included). Overflow is not represented:
the values met below are far from the largest finite double. -/
def round64 (x : ℚ) : ℚ :=
  if x = 0 then 0
  else
    let e := max (ilog2 x) (-1022)
    let ulp := pow2 (e - 52)
    (roundEven (x / ulp) : ℚ) * ulp

/-- Bisection for `isqrt`: the bits of the root from bit `b - 1` down. -/
def isqrtBits (n : Nat) : Nat → Nat → Nat
  | 0, r => r
  | b + 1, r =>
    if (r + 2 ^ b) * (r + 2 ^ b) ≤ n then isqrtBits n b (r + 2 ^ b) else isqrtBits n b r

/-- The integer part of the square root of `n`. -/
def isqrt (n : Nat) : Nat := isqrtBits n (floorLog2 n / 2 + 1) 0

/-- The function `sqrt` of doubles: the binary64 number nearest to `√s`. -/
def sqrt64 (s : ℚ) : ℚ :=
  if s ≤ 0 then 0
  else
    let e := Int.fdiv (ilog2 s) 2
    let ulp := pow2 (e - 52)
    let n := s / (ulp * ulp)
    let r : ℚ := (isqrt ⌊n⌋.toNat : ℚ)
    let c := r * r + r + 1 / 4
    let m := if n < c then r else if c < n then r + 1
      else if isqrt ⌊n⌋.toNat % 2 = 0 then r else r + 1
    m * ulp

/-- The sum `a + b` of doubles. -/
def fadd (a b : ℚ) : ℚ := round64 (a + b)

/-- The difference `a - b` of doubles. -/
def fsub (a b : ℚ) : ℚ := round64 (a - b)

/-- The product `a * b` of doubles. -/
def fmul (a b : ℚ) : ℚ := round64 (a * b)

/-- The quotient `a / b` of doubles, for `b ≠ 0`. -/
def fdiv (a b : ℚ) : ℚ := round64 (a / b)

/-- The quotient `x / y` of doubles, with the special values of a division by zero;
`negZero` is the sign bit of the zero divisor. -/
def Dbl.div64 (x y : ℚ) (negZero : Bool) : Dbl :=
  if y = 0 then
    (if x = 0 then Dbl.nan else if decide (x < 0) = negZero then Dbl.posInf else Dbl.negInf)
  else Dbl.fin (fdiv x y)

/-- The product `a * b` of doubles with their sign bits. -/
def Signed.mul64 (a b : Signed) : Signed := ⟨fmul a.val b.val, a.neg != b.neg⟩

/-- The difference `a - b` of doubles with their sign bits. -/
def Signed.sub64 (a b : Signed) : Signed :=
  ⟨fsub a.val b.val, if fsub a.val b.val = 0 then a.neg && !b.neg
    else decide (fsub a.val b.val < 0)⟩

/-- The sum `a + b` of doubles with their sign bits. -/
def Signed.add64 (a b : Signed) : Signed :=
  ⟨fadd a.val b.val, if fadd a.val b.val = 0 then a.neg && b.neg
    else decide (fadd a.val b.val < 0)⟩

/-- The sum `a + b` of doubles that may be special values. -/
def Dbl.add64 : Dbl → Dbl → Dbl
  | Dbl.fin a, Dbl.fin b => Dbl.fin (fadd a b)
  | a, b => Dbl.add a b

/-- Modelled from the spec: `cuda_funcs::Lagrange_gpu` in binary64: the product of
`Lagrange_gpu`, every operation rounded. -/
def Lagrange_gpu64 (xiGrid : Arr) (npts : Nat) (xi : ℚ) (mode : Nat) : ℚ :=
  forRange npts (fun i val =>
    if i = mode then val
    else fmul val (fdiv (fsub xi (xiGrid i)) (fsub (xiGrid mode) (xiGrid i)))) 1

/-- Modelled from the spec: `cuda_funcs::dLagrange_gpu` in binary64: the sum of products of
`dLagrange_gpu`, every operation rounded. -/
def dLagrange_gpu64 (xiGrid : Arr) (npts : Nat) (xi : ℚ) (mode : Nat) : ℚ :=
  forRange npts (fun i val =>
    if i = mode then val
    else fadd val (forRange npts (fun j term =>
      if j = mode ∨ j = i then term
      else fmul term (fdiv (fsub xi (xiGrid j)) (fsub (xiGrid mode) (xiGrid j))))
      (fdiv 1 (fsub (xiGrid mode) (xiGrid i))))) 0

/-- Modelled from the spec: `cuda_funcs::det_3x3` in binary64: the cofactor expansion of
`det_3x3`, every operation rounded. -/
def det_3x3_64 (mat : Arr) : ℚ :=
  fadd
    (fsub (fmul (mat 0) (fsub (fmul (mat 4) (mat 8)) (fmul (mat 5) (mat 7))))
      (fmul (mat 1) (fsub (fmul (mat 3) (mat 8)) (fmul (mat 5) (mat 6)))))
    (fmul (mat 2) (fsub (fmul (mat 3) (mat 7)) (fmul (mat 4) (mat 6))))

/-- Modelled from the spec: the sign bit of the value of `cuda_funcs::det_3x3` in binary64,
for a matrix whose zero entries are `+0`. -/
def det_3x3_negZero64 (mat : Arr) : Bool :=
  let a : Nat → Signed := fun m => Signed.ofRat (mat m)
  ((((a 0).mul64 (((a 4).mul64 (a 8)).sub64 ((a 5).mul64 (a 7)))).sub64
    ((a 1).mul64 (((a 3).mul64 (a 8)).sub64 ((a 5).mul64 (a 6))))).add64
      ((a 2).mul64 (((a 3).mul64 (a 7)).sub64 ((a 4).mul64 (a 6))))).neg

/-- Modelled from the spec: `cuda_funcs::adjoint_3x3` in binary64: the cofactors of
`adjoint_3x3`, every operation rounded. -/
def adjoint_3x3_64 (mat : Arr) : Arr := fun m =>
  match m with
  | 0 => fsub (fmul (mat 4) (mat 8)) (fmul (mat 5) (mat 7))
  | 1 => fsub (fmul (mat 2) (mat 7)) (fmul (mat 1) (mat 8))
  | 2 => fsub (fmul (mat 1) (mat 5)) (fmul (mat 2) (mat 4))
  | 3 => fsub (fmul (mat 5) (mat 6)) (fmul (mat 3) (mat 8))
  | 4 => fsub (fmul (mat 0) (mat 8)) (fmul (mat 2) (mat 6))
  | 5 => fsub (fmul (mat 2) (mat 3)) (fmul (mat 0) (mat 5))
  | 6 => fsub (fmul (mat 3) (mat 7)) (fmul (mat 4) (mat 6))
  | 7 => fsub (fmul (mat 1) (mat 6)) (fmul (mat 0) (mat 7))
  | 8 => fsub (fmul (mat 0) (mat 4)) (fmul (mat 1) (mat 3))
  | _ => 0

/-- The member `calcDShape<nSide>(shape, dshape, loc)` in binary64: the products
`a * b * c` are `(a * b) * c`, each product rounded. -/
def calcDShape64 (mb : dMeshBlock) (nSide : Nat) (shape dshape : Arr) (loc : Vec3) :
    Arr × Arr :=
  let xi := loc.c0
  let eta := loc.c1
  let mu := loc.c2
  let lag_i : Arr := fun i => Lagrange_gpu64 mb.xlist nSide xi i
  let lag_j : Arr := fun i => Lagrange_gpu64 mb.xlist nSide eta i
  let lag_k : Arr := fun i => Lagrange_gpu64 mb.xlist nSide mu i
  let dlag_i : Arr := fun i => dLagrange_gpu64 mb.xlist nSide xi i
  let dlag_j : Arr := fun i => dLagrange_gpu64 mb.xlist nSide eta i
  let dlag_k : Arr := fun i => dLagrange_gpu64 mb.xlist nSide mu i
  forRange nSide (fun k =>
    forRange nSide (fun j =>
      forRange nSide (fun i sd =>
        let gnd := mb.ijk2gmsh (i + nSide * (j + nSide * k))
        (Function.update sd.1 gnd (fmul (fmul (lag_i i) (lag_j j)) (lag_k k)),
         Function.update
          (Function.update
            (Function.update sd.2 (gnd * 3 + 0) (fmul (fmul (dlag_i i) (lag_j j)) (lag_k k)))
            (gnd * 3 + 1) (fmul (fmul (lag_i i) (dlag_j j)) (lag_k k)))
          (gnd * 3 + 2) (fmul (fmul (lag_i i) (lag_j j)) (dlag_k k))))))
    (shape, dshape)

/-- The variables of `getRefLoc` that live across iterations, in binary64. -/
structure NewtonState64 where
  rst : Vec3
  norm : ℚ
  norm_prev : ℚ
  iter : Nat
  shape : Arr
  dshape : Arr

/-- The Jacobian `grad[i][j]` accumulated over the nodes, in binary64. -/
def gradOf64 (nNodes : Nat) (coords dshape : Arr) (i j : Nat) : ℚ :=
  forRange nNodes (fun nd acc => fadd acc (fmul (coords (i + 3 * nd)) (dshape (nd * 3 + j)))) 0

/-- The residual `dx[i]`, in binary64. -/
def dxOf64 (nNodes : Nat) (coords xyz shape : Arr) (i : Nat) : ℚ :=
  forRange nNodes (fun nd acc => fsub acc (fmul (shape nd) (coords (i + 3 * nd)))) (xyz i)

/-- The Newton step `delta[i]`, in binary64. -/
def deltaOf64 (grad dx : Arr) (i : Nat) : Dbl :=
  let detJ := det_3x3_64 grad
  let negZero := det_3x3_negZero64 grad
  let ginv := adjoint_3x3_64 grad
  (((Dbl.fin 0).add64 (Dbl.div64 (fmul (ginv (3 * i + 0)) (dx 0)) detJ negZero)).add64
    (Dbl.div64 (fmul (ginv (3 * i + 1)) (dx 1)) detJ negZero)).add64
      (Dbl.div64 (fmul (ginv (3 * i + 2)) (dx 2)) detJ negZero)

/-- The update `max(min(r + d, 1.), -1.)` of one local coordinate, in binary64. -/
def clampStep64 (r : ℚ) : Dbl → ℚ
  | Dbl.fin d => max (min (fadd r d) 1) (-1)
  | Dbl.posInf => 1
  | Dbl.negInf => -1
  | Dbl.nan => 1

/-- The body of the `while` loop up to and including the update of `rst`, in binary64. -/
def newtonPass64 (mb : dMeshBlock) (nSide : Nat) (coords xyz : Arr) (s : NewtonState64) :
    NewtonState64 :=
  let nNodes := nSide * nSide * nSide
  let sd := calcDShape64 mb nSide s.shape s.dshape s.rst
  let grad : Arr := fun m => gradOf64 nNodes coords sd.2 (m / 3) (m % 3)
  let dx : Arr := dxOf64 nNodes coords xyz sd.1
  let delta : Nat → Dbl := deltaOf64 grad dx
  { rst := ⟨clampStep64 s.rst.c0 (delta 0), clampStep64 s.rst.c1 (delta 1),
            clampStep64 s.rst.c2 (delta 2)⟩
    norm := sqrt64 (fadd (fadd (fmul (dx 0) (dx 0)) (fmul (dx 1) (dx 1))) (fmul (dx 2) (dx 2)))
    norm_prev := s.norm_prev
    iter := s.iter
    shape := sd.1
    dshape := sd.2 }

/-- The `while (norm > tol && iter < iterMax)` loop in binary64, run for at most `fuel`
passes; the stall test is `iter > 1 && norm > .99*norm_prev`. -/
def newtonLoop64 (mb : dMeshBlock) (nSide : Nat) (coords xyz : Arr) (tol : ℚ) :
    Nat → NewtonState64 → NewtonState64
  | 0, s => s
  | fuel + 1, s =>
    if tol < s.norm ∧ s.iter < iterMax then
      let s1 := newtonPass64 mb nSide coords xyz s
      if s1.iter > 1 ∧ fmul (round64 (99 / 100)) s1.norm_prev < s1.norm then s1
      else newtonLoop64 mb nSide coords xyz tol fuel
        { s1 with norm_prev := s1.norm, iter := s1.iter + 1 }
    else s

/-- The tolerance `1e-12 * h` in binary64. -/
def tolOf64 (bbox : Arr) : ℚ :=
  let h := min (fsub (bbox 3) (bbox 0)) (fsub (bbox 4) (bbox 1))
  let h := min h (fsub (bbox 5) (bbox 2))
  fmul (round64 (1 / 1000000000000)) h

/-- The member `getRefLoc<nSide>(coords, bbox, xyz, rst)` in binary64: the returned boolean
and `rst`. -/
def getRefLoc64 (mb : dMeshBlock) (nSide : Nat) (u : Scratch) (coords bbox xyz : Arr) :
    Bool × Vec3 :=
  let s := newtonLoop64 mb nSide coords xyz (tolOf64 bbox) iterMax
    { rst := ⟨0, 0, 0⟩, norm := 1, norm_prev := 2, iter := 0, shape := u.shape,
      dshape := u.dshape }
  (decide (s.norm ≤ tolOf64 bbox), s.rst)

/-- The image of `loc` under the forward isoparametric map, as a point. -/
def isoPoint (mb : dMeshBlock) (nSide : Nat) (shape dshape coords : Arr) (loc : Vec3) : Vec3 :=
  ⟨isoMap mb nSide shape dshape coords loc 0, isoMap mb nSide shape dshape coords loc 1,
    isoMap mb nSide shape dshape coords loc 2⟩

/-- The point `(2047/2048, 2047/2048, 2047/2048)` of the unit cube, image of the local point
`(1023/1024, 1023/1024, 1023/1024)`. -/
def nearCorner : Arr := fun _ => 2047 / 2048

/-- The translation by `2²⁰` along each axis. -/
def shift20 : Arr := fun _ => 1048576

/-! # Theorems -/

/-! ## Square roots by radicand -/


theorem SqrtVal.le_iff_not_gt (n : SqrtVal) (t : ℚ) : n.le t ↔ ¬ n.gt t := by
  unfold SqrtVal.le SqrtVal.gt
  rw [not_or, not_lt, not_lt]

theorem SqrtVal.gt_iff_sqrt (n : SqrtVal) (t : ℚ) :
    n.gt t ↔ (t : ℝ) < Real.sqrt (n.sq : ℝ) := by
  unfold SqrtVal.gt
  rcases lt_or_le t 0 with ht | ht
  · have h1 : (t : ℝ) < 0 := by exact_mod_cast ht
    exact ⟨fun _ => lt_of_lt_of_le h1 (Real.sqrt_nonneg _), fun _ => Or.inl ht⟩
  · have h1 : (0 : ℝ) ≤ t := by exact_mod_cast ht
    rw [Real.lt_sqrt h1]
    constructor
    · rintro (h | h)
      · exact absurd h (not_lt.mpr ht)
      · have : ((t * t : ℚ) : ℝ) < (n.sq : ℝ) := by exact_mod_cast h
        simpa [pow_two] using this
    · intro h
      right
      have : ((t * t : ℚ) : ℝ) < (n.sq : ℝ) := by simpa [pow_two] using h
      exact_mod_cast this

theorem SqrtVal.le_iff_sqrt (n : SqrtVal) (t : ℚ) :
    n.le t ↔ Real.sqrt (n.sq : ℝ) ≤ (t : ℝ) := by
  rw [SqrtVal.le_iff_not_gt, SqrtVal.gt_iff_sqrt, not_lt]

theorem SqrtVal.gtScaled_iff_sqrt (n p : SqrtVal) (c : ℚ) (hc : 0 ≤ c) (hp : 0 ≤ p.sq) :
    n.gtScaled c p ↔ (c : ℝ) * Real.sqrt (p.sq : ℝ) < Real.sqrt (n.sq : ℝ) := by
  unfold SqrtVal.gtScaled
  have hc' : (0 : ℝ) ≤ c := by exact_mod_cast hc
  have hp' : (0 : ℝ) ≤ p.sq := by exact_mod_cast hp
  have h1 : (c : ℝ) * Real.sqrt (p.sq : ℝ) = Real.sqrt ((c : ℝ) * c * p.sq) := by
    rw [Real.sqrt_mul (mul_self_nonneg _), Real.sqrt_mul_self hc']
  rw [h1, Real.sqrt_lt_sqrt_iff (mul_nonneg (mul_self_nonneg _) hp')]
  constructor
  · intro h
    exact_mod_cast h
  · intro h
    exact_mod_cast h

theorem SqrtVal.sqrt_ofConst (c : ℚ) (hc : 0 ≤ c) :
    Real.sqrt ((SqrtVal.ofConst c).sq : ℝ) = c := by
  unfold SqrtVal.ofConst
  have hc' : (0 : ℝ) ≤ c := by exact_mod_cast hc
  push_cast
  exact Real.sqrt_mul_self hc'

/-! ## Counted loops -/

theorem forRange_succ {σ : Type} (n : Nat) (body : Nat → σ → σ) (s : σ) :
    forRange (n + 1) body s = body n (forRange n body s) := rfl

theorem forRange_add_sum (n : Nat) (f : Nat → ℚ) (a : ℚ) :
    forRange n (fun i acc => acc + f i) a = a + ∑ i in Finset.range n, f i := by
  induction n with
  | zero => simp [forRange]
  | succ n ih => rw [forRange_succ, ih, Finset.sum_range_succ]; ring

theorem forRange_sub_sum (n : Nat) (f : Nat → ℚ) (a : ℚ) :
    forRange n (fun i acc => acc - f i) a = a - ∑ i in Finset.range n, f i := by
  induction n with
  | zero => simp [forRange]
  | succ n ih => rw [forRange_succ, ih, Finset.sum_range_succ]; ring

/-! ## The Newton loop -/

section Loop

variable (mb : dMeshBlock) (nSide : Nat) (coords xyz : Arr) (tol : ℚ)

theorem newtonLoop_zero (s : NewtonState) :
    newtonLoop mb nSide coords xyz tol 0 s = s := rfl

theorem newtonLoop_succ (fuel : Nat) (s : NewtonState) :
    newtonLoop mb nSide coords xyz tol (fuel + 1) s =
      if loopCond tol s then
        if stallCond (newtonPass mb nSide coords xyz s) then
          { newtonPass mb nSide coords xyz s with stalled := true }
        else newtonLoop mb nSide coords xyz tol fuel (nextIter (newtonPass mb nSide coords xyz s))
      else s := rfl

theorem passStarts_succ (fuel : Nat) (s : NewtonState) :
    passStarts mb nSide coords xyz tol (fuel + 1) s =
      if loopCond tol s then
        s :: (if stallCond (newtonPass mb nSide coords xyz s) then []
          else passStarts mb nSide coords xyz tol fuel
            (nextIter (newtonPass mb nSide coords xyz s)))
      else [] := rfl

theorem newtonPass_iter (s : NewtonState) :
    (newtonPass mb nSide coords xyz s).iter = s.iter := rfl

theorem newtonPass_passes (s : NewtonState) :
    (newtonPass mb nSide coords xyz s).passes = s.passes + 1 := rfl

theorem dxOf_eq_sub_isoMap (shape dshape : Arr) (loc : Vec3) (i : Nat) :
    dxOf (nSide * nSide * nSide) coords xyz (calcDShape mb nSide shape dshape loc).1 i =
      xyz i - isoMap mb nSide shape dshape coords loc i := by
  unfold dxOf isoMap
  simp only [forRange_sub_sum, forRange_add_sum, zero_add]

/-- The norm a pass computes is the distance from the target to the image of the guess the
pass starts from. -/
theorem newtonPass_norm (s : NewtonState) :
    (newtonPass mb nSide coords xyz s).norm =
      residNorm mb nSide s.shape s.dshape coords xyz s.rst := by
  unfold newtonPass residNorm
  simp only [dxOf_eq_sub_isoMap]

theorem clampStep_mem (r : ℚ) (d : Dbl) : -1 ≤ clampStep r d ∧ clampStep r d ≤ 1 := by
  cases d with
  | fin q => exact ⟨le_max_right _ _, max_le (min_le_right _ _) (by norm_num)⟩
  | posInf => exact ⟨by norm_num [clampStep], by norm_num [clampStep]⟩
  | negInf => exact ⟨by norm_num [clampStep], by norm_num [clampStep]⟩
  | nan => exact ⟨by norm_num [clampStep], by norm_num [clampStep]⟩

theorem newtonPass_inCube (s : NewtonState) :
    inCube (newtonPass mb nSide coords xyz s).rst :=
  ⟨clampStep_mem _ _, clampStep_mem _ _, clampStep_mem _ _⟩

/-- The guess stays in the reference cube along the loop. -/
theorem newtonLoop_inCube (fuel : Nat) (s : NewtonState) (h : inCube s.rst) :
    inCube (newtonLoop mb nSide coords xyz tol fuel s).rst := by
  induction fuel generalizing s with
  | zero => exact h
  | succ fuel ih =>
    rw [newtonLoop_succ]
    split_ifs
    · exact newtonPass_inCube mb nSide coords xyz s
    · exact ih _ (newtonPass_inCube mb nSide coords xyz s)
    · exact h

/-- Fuel beyond what the iteration counter allows is never used. -/
theorem newtonLoop_fuel (fuel extra : Nat) (s : NewtonState) (h : iterMax ≤ s.iter + fuel) :
    newtonLoop mb nSide coords xyz tol (fuel + extra) s =
      newtonLoop mb nSide coords xyz tol fuel s := by
  induction fuel generalizing s with
  | zero =>
    have hc : ¬ loopCond tol s := fun hc => absurd hc.2 (by omega)
    cases extra with
    | zero => rfl
    | succ e => rw [Nat.zero_add, newtonLoop_succ, if_neg hc]; rfl
  | succ fuel ih =>
    rw [show fuel + 1 + extra = (fuel + extra) + 1 by omega, newtonLoop_succ, newtonLoop_succ]
    split_ifs
    · rfl
    · exact ih _ (by simp only [nextIter, newtonPass_iter]; omega)
    · rfl

/-- The number of passes is the length of the list of pass starts. -/
theorem newtonLoop_passes (fuel : Nat) (s : NewtonState) :
    (newtonLoop mb nSide coords xyz tol fuel s).passes =
      s.passes + (passStarts mb nSide coords xyz tol fuel s).length := by
  induction fuel generalizing s with
  | zero => rfl
  | succ fuel ih =>
    rw [newtonLoop_succ, passStarts_succ]
    split_ifs
    · simp [newtonPass_passes]
    · rw [ih]; simp [nextIter, newtonPass_passes]; omega
    · rfl

theorem passStarts_length_le (fuel : Nat) (s : NewtonState) :
    (passStarts mb nSide coords xyz tol fuel s).length ≤ iterMax - s.iter := by
  induction fuel generalizing s with
  | zero => simp [passStarts]
  | succ fuel ih =>
    rw [passStarts_succ]
    split_ifs with hc hs
    · have := hc.2; simp only [List.length_singleton]; omega
    · have h1 := hc.2
      have h2 := ih (nextIter (newtonPass mb nSide coords xyz s))
      have hi : (nextIter (newtonPass mb nSide coords xyz s)).iter = s.iter + 1 := rfl
      rw [hi] at h2
      simp only [List.length_cons]; omega
    · simp

/-- What the loop leaves behind, from the start of its last pass: nothing has changed when
no pass was made, and otherwise `norm` and `rst` are those computed by the last pass. -/
theorem newtonLoop_last (fuel : Nat) (s : NewtonState) :
    match (passStarts mb nSide coords xyz tol fuel s).getLast? with
    | none => newtonLoop mb nSide coords xyz tol fuel s = s
    | some t =>
      (newtonLoop mb nSide coords xyz tol fuel s).norm = (newtonPass mb nSide coords xyz t).norm ∧
      (newtonLoop mb nSide coords xyz tol fuel s).rst = (newtonPass mb nSide coords xyz t).rst := by
  induction fuel generalizing s with
  | zero => simp [passStarts, newtonLoop]
  | succ fuel ih =>
    rw [newtonLoop_succ, passStarts_succ]
    split_ifs with hc hs
    · simp
    · have h2 := ih (nextIter (newtonPass mb nSide coords xyz s))
      rw [List.getLast?_cons]
      cases hl : (passStarts mb nSide coords xyz tol fuel
          (nextIter (newtonPass mb nSide coords xyz s))).getLast? with
      | none => rw [hl] at h2; simp only [Option.getD_none]; rw [h2]; exact ⟨rfl, rfl⟩
      | some t => rw [hl] at h2; simpa using h2
    · simp

end Loop

/-! ## The solver reads three coordinates of the target -/

theorem newtonPass_congr_xyz (mb : dMeshBlock) (nSide : Nat) (coords xyz xyz' : Arr)
    (h0 : xyz 0 = xyz' 0) (h1 : xyz 1 = xyz' 1) (h2 : xyz 2 = xyz' 2) (s : NewtonState) :
    newtonPass mb nSide coords xyz s = newtonPass mb nSide coords xyz' s := by
  unfold newtonPass deltaOf dxOf
  simp only [h0, h1, h2]

theorem newtonLoop_congr_xyz (mb : dMeshBlock) (nSide : Nat) (coords xyz xyz' : Arr) (tol : ℚ)
    (h0 : xyz 0 = xyz' 0) (h1 : xyz 1 = xyz' 1) (h2 : xyz 2 = xyz' 2) (fuel : Nat)
    (s : NewtonState) :
    newtonLoop mb nSide coords xyz tol fuel s = newtonLoop mb nSide coords xyz' tol fuel s := by
  induction fuel generalizing s with
  | zero => rfl
  | succ fuel ih =>
    rw [newtonLoop_succ, newtonLoop_succ, newtonPass_congr_xyz mb nSide coords xyz xyz' h0 h1 h2,
      ih]

theorem getRefLoc_congr_xyz (mb : dMeshBlock) (nSide : Nat) (u : Scratch)
    (coords bbox xyz xyz' : Arr)
    (h0 : xyz 0 = xyz' 0) (h1 : xyz 1 = xyz' 1) (h2 : xyz 2 = xyz' 2) :
    getRefLoc mb nSide u coords bbox xyz = getRefLoc mb nSide u coords bbox xyz' := by
  unfold getRefLoc getRefLocState
  rw [newtonLoop_congr_xyz mb nSide coords xyz xyz' _ h0 h1 h2]

/-! ## Properties of `checkContainment` -/

/-- C4. `checkContainment` leaves in `cellID` the element id `eleList[adtEle]` when `getRefLoc`,
called on the gathered node coordinates of that element, returns true, and the sentinel `-1`
when it returns false; `rst` is as `getRefLoc` left it. -/
theorem checkContainment_cellID (mb : dMeshBlock) (ndim nside : Nat) (u : Scratch)
    (adtEle : Nat) (bbox xyz : Arr) :
    let ele := mb.eleList adtEle
    let ecoord := gatherCoords mb ndim (nside * nside * nside) ele u.ecoord
    let x2 := forRange ndim (fun d x2 => Function.update x2 d (xyz d + mb.offset d)) u.x2
    let r := getRefLoc mb nside u ecoord bbox (if mb.rrot then x2 else xyz)
    (checkContainment mb ndim nside u adtEle bbox xyz).1 = (if r.1 then ele else -1) ∧
    (checkContainment mb ndim nside u adtEle bbox xyz).2 = r.2 ∧
    ((checkContainment mb ndim nside u adtEle bbox xyz).1 = ele ∨
      (checkContainment mb ndim nside u adtEle bbox xyz).1 = -1) := by
  intro ele ecoord x2 r
  have h : checkContainment mb ndim nside u adtEle bbox xyz = (if r.1 then ele else -1, r.2) := by
    unfold checkContainment
    cases hr : mb.rrot <;> simp [r, ele, ecoord, x2, hr]
  rw [h]
  refine ⟨rfl, rfl, ?_⟩
  cases r.1 <;> simp

theorem getRefLoc_congr_mb (mb mb' : dMeshBlock) (hx : mb.xlist = mb'.xlist)
    (hg : mb.ijk2gmsh = mb'.ijk2gmsh) (nSide : Nat) (u : Scratch) (coords bbox xyz : Arr) :
    getRefLoc mb nSide u coords bbox xyz = getRefLoc mb' nSide u coords bbox xyz := by
  have hc : ∀ sh dsh loc, calcDShape mb nSide sh dsh loc = calcDShape mb' nSide sh dsh loc := by
    intro sh dsh loc
    unfold calcDShape
    rw [hx, hg]
  have hp : ∀ s, newtonPass mb nSide coords xyz s = newtonPass mb' nSide coords xyz s := by
    intro s
    unfold newtonPass
    rw [hc]
  have hl : ∀ fuel s, newtonLoop mb nSide coords xyz (tolOf bbox) fuel s =
      newtonLoop mb' nSide coords xyz (tolOf bbox) fuel s := by
    intro fuel
    induction fuel with
    | zero => intro s; rfl
    | succ fuel ih => intro s; rw [newtonLoop_succ, newtonLoop_succ, hp, ih]
  unfold getRefLoc getRefLocState
  rw [hl]

theorem gatherCoords_congr_mb (mb mb' : dMeshBlock) (hc : mb.coord = mb'.coord)
    (hn : mb.ncells = mb'.ncells) (ndim nNodes : Nat) (ele : Int) (ecoord : Arr) :
    gatherCoords mb ndim nNodes ele ecoord = gatherCoords mb' ndim nNodes ele ecoord := by
  unfold gatherCoords
  rw [hc, hn]

/-- C5. With the transform active (`rrot` true) `checkContainment` on the point `xyz` gives
the `cellID` and `rst` it gives with the transform inactive on the point `xyz + offset`,
whatever the rotation matrices `R`, `R'` are; with the transform inactive the stored offset
(`off'`) and rotation (`R'`) have no influence. -/
theorem checkContainment_rrot (mb : dMeshBlock) (nside : Nat) (u : Scratch) (adtEle : Nat)
    (bbox xyz R R' off' : Arr) :
    checkContainment { mb with rrot := true, Rmat := R } 3 nside u adtEle bbox xyz =
      checkContainment { mb with rrot := false, Rmat := R', offset := off' } 3 nside u adtEle
        bbox (fun d => xyz d + mb.offset d) := by
  unfold checkContainment
  simp only [if_true, Bool.false_eq_true, if_false]
  rw [gatherCoords_congr_mb { mb with rrot := true, Rmat := R }
      { mb with rrot := false, Rmat := R', offset := off' } rfl rfl,
    getRefLoc_congr_mb { mb with rrot := true, Rmat := R }
      { mb with rrot := false, Rmat := R', offset := off' } rfl rfl,
    getRefLoc_congr_xyz _ _ _ _ _ _ (fun d => xyz d + mb.offset d)
      (by simp [forRange, Function.update]) (by simp [forRange, Function.update])
      (by simp [forRange, Function.update])]

/-! ## Properties of the Newton loop of `getRefLoc` -/

/-- C6. Each component of `rst` lies in `[-1, 1]` when `getRefLoc` returns, whatever it
returns; the guess starts at `(0,0,0)`, every pass leaves a guess in the cube, and so the
guess is in the cube after any number of passes. -/
theorem getRefLoc_rst_inCube (mb : dMeshBlock) (nSide : Nat) (u : Scratch)
    (coords bbox xyz : Arr) :
    inCube (getRefLoc mb nSide u coords bbox xyz).2 ∧
    (initState u).rst = ⟨0, 0, 0⟩ ∧
    (∀ s : NewtonState, inCube (newtonPass mb nSide coords xyz s).rst) ∧
    (∀ fuel : Nat,
      inCube (newtonLoop mb nSide coords xyz (tolOf bbox) fuel (initState u)).rst) := by
  have h0 : inCube (initState u).rst := by
    simp [initState, inCube]
  exact ⟨newtonLoop_inCube mb nSide coords xyz _ _ _ h0, rfl,
    newtonPass_inCube mb nSide coords xyz,
    fun fuel => newtonLoop_inCube mb nSide coords xyz _ fuel _ h0⟩

theorem initState_passes (u : Scratch) : (initState u).passes = 0 := rfl

theorem initState_iter (u : Scratch) : (initState u).iter = 0 := rfl

/-- The loop body runs at least once exactly when the tolerance is below the initial value
`1` of `norm`. -/
theorem passes_pos_iff (mb : dMeshBlock) (nSide : Nat) (u : Scratch) (coords bbox xyz : Arr) :
    0 < (getRefLocState mb nSide u coords bbox xyz).passes ↔ tolOf bbox < 1 := by
  have hc : loopCond (tolOf bbox) (initState u) ↔ tolOf bbox < 1 := by
    simp only [loopCond, initState, SqrtVal.gt, SqrtVal.ofConst, iterMax]
    constructor
    · rintro ⟨h | h, -⟩
      · linarith
      · nlinarith
    · intro h
      refine ⟨?_, by norm_num⟩
      rcases lt_or_le (tolOf bbox) 0 with h0 | h0
      · exact Or.inl h0
      · right; nlinarith
  unfold getRefLocState
  rw [newtonLoop_passes, initState_passes, Nat.zero_add, ← hc]
  unfold iterMax
  rw [passStarts_succ]
  split_ifs with h1 <;> simp [h1]

/-- The result of `getRefLoc` in terms of the state `t` from which the last executed pass
started, when there is one. -/
theorem getRefLoc_last_pass (mb : dMeshBlock) (nSide : Nat) (u : Scratch)
    (coords bbox xyz : Arr)
    (hrun : 0 < (getRefLocState mb nSide u coords bbox xyz).passes) :
    ∃ t : NewtonState,
      (passStarts mb nSide coords xyz (tolOf bbox) iterMax (initState u)).getLast? = some t ∧
      ((getRefLoc mb nSide u coords bbox xyz).1 = true ↔
        (residNorm mb nSide t.shape t.dshape coords xyz t.rst).le (tolOf bbox)) ∧
      (getRefLoc mb nSide u coords bbox xyz).2 = (newtonPass mb nSide coords xyz t).rst := by
  have hlast := newtonLoop_last mb nSide coords xyz (tolOf bbox) iterMax (initState u)
  have hlen := newtonLoop_passes mb nSide coords xyz (tolOf bbox) iterMax (initState u)
  cases hl : (passStarts mb nSide coords xyz (tolOf bbox) iterMax (initState u)).getLast? with
  | none =>
    rw [List.getLast?_eq_none_iff] at hl
    unfold getRefLocState at hrun
    rw [hlen, hl, initState_passes] at hrun
    exact absurd hrun (by simp)
  | some t =>
    rw [hl] at hlast
    refine ⟨t, rfl, ?_, hlast.2⟩
    unfold getRefLoc getRefLocState
    simp only [decide_eq_true_eq]
    rw [hlast.1, newtonPass_norm]

theorem getLast?_of_get?_pred {α : Type} (l : List α) (n : Nat) (t : α)
    (hlen : l.length ≤ n + 1) (h : l.get? n = some t) : l.getLast? = some t := by
  have h1 : n < l.length := by
    by_contra hcon
    rw [List.get?_eq_none.mpr (by omega)] at h
    exact absurd h (by simp)
  have h2 : l.length - 1 = n := by omega
  rw [List.getLast?_eq_getElem?, h2, ← List.get?_eq_getElem?]
  exact h

/-- C10. `getRefLoc` ends after at most `iterMax = 10` passes of the loop: fuel beyond 10 is
never used, the body (and so `calcDShape`) runs at most 10 times, and when a tenth pass runs
(`t` is the state it starts from) the result is true only if the residual norm of that pass
is at most `tol`, false otherwise. -/
theorem getRefLoc_bounded (mb : dMeshBlock) (nSide : Nat) (u : Scratch)
    (coords bbox xyz : Arr) :
    (∀ extra : Nat,
      newtonLoop mb nSide coords xyz (tolOf bbox) (10 + extra) (initState u) =
        getRefLocState mb nSide u coords bbox xyz) ∧
    (getRefLocState mb nSide u coords bbox xyz).passes ≤ 10 ∧
    (passStarts mb nSide coords xyz (tolOf bbox) iterMax (initState u)).length ≤ 10 ∧
    (∀ t : NewtonState,
      (passStarts mb nSide coords xyz (tolOf bbox) iterMax (initState u)).get? 9 = some t →
      ¬ (residNorm mb nSide t.shape t.dshape coords xyz t.rst).le (tolOf bbox) →
      (getRefLoc mb nSide u coords bbox xyz).1 = false) := by
  have hlen := passStarts_length_le mb nSide coords xyz (tolOf bbox) iterMax (initState u)
  rw [initState_iter] at hlen
  have hlen' : (passStarts mb nSide coords xyz (tolOf bbox) iterMax (initState u)).length ≤ 10 :=
    hlen
  refine ⟨fun extra => ?_, ?_, hlen', ?_⟩
  · exact newtonLoop_fuel mb nSide coords xyz (tolOf bbox) 10 extra (initState u) (by
      rw [initState_iter]; unfold iterMax; omega)
  · unfold getRefLocState
    rw [newtonLoop_passes, initState_passes]
    omega
  · intro t ht hres
    have hl := getLast?_of_get?_pred _ 9 t hlen' ht
    have hlast := newtonLoop_last mb nSide coords xyz (tolOf bbox) iterMax (initState u)
    rw [hl] at hlast
    unfold getRefLoc getRefLocState
    simp only [decide_eq_false_iff_not]
    rw [hlast.1, newtonPass_norm]
    exact hres

/-! ## The 1-D Lagrange basis -/

section LagrangeBasis

open Polynomial

theorem forRange_mul_prod (n : Nat) (p : Nat → Prop) [DecidablePred p] (f : Nat → ℚ) (a : ℚ) :
    forRange n (fun i val => if p i then val else val * f i) a =
      a * ∏ i in (Finset.range n).filter (fun i => ¬ p i), f i := by
  induction n with
  | zero => simp [forRange]
  | succ n ih =>
    rw [forRange_succ, ih, Finset.range_succ, Finset.filter_insert]
    by_cases hp : p n
    · simp [hp]
    · rw [if_neg hp, if_pos hp, Finset.prod_insert (by simp)]
      ring

theorem forRange_add_sum_filter (n : Nat) (p : Nat → Prop) [DecidablePred p] (f : Nat → ℚ)
    (a : ℚ) :
    forRange n (fun i val => if p i then val else val + f i) a =
      a + ∑ i in (Finset.range n).filter (fun i => ¬ p i), f i := by
  induction n with
  | zero => simp [forRange]
  | succ n ih =>
    rw [forRange_succ, ih, Finset.range_succ, Finset.filter_insert]
    by_cases hp : p n
    · simp [hp]
    · rw [if_neg hp, if_pos hp, Finset.sum_insert (by simp)]
      ring

/-- The function `Lagrange_gpu` is the value of the Lagrange basis polynomial on the nodes
`0 .. npts-1`. -/
theorem Lagrange_gpu_eq_eval (x : Arr) (n : Nat) (ξ : ℚ) (m : Nat) :
    Lagrange_gpu x n ξ m = (Lagrange.basis (Finset.range n) x m).eval ξ := by
  unfold Lagrange_gpu
  rw [forRange_mul_prod, one_mul, Lagrange.basis, eval_prod]
  have hf : (Finset.range n).filter (fun i => ¬ i = m) = (Finset.range n).erase m :=
    Finset.filter_ne' _ _
  rw [hf]
  refine Finset.prod_congr rfl (fun j _ => ?_)
  simp [Lagrange.basisDivisor, div_eq_mul_inv, mul_comm]

/-- The function `dLagrange_gpu` is the value of the derivative of the Lagrange basis
polynomial. -/
theorem dLagrange_gpu_eq_eval (x : Arr) (n : Nat) (ξ : ℚ) (m : Nat) :
    dLagrange_gpu x n ξ m = (derivative (Lagrange.basis (Finset.range n) x m)).eval ξ := by
  unfold dLagrange_gpu
  rw [forRange_add_sum_filter, zero_add]
  have hf : (Finset.range n).filter (fun i => ¬ i = m) = (Finset.range n).erase m :=
    Finset.filter_ne' _ _
  rw [hf, Lagrange.basis, Finset.prod_eq_multiset_prod, derivative_prod,
    ← Finset.sum_eq_multiset_sum, eval_finset_sum]
  refine Finset.sum_congr rfl (fun i _ => ?_)
  rw [forRange_mul_prod, ← Finset.erase_val, ← Finset.prod_eq_multiset_prod, eval_mul, eval_prod]
  have hf2 : (Finset.range n).filter (fun j => ¬ (j = m ∨ j = i)) =
      ((Finset.range n).erase m).erase i := by
    ext j
    simp only [Finset.mem_filter, Finset.mem_range, Finset.mem_erase, not_or]
    tauto
  rw [hf2, mul_comm]
  congr 1
  · refine Finset.prod_congr rfl (fun j _ => ?_)
    simp [Lagrange.basisDivisor, div_eq_mul_inv, mul_comm]
  · simp [Lagrange.basisDivisor]

theorem injOn_of_distinct (x : Arr) (n : Nat)
    (hx : DistinctNodes x n) :
    Set.InjOn x (Finset.range n : Set Nat) := by
  intro i hi j hj hij
  exact hx i (by simpa using hi) j (by simpa using hj) hij

theorem sum_Lagrange_gpu (x : Arr) (n : Nat) (ξ : ℚ)
    (hx : DistinctNodes x n) (hn : 0 < n) :
    ∑ m in Finset.range n, Lagrange_gpu x n ξ m = 1 := by
  simp only [Lagrange_gpu_eq_eval]
  rw [← eval_finset_sum, Lagrange.sum_basis (injOn_of_distinct x n hx)
    (Finset.nonempty_range_iff.mpr (by omega)), eval_one]

theorem sum_dLagrange_gpu (x : Arr) (n : Nat) (ξ : ℚ)
    (hx : DistinctNodes x n) (hn : 0 < n) :
    ∑ m in Finset.range n, dLagrange_gpu x n ξ m = 0 := by
  simp only [dLagrange_gpu_eq_eval]
  rw [← eval_finset_sum, ← derivative_sum, Lagrange.sum_basis (injOn_of_distinct x n hx)
    (Finset.nonempty_range_iff.mpr (by omega)), derivative_one, eval_zero]

theorem X_eq_interpolate (x : Arr) (n : Nat)
    (hx : DistinctNodes x n) (hn : 2 ≤ n) :
    (X : ℚ[X]) = ∑ m in Finset.range n, C (x m) * Lagrange.basis (Finset.range n) x m := by
  have h := Lagrange.eq_interpolate (f := (X : ℚ[X])) (injOn_of_distinct x n hx) (by
    rw [degree_X, Finset.card_range]; exact_mod_cast hn)
  rw [Lagrange.interpolate_apply] at h
  simpa using h

theorem sum_mul_Lagrange_gpu (x : Arr) (n : Nat) (ξ : ℚ)
    (hx : DistinctNodes x n) (hn : 2 ≤ n) :
    ∑ m in Finset.range n, x m * Lagrange_gpu x n ξ m = ξ := by
  simp only [Lagrange_gpu_eq_eval]
  have h := congrArg (eval ξ) (X_eq_interpolate x n hx hn)
  rw [eval_X, eval_finset_sum] at h
  refine Eq.trans ?_ h.symm
  refine Finset.sum_congr rfl (fun m _ => ?_)
  simp

theorem sum_mul_dLagrange_gpu (x : Arr) (n : Nat) (ξ : ℚ)
    (hx : DistinctNodes x n) (hn : 2 ≤ n) :
    ∑ m in Finset.range n, x m * dLagrange_gpu x n ξ m = 1 := by
  simp only [dLagrange_gpu_eq_eval]
  have h := congrArg (fun q => eval ξ (derivative q)) (X_eq_interpolate x n hx hn)
  simp only [derivative_X, eval_one, derivative_sum, eval_finset_sum] at h
  refine Eq.trans ?_ h.symm
  refine Finset.sum_congr rfl (fun m _ => ?_)
  simp

end LagrangeBasis

/-! ## Writes of `calcDShape` -/

theorem forRange_invariant {σ : Type} (P : σ → Prop) (n : Nat) (body : Nat → σ → σ) (s : σ)
    (h0 : P s) (hstep : ∀ i, i < n → ∀ s, P s → P (body i s)) : P (forRange n body s) := by
  induction n with
  | zero => exact h0
  | succ n ih =>
    rw [forRange_succ]
    exact hstep n (Nat.lt_succ_self n) _ (ih (fun i hi => hstep i (Nat.lt_succ_of_lt hi)))

theorem forRange_establish {σ : Type} (Q : σ → Prop) (n : Nat) (body : Nat → σ → σ) (s : σ)
    (i0 : Nat) (hi0 : i0 < n) (hset : ∀ s, Q (body i0 s))
    (hkeep : ∀ i, i0 < i → i < n → ∀ s, Q s → Q (body i s)) : Q (forRange n body s) := by
  induction n with
  | zero => exact absurd hi0 (Nat.not_lt_zero _)
  | succ n ih =>
    rw [forRange_succ]
    rcases Nat.lt_succ_iff_lt_or_eq.mp hi0 with h | h
    · exact hkeep n h (Nat.lt_succ_self n) _
        (ih h (fun i h1 h2 => hkeep i h1 (Nat.lt_succ_of_lt h2)))
    · subst h
      exact hset _

theorem mixedRadix_inj (n a a' b b' : Nat) (ha : a < n) (ha' : a' < n)
    (h : a + n * b = a' + n * b') : a = a' ∧ b = b' := by
  have h1 : (a + n * b) % n = (a' + n * b') % n := by rw [h]
  rw [Nat.add_mul_mod_self_left, Nat.add_mul_mod_self_left, Nat.mod_eq_of_lt ha,
    Nat.mod_eq_of_lt ha'] at h1
  subst h1
  have hn : 0 < n := by omega
  exact ⟨rfl, Nat.eq_of_mul_eq_mul_left hn (Nat.add_left_cancel h)⟩

theorem tensorIdx_inj (n i j k i' j' k' : Nat) (hi : i < n) (hj : j < n) (hi' : i' < n)
    (hj' : j' < n) (h : i + n * (j + n * k) = i' + n * (j' + n * k')) :
    i = i' ∧ j = j' ∧ k = k' := by
  obtain ⟨h1, h2⟩ := mixedRadix_inj n i i' _ _ hi hi' h
  obtain ⟨h3, h4⟩ := mixedRadix_inj n j j' _ _ hj hj' h2
  exact ⟨h1, h3, h4⟩

theorem tensorIdx_lt (n i j k : Nat) (hi : i < n) (hj : j < n) (hk : k < n) :
    i + n * (j + n * k) < n * n * n := by
  have h1 : j + n * k + 1 ≤ n * n := by
    have : n * k + n ≤ n * n := by
      have := Nat.mul_le_mul_left n (Nat.succ_le_of_lt hk)
      rw [Nat.mul_succ] at this
      exact this
    omega
  have h2 : n * (j + n * k) + n ≤ n * n * n := by
    have := Nat.mul_le_mul_left n h1
    rw [Nat.mul_add, Nat.mul_one, ← Nat.mul_assoc] at this
    exact this
  omega

/-- What one execution of the innermost body of `calcDShape` writes. -/
theorem calcDShape_write_keep (G g' : Nat) (v v0 v1 v2 w w0 w1 w2 : ℚ) (sd : Arr × Arr)
    (hne : g' ≠ G)
    (hQ : sd.1 G = v ∧ sd.2 (G * 3 + 0) = v0 ∧ sd.2 (G * 3 + 1) = v1 ∧ sd.2 (G * 3 + 2) = v2) :
    (Function.update sd.1 g' w) G = v ∧
    (Function.update (Function.update (Function.update sd.2 (g' * 3 + 0) w0) (g' * 3 + 1) w1)
      (g' * 3 + 2) w2) (G * 3 + 0) = v0 ∧
    (Function.update (Function.update (Function.update sd.2 (g' * 3 + 0) w0) (g' * 3 + 1) w1)
      (g' * 3 + 2) w2) (G * 3 + 1) = v1 ∧
    (Function.update (Function.update (Function.update sd.2 (g' * 3 + 0) w0) (g' * 3 + 1) w1)
      (g' * 3 + 2) w2) (G * 3 + 2) = v2 := by
  obtain ⟨h, h0, h1, h2⟩ := hQ
  have e : G ≠ g' := fun e => hne e.symm
  refine ⟨?_, ?_, ?_, ?_⟩
  · rw [Function.update_noteq e]; exact h
  · rw [Function.update_noteq (by omega), Function.update_noteq (by omega),
      Function.update_noteq (by omega)]; exact h0
  · rw [Function.update_noteq (by omega), Function.update_noteq (by omega),
      Function.update_noteq (by omega)]; exact h1
  · rw [Function.update_noteq (by omega), Function.update_noteq (by omega),
      Function.update_noteq (by omega)]; exact h2

theorem calcDShape_write_set (G : Nat) (w w0 w1 w2 : ℚ) (sd : Arr × Arr) :
    (Function.update sd.1 G w) G = w ∧
    (Function.update (Function.update (Function.update sd.2 (G * 3 + 0) w0) (G * 3 + 1) w1)
      (G * 3 + 2) w2) (G * 3 + 0) = w0 ∧
    (Function.update (Function.update (Function.update sd.2 (G * 3 + 0) w0) (G * 3 + 1) w1)
      (G * 3 + 2) w2) (G * 3 + 1) = w1 ∧
    (Function.update (Function.update (Function.update sd.2 (G * 3 + 0) w0) (G * 3 + 1) w1)
      (G * 3 + 2) w2) (G * 3 + 2) = w2 := by
  refine ⟨?_, ?_, ?_, ?_⟩
  · rw [Function.update_same]
  · rw [Function.update_noteq (by omega), Function.update_noteq (by omega),
      Function.update_same]
  · rw [Function.update_noteq (by omega), Function.update_same]
  · rw [Function.update_same]

theorem forRange3_establish {σ : Type} (Q : σ → Prop) (n : Nat)
    (W : Nat → Nat → Nat → σ → σ) (i j k : Nat) (hi : i < n) (hj : j < n) (hk : k < n)
    (hset : ∀ s, Q (W i j k s))
    (hkeep : ∀ i' j' k', i' < n → j' < n → k' < n → (i', j', k') ≠ (i, j, k) →
      ∀ s, Q s → Q (W i' j' k' s)) (s : σ) :
    Q (forRange n (fun k => forRange n (fun j => forRange n (fun i => W i j k))) s) := by
  refine forRange_establish Q n _ _ k hk (fun s => ?_) (fun k' hk1 hk2 s hQ => ?_)
  · refine forRange_establish Q n _ _ j hj (fun s => ?_) (fun j' hj1 hj2 s hQ => ?_)
    · refine forRange_establish Q n _ _ i hi (fun s => ?_) (fun i' hi1 hi2 s hQ => ?_)
      · exact hset s
      · exact hkeep i' j k hi2 hj hk (by simp; omega) s hQ
    · refine forRange_invariant Q n _ s hQ (fun i' hi' s hQ => ?_)
      exact hkeep i' j' k hi' hj2 hk (by simp; omega) s hQ
  · refine forRange_invariant Q n _ s hQ (fun j' hj' s hQ => ?_)
    refine forRange_invariant Q n _ s hQ (fun i' hi' s hQ => ?_)
    exact hkeep i' j' k' hi' hj' hk2 (by simp; omega) s hQ

/-- With an injective node-order map, `calcDShape` leaves at the node of tensor index
`(i, j, k)` the product of the three 1-D factors, and its three partial derivatives. -/
theorem calcDShape_at (mb : dMeshBlock) (nSide : Nat) (shape dshape : Arr) (loc : Vec3)
    (hg : NodeOrderOK mb.ijk2gmsh nSide) (i j k : Nat) (hi : i < nSide) (hj : j < nSide)
    (hk : k < nSide) :
    (calcDShape mb nSide shape dshape loc).1 (mb.ijk2gmsh (i + nSide * (j + nSide * k))) =
      Lagrange_gpu mb.xlist nSide loc.c0 i * Lagrange_gpu mb.xlist nSide loc.c1 j *
        Lagrange_gpu mb.xlist nSide loc.c2 k ∧
    (calcDShape mb nSide shape dshape loc).2
        (mb.ijk2gmsh (i + nSide * (j + nSide * k)) * 3 + 0) =
      dLagrange_gpu mb.xlist nSide loc.c0 i * Lagrange_gpu mb.xlist nSide loc.c1 j *
        Lagrange_gpu mb.xlist nSide loc.c2 k ∧
    (calcDShape mb nSide shape dshape loc).2
        (mb.ijk2gmsh (i + nSide * (j + nSide * k)) * 3 + 1) =
      Lagrange_gpu mb.xlist nSide loc.c0 i * dLagrange_gpu mb.xlist nSide loc.c1 j *
        Lagrange_gpu mb.xlist nSide loc.c2 k ∧
    (calcDShape mb nSide shape dshape loc).2
        (mb.ijk2gmsh (i + nSide * (j + nSide * k)) * 3 + 2) =
      Lagrange_gpu mb.xlist nSide loc.c0 i * Lagrange_gpu mb.xlist nSide loc.c1 j *
        dLagrange_gpu mb.xlist nSide loc.c2 k := by
  have hne : ∀ i' j' k', i' < nSide → j' < nSide → k' < nSide →
      (i', j', k') ≠ (i, j, k) →
      mb.ijk2gmsh (i' + nSide * (j' + nSide * k')) ≠
        mb.ijk2gmsh (i + nSide * (j + nSide * k)) := by
    intro i' j' k' hi' hj' hk' hdiff heq
    have ht := hg.2 _ (tensorIdx_lt nSide i' j' k' hi' hj' hk') _
      (tensorIdx_lt nSide i j k hi hj hk) heq
    obtain ⟨h1, h2, h3⟩ := tensorIdx_inj nSide i' j' k' i j k hi' hj' hi hj ht
    exact hdiff (by rw [h1, h2, h3])
  unfold calcDShape
  exact forRange3_establish (fun sd : Arr × Arr =>
    sd.1 (mb.ijk2gmsh (i + nSide * (j + nSide * k))) =
      Lagrange_gpu mb.xlist nSide loc.c0 i * Lagrange_gpu mb.xlist nSide loc.c1 j *
        Lagrange_gpu mb.xlist nSide loc.c2 k ∧
    sd.2 (mb.ijk2gmsh (i + nSide * (j + nSide * k)) * 3 + 0) =
      dLagrange_gpu mb.xlist nSide loc.c0 i * Lagrange_gpu mb.xlist nSide loc.c1 j *
        Lagrange_gpu mb.xlist nSide loc.c2 k ∧
    sd.2 (mb.ijk2gmsh (i + nSide * (j + nSide * k)) * 3 + 1) =
      Lagrange_gpu mb.xlist nSide loc.c0 i * dLagrange_gpu mb.xlist nSide loc.c1 j *
        Lagrange_gpu mb.xlist nSide loc.c2 k ∧
    sd.2 (mb.ijk2gmsh (i + nSide * (j + nSide * k)) * 3 + 2) =
      Lagrange_gpu mb.xlist nSide loc.c0 i * Lagrange_gpu mb.xlist nSide loc.c1 j *
        dLagrange_gpu mb.xlist nSide loc.c2 k) nSide _ i j k hi hj hk
    (fun s => calcDShape_write_set _ _ _ _ _ s)
    (fun i' j' k' hi' hj' hk' hd s hQ =>
      calcDShape_write_keep _ _ _ _ _ _ _ _ _ _ s (hne i' j' k' hi' hj' hk' hd) hQ)
    (shape, dshape)

/-! ## Sums over the nodes -/

theorem sum_range_mul (a b : Nat) (h : Nat → ℚ) :
    ∑ t in Finset.range (a * b), h t =
      ∑ k in Finset.range a, ∑ j in Finset.range b, h (j + b * k) := by
  induction a with
  | zero => simp
  | succ a ih =>
    rw [Nat.succ_mul, Finset.sum_range_add, ih, Finset.sum_range_succ]
    congr 1
    refine Finset.sum_congr rfl (fun j _ => ?_)
    rw [Nat.add_comm, Nat.mul_comm]

theorem sum_range_cube (n : Nat) (h : Nat → ℚ) :
    ∑ t in Finset.range (n * n * n), h t =
      ∑ k in Finset.range n, ∑ j in Finset.range n, ∑ i in Finset.range n,
        h (i + n * (j + n * k)) := by
  rw [show n * n * n = n * (n * n) by ring, sum_range_mul]
  refine Finset.sum_congr rfl (fun k _ => ?_)
  rw [sum_range_mul]
  refine Finset.sum_congr rfl (fun j _ => ?_)
  refine Finset.sum_congr rfl (fun i _ => ?_)
  congr 1
  ring

theorem sum_reindex (g : Nat → Nat) (nSide : Nat) (hg : NodeOrderOK g nSide) (F : Nat → ℚ) :
    ∑ nd in Finset.range (nSide * nSide * nSide), F nd =
      ∑ t in Finset.range (nSide * nSide * nSide), F (g t) := by
  have hinj : Set.InjOn g (Finset.range (nSide * nSide * nSide) : Set Nat) := by
    intro s hs t ht hst
    exact hg.2 s (by simpa using hs) t (by simpa using ht) hst
  have himg : (Finset.range (nSide * nSide * nSide)).image g =
      Finset.range (nSide * nSide * nSide) := by
    apply Finset.eq_of_subset_of_card_le
    · intro x hx
      obtain ⟨t, ht, rfl⟩ := Finset.mem_image.mp hx
      exact Finset.mem_range.mpr (hg.1 t (Finset.mem_range.mp ht))
    · rw [Finset.card_image_of_injOn hinj]
  conv_lhs => rw [← himg]
  exact Finset.sum_image (fun s hs t ht hst => hinj hs ht hst)

theorem sum_tensor_mul (n : Nat) (f g h : Nat → ℚ) :
    ∑ k in Finset.range n, ∑ j in Finset.range n, ∑ i in Finset.range n, f i * g j * h k =
      (∑ i in Finset.range n, f i) * (∑ j in Finset.range n, g j) *
        (∑ k in Finset.range n, h k) := by
  simp_rw [← Finset.sum_mul, ← Finset.mul_sum]

/-! ## Affine elements -/

section Affine

variable (mb : dMeshBlock) (nSide : Nat) (coords c A : Arr)

/-- On an affine element the forward map is the affine map. -/
theorem isoMap_affine (hn : 2 ≤ nSide) (hx : DistinctNodes mb.xlist nSide)
    (hg : NodeOrderOK mb.ijk2gmsh nSide) (haff : AffineElement mb nSide coords c A)
    (shape dshape : Arr) (loc : Vec3) (d : Nat) (hd : d < 3) :
    isoMap mb nSide shape dshape coords loc d = affineAt c A loc d := by
  unfold isoMap affineAt
  simp only []
  rw [forRange_add_sum, zero_add,
    sum_reindex mb.ijk2gmsh nSide hg (fun nd =>
      (calcDShape mb nSide shape dshape loc).1 nd * coords (d + 3 * nd)),
    sum_range_cube]
  have hterm : ∀ k ∈ Finset.range nSide, ∀ j ∈ Finset.range nSide, ∀ i ∈ Finset.range nSide,
      (calcDShape mb nSide shape dshape loc).1 (mb.ijk2gmsh (i + nSide * (j + nSide * k))) *
        coords (d + 3 * mb.ijk2gmsh (i + nSide * (j + nSide * k))) =
      c d * (Lagrange_gpu mb.xlist nSide loc.c0 i * Lagrange_gpu mb.xlist nSide loc.c1 j *
          Lagrange_gpu mb.xlist nSide loc.c2 k) +
      A (3 * d + 0) * ((mb.xlist i * Lagrange_gpu mb.xlist nSide loc.c0 i) *
          Lagrange_gpu mb.xlist nSide loc.c1 j * Lagrange_gpu mb.xlist nSide loc.c2 k) +
      A (3 * d + 1) * (Lagrange_gpu mb.xlist nSide loc.c0 i *
          (mb.xlist j * Lagrange_gpu mb.xlist nSide loc.c1 j) *
          Lagrange_gpu mb.xlist nSide loc.c2 k) +
      A (3 * d + 2) * (Lagrange_gpu mb.xlist nSide loc.c0 i *
          Lagrange_gpu mb.xlist nSide loc.c1 j *
          (mb.xlist k * Lagrange_gpu mb.xlist nSide loc.c2 k)) := by
    intro k hk j hj i hi
    rw [Finset.mem_range] at hk hj hi
    rw [(calcDShape_at mb nSide shape dshape loc hg i j k hi hj hk).1,
      haff i hi j hj k hk d hd]
    ring
  rw [Finset.sum_congr rfl (fun k hk => Finset.sum_congr rfl (fun j hj =>
    Finset.sum_congr rfl (fun i hi => hterm k hk j hj i hi)))]
  simp only [Finset.sum_add_distrib, ← Finset.mul_sum, sum_tensor_mul]
  rw [sum_Lagrange_gpu _ _ _ hx (by omega), sum_Lagrange_gpu _ _ _ hx (by omega),
    sum_Lagrange_gpu _ _ _ hx (by omega), sum_mul_Lagrange_gpu _ _ _ hx hn,
    sum_mul_Lagrange_gpu _ _ _ hx hn, sum_mul_Lagrange_gpu _ _ _ hx hn]
  ring

/-- On an affine element the Jacobian assembled from `dshape` is the matrix `A`. -/
theorem gradOf_affine (hn : 2 ≤ nSide) (hx : DistinctNodes mb.xlist nSide)
    (hg : NodeOrderOK mb.ijk2gmsh nSide) (haff : AffineElement mb nSide coords c A)
    (shape dshape : Arr) (loc : Vec3) (a b : Nat) (ha : a < 3) (hb : b < 3) :
    gradOf (nSide * nSide * nSide) coords (calcDShape mb nSide shape dshape loc).2 a b =
      A (3 * a + b) := by
  unfold gradOf
  rw [forRange_add_sum, zero_add,
    sum_reindex mb.ijk2gmsh nSide hg (fun nd =>
      coords (a + 3 * nd) * (calcDShape mb nSide shape dshape loc).2 (nd * 3 + b)),
    sum_range_cube]
  have hterm : ∀ k ∈ Finset.range nSide, ∀ j ∈ Finset.range nSide, ∀ i ∈ Finset.range nSide,
      coords (a + 3 * mb.ijk2gmsh (i + nSide * (j + nSide * k))) *
        (calcDShape mb nSide shape dshape loc).2
          (mb.ijk2gmsh (i + nSide * (j + nSide * k)) * 3 + b) =
      c a * ((if b = 0 then dLagrange_gpu mb.xlist nSide loc.c0 i
              else Lagrange_gpu mb.xlist nSide loc.c0 i) *
          (if b = 1 then dLagrange_gpu mb.xlist nSide loc.c1 j
              else Lagrange_gpu mb.xlist nSide loc.c1 j) *
          (if b = 2 then dLagrange_gpu mb.xlist nSide loc.c2 k
              else Lagrange_gpu mb.xlist nSide loc.c2 k)) +
      A (3 * a + 0) * ((mb.xlist i * (if b = 0 then dLagrange_gpu mb.xlist nSide loc.c0 i
              else Lagrange_gpu mb.xlist nSide loc.c0 i)) *
          (if b = 1 then dLagrange_gpu mb.xlist nSide loc.c1 j
              else Lagrange_gpu mb.xlist nSide loc.c1 j) *
          (if b = 2 then dLagrange_gpu mb.xlist nSide loc.c2 k
              else Lagrange_gpu mb.xlist nSide loc.c2 k)) +
      A (3 * a + 1) * ((if b = 0 then dLagrange_gpu mb.xlist nSide loc.c0 i
              else Lagrange_gpu mb.xlist nSide loc.c0 i) *
          (mb.xlist j * (if b = 1 then dLagrange_gpu mb.xlist nSide loc.c1 j
              else Lagrange_gpu mb.xlist nSide loc.c1 j)) *
          (if b = 2 then dLagrange_gpu mb.xlist nSide loc.c2 k
              else Lagrange_gpu mb.xlist nSide loc.c2 k)) +
      A (3 * a + 2) * ((if b = 0 then dLagrange_gpu mb.xlist nSide loc.c0 i
              else Lagrange_gpu mb.xlist nSide loc.c0 i) *
          (if b = 1 then dLagrange_gpu mb.xlist nSide loc.c1 j
              else Lagrange_gpu mb.xlist nSide loc.c1 j) *
          (mb.xlist k * (if b = 2 then dLagrange_gpu mb.xlist nSide loc.c2 k
              else Lagrange_gpu mb.xlist nSide loc.c2 k))) := by
    intro k hk j hj i hi
    rw [Finset.mem_range] at hk hj hi
    have hat := calcDShape_at mb nSide shape dshape loc hg i j k hi hj hk
    rw [haff i hi j hj k hk a ha]
    interval_cases b
    · rw [hat.2.1]; simp only [if_true, if_false, OfNat.zero_ne_ofNat, OfNat.ofNat_ne_zero,
        zero_ne_one, one_ne_zero]; ring
    · rw [hat.2.2.1]; simp only [if_true, if_false, OfNat.zero_ne_ofNat, OfNat.ofNat_ne_zero,
        zero_ne_one, one_ne_zero, OfNat.one_ne_ofNat]; ring
    · rw [hat.2.2.2]; simp only [if_true, if_false, OfNat.zero_ne_ofNat, OfNat.ofNat_ne_zero,
        zero_ne_one, one_ne_zero, OfNat.ofNat_ne_one]; ring
  rw [Finset.sum_congr rfl (fun k hk => Finset.sum_congr rfl (fun j hj =>
    Finset.sum_congr rfl (fun i hi => hterm k hk j hj i hi)))]
  simp only [Finset.sum_add_distrib, ← Finset.mul_sum, sum_tensor_mul]
  have h1 := fun ξ => sum_Lagrange_gpu mb.xlist nSide ξ hx (by omega)
  have h2 := fun ξ => sum_mul_Lagrange_gpu mb.xlist nSide ξ hx hn
  have h3 := fun ξ => sum_dLagrange_gpu mb.xlist nSide ξ hx (by omega)
  have h4 := fun ξ => sum_mul_dLagrange_gpu mb.xlist nSide ξ hx hn
  interval_cases b
  · simp only [if_true, if_false, OfNat.zero_ne_ofNat, OfNat.ofNat_ne_zero,
      zero_ne_one, one_ne_zero, h1, h2, h3, h4]; ring
  · simp only [if_true, if_false, OfNat.zero_ne_ofNat, OfNat.ofNat_ne_zero,
      zero_ne_one, one_ne_zero, OfNat.one_ne_ofNat, h1, h2, h3, h4]; ring
  · simp only [if_true, if_false, OfNat.zero_ne_ofNat, OfNat.ofNat_ne_zero,
      zero_ne_one, one_ne_zero, OfNat.ofNat_ne_one, h1, h2, h3, h4]; ring

end Affine

/-! ## The Newton step on an affine element -/

theorem det_3x3_congr (M N : Arr) (h : ∀ m, m < 9 → M m = N m) : det_3x3 M = det_3x3 N := by
  unfold det_3x3
  rw [h 0 (by omega), h 1 (by omega), h 2 (by omega), h 3 (by omega), h 4 (by omega),
    h 5 (by omega), h 6 (by omega), h 7 (by omega), h 8 (by omega)]

theorem adjoint_3x3_congr (M N : Arr) (h : ∀ m, m < 9 → M m = N m) :
    adjoint_3x3 M = adjoint_3x3 N := by
  funext m
  unfold adjoint_3x3
  rw [h 0 (by omega), h 1 (by omega), h 2 (by omega), h 3 (by omega), h 4 (by omega),
    h 5 (by omega), h 6 (by omega), h 7 (by omega), h 8 (by omega)]

theorem det_3x3_negZero_congr (M N : Arr) (h : ∀ m, m < 9 → M m = N m) :
    det_3x3_negZero M = det_3x3_negZero N := by
  unfold det_3x3_negZero
  simp only []
  rw [h 0 (by omega), h 1 (by omega), h 2 (by omega), h 3 (by omega), h 4 (by omega),
    h 5 (by omega), h 6 (by omega), h 7 (by omega), h 8 (by omega)]

theorem deltaOf_congr (M N dx : Arr) (h : ∀ m, m < 9 → M m = N m) (i : Nat) :
    deltaOf M dx i = deltaOf N dx i := by
  unfold deltaOf
  rw [det_3x3_congr M N h, adjoint_3x3_congr M N h, det_3x3_negZero_congr M N h]

/-- The adjugate formula solves the linear system: if `dx = M q` and `det M ≠ 0`, the
Newton step is `q`. -/
theorem deltaOf_solve (M dx : Arr) (q0 q1 q2 : ℚ) (hdet : det_3x3 M ≠ 0)
    (h0 : dx 0 = M 0 * q0 + M 1 * q1 + M 2 * q2)
    (h1 : dx 1 = M 3 * q0 + M 4 * q1 + M 5 * q2)
    (h2 : dx 2 = M 6 * q0 + M 7 * q1 + M 8 * q2) :
    deltaOf M dx 0 = Dbl.fin q0 ∧ deltaOf M dx 1 = Dbl.fin q1 ∧
      deltaOf M dx 2 = Dbl.fin q2 := by
  unfold deltaOf
  simp only [Dbl.div, if_neg hdet, Dbl.add, adjoint_3x3, h0, h1, h2]
  unfold det_3x3 at hdet ⊢
  refine ⟨?_, ?_, ?_⟩
  · congr 1
    field_simp
    ring
  · congr 1
    field_simp
    ring
  · congr 1
    field_simp
    ring

theorem clampStep_of_mem (r d : ℚ) (h1 : -1 ≤ r + d) (h2 : r + d ≤ 1) :
    clampStep r (Dbl.fin d) = r + d := by
  show max (min (r + d) 1) (-1) = r + d
  rw [min_eq_left h2, max_eq_left h1]

theorem nextIter_norm (s : NewtonState) : (nextIter s).norm = s.norm := rfl

theorem nextIter_rst (s : NewtonState) : (nextIter s).rst = s.rst := rfl

theorem nextIter_iter (s : NewtonState) : (nextIter s).iter = s.iter + 1 := rfl

theorem nextIter_passes (s : NewtonState) : (nextIter s).passes = s.passes := rfl

section AffineNewton

variable (mb : dMeshBlock) (nSide : Nat) (coords c A xyz : Arr) (p : Vec3)

/-- One pass on an affine element whose target is the image of `p`: the new guess is `p`,
and the norm is that of the image of `p` minus the image of the old guess. -/
theorem newtonPass_affine (hn : 2 ≤ nSide) (hx : DistinctNodes mb.xlist nSide)
    (hg : NodeOrderOK mb.ijk2gmsh nSide) (haff : AffineElement mb nSide coords c A)
    (hdet : det_3x3 A ≠ 0) (hp : inCube p)
    (hxyz : ∀ d, d < 3 → xyz d = affineAt c A p d) (s : NewtonState) :
    (newtonPass mb nSide coords xyz s).rst = p ∧
    (newtonPass mb nSide coords xyz s).norm =
      ⟨(affineAt c A p 0 - affineAt c A s.rst 0) * (affineAt c A p 0 - affineAt c A s.rst 0) +
       (affineAt c A p 1 - affineAt c A s.rst 1) * (affineAt c A p 1 - affineAt c A s.rst 1) +
       (affineAt c A p 2 - affineAt c A s.rst 2) *
        (affineAt c A p 2 - affineAt c A s.rst 2)⟩ := by
  have hdx : ∀ d, d < 3 →
      dxOf (nSide * nSide * nSide) coords xyz (calcDShape mb nSide s.shape s.dshape s.rst).1 d =
        affineAt c A p d - affineAt c A s.rst d := by
    intro d hd
    rw [dxOf_eq_sub_isoMap, isoMap_affine mb nSide coords c A hn hx hg haff _ _ _ d hd,
      hxyz d hd]
  have hgrad : ∀ m, m < 9 →
      (fun m => gradOf (nSide * nSide * nSide) coords
        (calcDShape mb nSide s.shape s.dshape s.rst).2 (m / 3) (m % 3)) m = A m := by
    intro m hm
    have h := gradOf_affine mb nSide coords c A hn hx hg haff s.shape s.dshape s.rst
      (m / 3) (m % 3) (by omega) (by omega)
    simp only []
    rw [h]
    congr 1
    omega
  have hsolve := deltaOf_solve A
    (dxOf (nSide * nSide * nSide) coords xyz (calcDShape mb nSide s.shape s.dshape s.rst).1)
    (p.c0 - s.rst.c0) (p.c1 - s.rst.c1) (p.c2 - s.rst.c2) hdet
    (by rw [hdx 0 (by omega)]; unfold affineAt; ring)
    (by rw [hdx 1 (by omega)]; unfold affineAt; ring)
    (by rw [hdx 2 (by omega)]; unfold affineAt; ring)
  obtain ⟨⟨hp0, hp0'⟩, ⟨hp1, hp1'⟩, ⟨hp2, hp2'⟩⟩ := hp
  unfold newtonPass
  simp only []
  refine ⟨?_, ?_⟩
  · rw [deltaOf_congr _ A _ hgrad 0, deltaOf_congr _ A _ hgrad 1, deltaOf_congr _ A _ hgrad 2,
      hsolve.1, hsolve.2.1, hsolve.2.2,
      clampStep_of_mem _ _ (by linarith) (by linarith),
      clampStep_of_mem _ _ (by linarith) (by linarith),
      clampStep_of_mem _ _ (by linarith) (by linarith)]
    cases p
    simp
  · rw [hdx 0 (by omega), hdx 1 (by omega), hdx 2 (by omega)]

/-- On a non-degenerate affine element, for a target that is the image of a point `p` of the
reference cube and a tolerance in `[0, 1)`, `getRefLoc` returns true with `rst = p`, after
at most two passes. -/
theorem getRefLoc_affine (u : Scratch) (bbox : Arr) (hn : 2 ≤ nSide)
    (hx : DistinctNodes mb.xlist nSide)
    (hg : NodeOrderOK mb.ijk2gmsh nSide) (haff : AffineElement mb nSide coords c A)
    (hdet : det_3x3 A ≠ 0) (hp : inCube p)
    (hxyz : ∀ d, d < 3 → xyz d = affineAt c A p d)
    (htol0 : 0 ≤ tolOf bbox) (htol1 : tolOf bbox < 1) :
    getRefLoc mb nSide u coords bbox xyz = (true, p) ∧
      (getRefLocState mb nSide u coords bbox xyz).passes ≤ 2 := by
  have hpass := newtonPass_affine mb nSide coords c A xyz p hn hx hg haff hdet hp hxyz
  have hc0 : loopCond (tolOf bbox) (initState u) := by
    refine ⟨Or.inr ?_, by unfold initState iterMax; simp⟩
    unfold initState SqrtVal.ofConst
    simp only []
    nlinarith
  have hzero : ∀ t : ℚ, 0 ≤ t → ¬ (SqrtVal.mk 0).gt t := by
    intro t ht h
    rcases h with h | h
    · linarith
    · simp only [] at h; nlinarith
  unfold getRefLoc getRefLocState
  simp only []
  unfold iterMax
  rw [newtonLoop_succ, if_pos hc0, if_neg (by unfold stallCond; rw [newtonPass_iter]; simp [initState])]
  rw [newtonLoop_succ]
  by_cases hc1 : loopCond (tolOf bbox) (nextIter (newtonPass mb nSide coords xyz (initState u)))
  · rw [if_pos hc1,
      if_neg (by unfold stallCond; rw [newtonPass_iter]; simp [nextIter, newtonPass_iter, initState])]
    have h2 := hpass (nextIter (newtonPass mb nSide coords xyz (initState u)))
    have hr : (nextIter (newtonPass mb nSide coords xyz (initState u))).rst = p :=
      (hpass (initState u)).1
    rw [hr] at h2
    simp only [sub_self, mul_zero, add_zero] at h2
    have hc2 : ¬ loopCond (tolOf bbox)
        (nextIter (newtonPass mb nSide coords xyz
          (nextIter (newtonPass mb nSide coords xyz (initState u))))) := by
      intro h
      have h' := h.1
      rw [nextIter_norm, h2.2] at h'
      exact hzero _ htol0 h'
    rw [newtonLoop_succ, if_neg hc2]
    refine ⟨?_, ?_⟩
    · refine Prod.ext ?_ ?_
      · simp only [decide_eq_true_eq]
        rw [nextIter_norm, h2.2, SqrtVal.le_iff_not_gt]
        exact hzero _ htol0
      · exact h2.1
    · simp [nextIter, newtonPass_passes, initState]
  · rw [if_neg hc1]
    refine ⟨?_, ?_⟩
    · refine Prod.ext ?_ ?_
      · simp only [decide_eq_true_eq]
        rw [SqrtVal.le_iff_not_gt]
        intro h
        exact hc1 ⟨h, by simp [nextIter, newtonPass_iter, initState, iterMax]⟩
      · exact (hpass (initState u)).1
    · simp [nextIter, newtonPass_passes, initState]

end AffineNewton

/-! ## The unit cube -/

/-- C1. Trilinear element (`nSide = 2`, nodal locations `-1, 1`, any bijective node order)
whose node of tensor index `(i, j, k)` is the corner `(i, j, k)` of `[0,1]³`, with bounding
box `(0,0,0,1,1,1)`: for the target `(1/2, 1/2, 1/2)` `getRefLoc` returns true with
`rst = (0,0,0)`, and for the target `(1,1,1)` it returns true with `rst = (1,1,1)`. -/
theorem getRefLoc_unit_cube (mb : dMeshBlock) (u : Scratch) (coords bbox xyzA xyzB : Arr)
    (hx0 : mb.xlist 0 = -1) (hx1 : mb.xlist 1 = 1) (hg : NodeOrderOK mb.ijk2gmsh 2)
    (hcoords : ∀ i, i < 2 → ∀ j, j < 2 → ∀ k, k < 2 →
      coords (0 + 3 * mb.ijk2gmsh (i + 2 * (j + 2 * k))) = (i : ℚ) ∧
      coords (1 + 3 * mb.ijk2gmsh (i + 2 * (j + 2 * k))) = (j : ℚ) ∧
      coords (2 + 3 * mb.ijk2gmsh (i + 2 * (j + 2 * k))) = (k : ℚ))
    (hbbox : bbox 0 = 0 ∧ bbox 1 = 0 ∧ bbox 2 = 0 ∧ bbox 3 = 1 ∧ bbox 4 = 1 ∧ bbox 5 = 1)
    (hA : xyzA 0 = 1 / 2 ∧ xyzA 1 = 1 / 2 ∧ xyzA 2 = 1 / 2)
    (hB : xyzB 0 = 1 ∧ xyzB 1 = 1 ∧ xyzB 2 = 1) :
    getRefLoc mb 2 u coords bbox xyzA = (true, ⟨0, 0, 0⟩) ∧
    getRefLoc mb 2 u coords bbox xyzB = (true, ⟨1, 1, 1⟩) := by
  have hx : DistinctNodes mb.xlist 2 := by
    intro i hi j hj hij
    interval_cases i <;> interval_cases j
    · rfl
    · rw [hx0, hx1] at hij; norm_num at hij
    · rw [hx0, hx1] at hij; norm_num at hij
    · rfl
  have hxi : ∀ i, i < 2 → mb.xlist i = 2 * (i : ℚ) - 1 := by
    intro i hi
    interval_cases i
    · rw [hx0]; norm_num
    · rw [hx1]; norm_num
  have haff : AffineElement mb 2 coords cubeCentre cubeMatrix := by
    intro i hi j hj k hk d hd
    obtain ⟨h0, h1, h2⟩ := hcoords i hi j hj k hk
    rw [hxi i hi, hxi j hj, hxi k hk]
    interval_cases d
    · rw [h0]; simp [cubeCentre, cubeMatrix, arrOfList]; ring
    · rw [h1]; simp [cubeCentre, cubeMatrix, arrOfList]; ring
    · rw [h2]; simp [cubeCentre, cubeMatrix, arrOfList]; ring
  have hdet : det_3x3 cubeMatrix ≠ 0 := by
    simp [det_3x3, cubeMatrix, arrOfList]
  obtain ⟨b0, b1, b2, b3, b4, b5⟩ := hbbox
  have htol : tolOf bbox = 1 / 1000000000000 := by
    unfold tolOf
    rw [b0, b1, b2, b3, b4, b5]
    norm_num
  obtain ⟨a0, a1, a2⟩ := hA
  obtain ⟨c0, c1, c2⟩ := hB
  refine ⟨?_, ?_⟩
  · refine (getRefLoc_affine mb 2 coords cubeCentre cubeMatrix xyzA ⟨0, 0, 0⟩ u bbox
      (le_refl 2) hx hg haff hdet (by simp [inCube]) ?_ (by rw [htol]; norm_num)
      (by rw [htol]; norm_num)).1
    intro d hd
    interval_cases d
    · rw [a0]; simp [affineAt, cubeCentre]
    · rw [a1]; simp [affineAt, cubeCentre]
    · rw [a2]; simp [affineAt, cubeCentre]
  · refine (getRefLoc_affine mb 2 coords cubeCentre cubeMatrix xyzB ⟨1, 1, 1⟩ u bbox
      (le_refl 2) hx hg haff hdet (by simp [inCube]) ?_ (by rw [htol]; norm_num)
      (by rw [htol]; norm_num)).1
    intro d hd
    interval_cases d
    · rw [c0]; simp [affineAt, cubeCentre, cubeMatrix, arrOfList]; norm_num
    · rw [c1]; simp [affineAt, cubeCentre, cubeMatrix, arrOfList]; norm_num
    · rw [c2]; simp [affineAt, cubeCentre, cubeMatrix, arrOfList]; norm_num

/-- The unit-cube scenario on the identity node order. -/
theorem getRefLoc_unit_cube_witness :
    getRefLoc mbTri 2 u0 cubeCoords cubeBBox (arrOfList [1 / 2, 1 / 2, 1 / 2]) =
        (true, ⟨0, 0, 0⟩) ∧
    getRefLoc mbTri 2 u0 cubeCoords cubeBBox (arrOfList [1, 1, 1]) = (true, ⟨1, 1, 1⟩) :=
  getRefLoc_unit_cube mbTri u0 cubeCoords cubeBBox (arrOfList [1 / 2, 1 / 2, 1 / 2])
    (arrOfList [1, 1, 1]) (by decide!) (by decide!) (by decide!) (by decide!) (by decide!)
    (by decide!) (by decide!)

/-! ## Convergence criterion, iteration bound -/

/-- C7. When at least one pass of the loop runs, `getRefLoc` returns true if and only if the
Euclidean distance between the target and the forward map at the guess `t.rst` from which
the last executed pass started is at most `tol`; the returned `rst` is the clamped Newton
update that pass made of that guess, and the step does not enter the decision. -/
theorem getRefLoc_true_iff_last_residual (mb : dMeshBlock) (nSide : Nat) (u : Scratch)
    (coords bbox xyz : Arr)
    (hrun : 0 < (getRefLocState mb nSide u coords bbox xyz).passes) :
    ∃ t : NewtonState,
      (passStarts mb nSide coords xyz (tolOf bbox) iterMax (initState u)).getLast? = some t ∧
      ((getRefLoc mb nSide u coords bbox xyz).1 = true ↔
        (residNorm mb nSide t.shape t.dshape coords xyz t.rst).le (tolOf bbox)) ∧
      (getRefLoc mb nSide u coords bbox xyz).2 = (newtonPass mb nSide coords xyz t).rst :=
  getRefLoc_last_pass mb nSide u coords bbox xyz hrun

/-- The criterion on the unit cube with target `(1,1,1)`, where two passes run. -/
theorem getRefLoc_true_iff_last_residual_witness :
    0 < (getRefLocState mbTri 2 u0 cubeCoords cubeBBox (arrOfList [1, 1, 1])).passes ∧
    ∃ t : NewtonState,
      (passStarts mbTri 2 cubeCoords (arrOfList [1, 1, 1]) (tolOf cubeBBox) iterMax
        (initState u0)).getLast? = some t ∧
      ((getRefLoc mbTri 2 u0 cubeCoords cubeBBox (arrOfList [1, 1, 1])).1 = true ↔
        (residNorm mbTri 2 t.shape t.dshape cubeCoords (arrOfList [1, 1, 1]) t.rst).le
          (tolOf cubeBBox)) ∧
      (getRefLoc mbTri 2 u0 cubeCoords cubeBBox (arrOfList [1, 1, 1])).2 =
        (newtonPass mbTri 2 cubeCoords (arrOfList [1, 1, 1]) t).rst :=
  ⟨by decide!,
    getRefLoc_true_iff_last_residual mbTri 2 u0 cubeCoords cubeBBox (arrOfList [1, 1, 1])
      (by decide!)⟩

theorem passStarts_prism_length :
    9 < (passStarts mbTri 2 prismCoords prismTarget (tolOf prismBBox) iterMax
      (initState u0)).length := by decide!

/-- On the convex element `prismCoords` with its own bounding box and one of its vertices as
target, the loop makes all ten passes and `getRefLoc` returns false. -/
theorem getRefLoc_bounded_witness :
    (passStarts mbTri 2 prismCoords prismTarget (tolOf prismBBox) iterMax (initState u0)).length =
      10 ∧
    (getRefLoc mbTri 2 u0 prismCoords prismBBox prismTarget).1 = false :=
  ⟨by decide!,
    (getRefLoc_bounded mbTri 2 u0 prismCoords prismBBox prismTarget).2.2.2
      ((passStarts mbTri 2 prismCoords prismTarget (tolOf prismBBox) iterMax (initState u0)).get
        ⟨9, passStarts_prism_length⟩)
      (List.get?_eq_get passStarts_prism_length)
      (by decide!)⟩

/-! ## Soundness of a found answer -/

theorem passStarts_inCube (mb : dMeshBlock) (nSide : Nat) (coords xyz : Arr) (tol : ℚ)
    (fuel : Nat) (s : NewtonState) (h : inCube s.rst) :
    ∀ t ∈ passStarts mb nSide coords xyz tol fuel s, inCube t.rst := by
  induction fuel generalizing s with
  | zero => intro t ht; simp [passStarts] at ht
  | succ fuel ih =>
    intro t ht
    rw [passStarts_succ] at ht
    split_ifs at ht with hc hs
    · rw [List.mem_singleton] at ht; rw [ht]; exact h
    · rcases List.mem_cons.mp ht with h1 | h1
      · rw [h1]; exact h
      · exact ih (nextIter (newtonPass mb nSide coords xyz s))
          (newtonPass_inCube mb nSide coords xyz s) t h1
    · simp at ht

/-- C2, counterexample. (a) On the cube of side `2·10¹²` with its own bounding box
(`tol = 2`) `getRefLoc` returns true with `rst = (0,0,0)` for the target `(0,0,0)`, a corner
of the cube, although the forward map at `rst` is the centre of the cube, `√3·10¹²` away.
(b) On the element `foldCoords` with its own bounding box (`tol = 2·10⁻¹²`) it returns true
for `foldTarget`, and the forward map at the returned `rst` is farther than `tol` from the
target. -/
theorem getRefLoc_found_not_sound :
    ((getRefLoc mbTri 2 u0 (scaleArr 2000000000000 cubeCoords)
        (scaleArr 2000000000000 cubeBBox) zeroArr).1 = true ∧
      ¬ (residNorm mbTri 2 u0.shape u0.dshape (scaleArr 2000000000000 cubeCoords) zeroArr
          (getRefLoc mbTri 2 u0 (scaleArr 2000000000000 cubeCoords)
            (scaleArr 2000000000000 cubeBBox) zeroArr).2).le
        (tolOf (scaleArr 2000000000000 cubeBBox))) ∧
    ((getRefLoc mbTri 2 u0 foldCoords foldBBox foldTarget).1 = true ∧
      tolOf foldBBox < 1 ∧
      ¬ (residNorm mbTri 2 u0.shape u0.dshape foldCoords foldTarget
          (getRefLoc mbTri 2 u0 foldCoords foldBBox foldTarget).2).le (tolOf foldBBox)) := by
  decide!

/-- C2, amended. Whenever `getRefLoc` returns true after at least one pass of the loop
(`tol < 1`), the forward map at the guess `t.rst` from which the last pass started, a point
of the reference cube, is within `tol` of the target; the returned `rst` is the clamped
Newton update of that guess. -/
theorem getRefLoc_found_sound (mb : dMeshBlock) (nSide : Nat) (u : Scratch)
    (coords bbox xyz : Arr) (htol : tolOf bbox < 1)
    (hfound : (getRefLoc mb nSide u coords bbox xyz).1 = true) :
    ∃ t : NewtonState,
      (passStarts mb nSide coords xyz (tolOf bbox) iterMax (initState u)).getLast? = some t ∧
      inCube t.rst ∧
      (residNorm mb nSide t.shape t.dshape coords xyz t.rst).le (tolOf bbox) ∧
      (getRefLoc mb nSide u coords bbox xyz).2 = (newtonPass mb nSide coords xyz t).rst := by
  obtain ⟨t, ht, hiff, hrst⟩ := getRefLoc_last_pass mb nSide u coords bbox xyz
    ((passes_pos_iff mb nSide u coords bbox xyz).mpr htol)
  refine ⟨t, ht, ?_, hiff.mp hfound, hrst⟩
  exact passStarts_inCube mb nSide coords xyz (tolOf bbox) iterMax (initState u)
    (by simp [initState, inCube]) t (List.mem_of_getLast?_eq_some ht)

/-- The amended soundness on the unit cube with target `(1,1,1)`. -/
theorem getRefLoc_found_sound_witness :
    ∃ t : NewtonState,
      (passStarts mbTri 2 cubeCoords (arrOfList [1, 1, 1]) (tolOf cubeBBox) iterMax
        (initState u0)).getLast? = some t ∧
      inCube t.rst ∧
      (residNorm mbTri 2 t.shape t.dshape cubeCoords (arrOfList [1, 1, 1]) t.rst).le
        (tolOf cubeBBox) ∧
      (getRefLoc mbTri 2 u0 cubeCoords cubeBBox (arrOfList [1, 1, 1])).2 =
        (newtonPass mbTri 2 cubeCoords (arrOfList [1, 1, 1]) t).rst :=
  getRefLoc_found_sound mbTri 2 u0 cubeCoords cubeBBox (arrOfList [1, 1, 1]) (by decide!)
    (by decide!)

/-! ## Round trip -/

theorem forRange2_establish {σ : Type} (Q : σ → Prop) (n m : Nat)
    (W : Nat → Nat → σ → σ) (i d : Nat) (hi : i < n) (hd : d < m)
    (hset : ∀ s, Q (W i d s))
    (hkeep : ∀ i' d', i' < n → d' < m → (i', d') ≠ (i, d) → ∀ s, Q s → Q (W i' d' s))
    (s : σ) :
    Q (forRange n (fun i => forRange m (fun d => W i d)) s) := by
  refine forRange_establish Q n _ _ i hi (fun s => ?_) (fun i' hi1 hi2 s hQ => ?_)
  · refine forRange_establish Q m _ _ d hd (fun s => ?_) (fun d' hd1 hd2 s hQ => ?_)
    · exact hset s
    · exact hkeep i d' hi hd2 (by simp; omega) s hQ
  · refine forRange_invariant Q m _ s hQ (fun d' hd' s hQ => ?_)
    exact hkeep i' d' hi2 hd' (by simp; omega) s hQ

/-- The gather loop stores coordinate `d` of node `i` of the element at `ecoord[i*ndim + d]`,
read from `coord[ele + ncells*(d + ndim*i)]`, the index evaluated in `int`. -/
theorem gatherCoords_at (mb : dMeshBlock) (ndim nNodes : Nat) (ele : Int) (ecoord : Arr)
    (i d : Nat) (hi : i < nNodes) (hd : d < ndim) :
    gatherCoords mb ndim nNodes ele ecoord (i * ndim + d) =
      mb.coord (int32 (ele + int32 (mb.ncells *
        int32 ((d : Int) + int32 ((ndim : Int) * (i : Int)))))) := by
  unfold gatherCoords
  refine forRange2_establish
    (fun ec : Arr => ec (i * ndim + d) = mb.coord (int32 (ele + int32 (mb.ncells *
      int32 ((d : Int) + int32 ((ndim : Int) * (i : Int)))))))
    nNodes ndim _ i d hi hd (fun s => ?_) (fun i' d' hi' hd' hne s hQ => ?_) ecoord
  · exact Function.update_same _ _ _
  · have hidx : i * ndim + d ≠ i' * ndim + d' := by
      intro h
      have h' : d + ndim * i = d' + ndim * i' := by
        rw [Nat.mul_comm ndim i, Nat.mul_comm ndim i']; omega
      obtain ⟨h1, h2⟩ := mixedRadix_inj ndim d d' i i' hd hd' h'
      exact hne (by rw [h1, h2])
    show Function.update s (i' * ndim + d')
      (mb.coord (int32 (ele + int32 (mb.ncells *
        int32 ((d' : Int) + int32 ((ndim : Int) * (i' : Int))))))) (i * ndim + d) = _
    rw [Function.update_noteq hidx]
    exact hQ

/-- The gathered coordinate `d` of node `i`, at the position `d + 3*i` that `getRefLoc`
reads. -/
theorem gatherCoords_read (mb : dMeshBlock) (nNodes : Nat) (ele : Int) (ecoord : Arr)
    (i d : Nat) (hi : i < nNodes) (hd : d < 3) :
    gatherCoords mb 3 nNodes ele ecoord (d + 3 * i) = mb.coord (coordIdx mb.ncells ele d i) := by
  rw [show d + 3 * i = i * 3 + d by omega, gatherCoords_at mb 3 nNodes ele ecoord i d hi hd]
  rfl

/-! ## Scaling of the physical lengths -/

section Scale

variable (mb : dMeshBlock) (nSide : Nat) (coords xyz : Arr) (k : ℚ)

theorem tolOf_scale (bbox : Arr) (hk : 0 ≤ k) :
    tolOf (scaleArr k bbox) = k * tolOf bbox := by
  unfold tolOf scaleArr
  simp only []
  rw [← mul_sub, ← mul_sub, ← mul_sub, ← mul_min_of_nonneg _ _ hk, ← mul_min_of_nonneg _ _ hk]
  ring

theorem gradOf_scale (nNodes : Nat) (dshape : Arr) (i j : Nat) :
    gradOf nNodes (scaleArr k coords) dshape i j = k * gradOf nNodes coords dshape i j := by
  unfold gradOf scaleArr
  rw [forRange_add_sum, forRange_add_sum, zero_add, zero_add, Finset.mul_sum]
  refine Finset.sum_congr rfl (fun nd _ => ?_)
  ring

theorem dxOf_scale (nNodes : Nat) (shape : Arr) (i : Nat) :
    dxOf nNodes (scaleArr k coords) (scaleArr k xyz) shape i =
      k * dxOf nNodes coords xyz shape i := by
  unfold dxOf scaleArr
  rw [forRange_sub_sum, forRange_sub_sum, mul_sub, Finset.mul_sum]
  congr 1
  refine Finset.sum_congr rfl (fun nd _ => ?_)
  ring

theorem det_3x3_scale (M : Arr) : det_3x3 (fun m => k * M m) = k * k * k * det_3x3 M := by
  unfold det_3x3
  ring

theorem adjoint_3x3_scale (M : Arr) (m : Nat) :
    adjoint_3x3 (fun m => k * M m) m = k * k * adjoint_3x3 M m := by
  unfold adjoint_3x3
  split <;> ring

theorem Dbl.div_scale (c x y : ℚ) (z : Bool) (hc : 0 < c) :
    Dbl.div (c * x) (c * y) z = Dbl.div x y z := by
  unfold Dbl.div
  by_cases hy : y = 0
  · rw [if_pos hy, if_pos (by rw [hy, mul_zero])]
    by_cases hx : x = 0
    · rw [if_pos hx, if_pos (by rw [hx, mul_zero])]
    · rw [if_neg hx, if_neg (mul_ne_zero hc.ne' hx)]
      have hs : decide (c * x < 0) = decide (x < 0) := by
        rw [decide_eq_decide]
        exact ⟨fun h => by nlinarith, fun h => by nlinarith⟩
      rw [hs]
  · rw [if_neg hy, if_neg (mul_ne_zero hc.ne' hy), mul_div_mul_left _ _ hc.ne']

/-- A positive scaling keeps the sign bit. -/
theorem Signed.ofRat_scale (c q : ℚ) (hc : 0 < c) :
    (Signed.ofRat (c * q)).val = c * (Signed.ofRat q).val ∧
    (Signed.ofRat (c * q)).neg = (Signed.ofRat q).neg := by
  refine ⟨rfl, ?_⟩
  show decide (c * q < 0) = decide (q < 0)
  rw [decide_eq_decide]
  exact ⟨fun h => by nlinarith, fun h => by nlinarith⟩

theorem Signed.mul_scale (c d : ℚ) (a a' b b' : Signed)
    (ha : a'.val = c * a.val ∧ a'.neg = a.neg) (hb : b'.val = d * b.val ∧ b'.neg = b.neg) :
    (a'.mul b').val = c * d * (a.mul b).val ∧ (a'.mul b').neg = (a.mul b).neg := by
  refine ⟨?_, ?_⟩
  · show a'.val * b'.val = c * d * (a.val * b.val)
    rw [ha.1, hb.1]
    ring
  · show (a'.neg != b'.neg) = (a.neg != b.neg)
    rw [ha.2, hb.2]

theorem Signed.sub_scale (c : ℚ) (hc : 0 < c) (a a' b b' : Signed)
    (ha : a'.val = c * a.val ∧ a'.neg = a.neg) (hb : b'.val = c * b.val ∧ b'.neg = b.neg) :
    (a'.sub b').val = c * (a.sub b).val ∧ (a'.sub b').neg = (a.sub b).neg := by
  have hv : a'.val - b'.val = c * (a.val - b.val) := by rw [ha.1, hb.1]; ring
  refine ⟨hv, ?_⟩
  show (if a'.val - b'.val = 0 then a'.neg && !b'.neg else decide (a'.val - b'.val < 0)) =
    (if a.val - b.val = 0 then a.neg && !b.neg else decide (a.val - b.val < 0))
  rw [hv, ha.2, hb.2]
  by_cases h0 : a.val - b.val = 0
  · rw [if_pos h0, if_pos (by rw [h0, mul_zero])]
  · rw [if_neg h0, if_neg (mul_ne_zero hc.ne' h0), decide_eq_decide]
    exact ⟨fun h => by nlinarith, fun h => by nlinarith⟩

theorem Signed.add_scale (c : ℚ) (hc : 0 < c) (a a' b b' : Signed)
    (ha : a'.val = c * a.val ∧ a'.neg = a.neg) (hb : b'.val = c * b.val ∧ b'.neg = b.neg) :
    (a'.add b').val = c * (a.add b).val ∧ (a'.add b').neg = (a.add b).neg := by
  have hv : a'.val + b'.val = c * (a.val + b.val) := by rw [ha.1, hb.1]; ring
  refine ⟨hv, ?_⟩
  show (if a'.val + b'.val = 0 then a'.neg && b'.neg else decide (a'.val + b'.val < 0)) =
    (if a.val + b.val = 0 then a.neg && b.neg else decide (a.val + b.val < 0))
  rw [hv, ha.2, hb.2]
  by_cases h0 : a.val + b.val = 0
  · rw [if_pos h0, if_pos (by rw [h0, mul_zero])]
  · rw [if_neg h0, if_neg (mul_ne_zero hc.ne' h0), decide_eq_decide]
    exact ⟨fun h => by nlinarith, fun h => by nlinarith⟩

/-- A positive scaling of the matrix does not change the sign of its determinant, zero
included. -/
theorem det_3x3_negZero_scale (M : Arr) (hk : 0 < k) :
    det_3x3_negZero (fun m => k * M m) = det_3x3_negZero M := by
  have hk2 : 0 < k * k := mul_pos hk hk
  have hk3 : 0 < k * (k * k) := mul_pos hk hk2
  have ha : ∀ m, (Signed.ofRat (k * M m)).val = k * (Signed.ofRat (M m)).val ∧
      (Signed.ofRat (k * M m)).neg = (Signed.ofRat (M m)).neg :=
    fun m => Signed.ofRat_scale k (M m) hk
  have hminor : ∀ p q r t,
      (((Signed.ofRat (k * M p)).mul (Signed.ofRat (k * M q))).sub
        ((Signed.ofRat (k * M r)).mul (Signed.ofRat (k * M t)))).val =
        k * k * (((Signed.ofRat (M p)).mul (Signed.ofRat (M q))).sub
          ((Signed.ofRat (M r)).mul (Signed.ofRat (M t)))).val ∧
      (((Signed.ofRat (k * M p)).mul (Signed.ofRat (k * M q))).sub
        ((Signed.ofRat (k * M r)).mul (Signed.ofRat (k * M t)))).neg =
        (((Signed.ofRat (M p)).mul (Signed.ofRat (M q))).sub
          ((Signed.ofRat (M r)).mul (Signed.ofRat (M t)))).neg :=
    fun p q r t => Signed.sub_scale (k * k) hk2 _ _ _ _
      (Signed.mul_scale k k _ _ _ _ (ha p) (ha q)) (Signed.mul_scale k k _ _ _ _ (ha r) (ha t))
  unfold det_3x3_negZero
  exact (Signed.add_scale (k * (k * k)) hk3 _ _ _ _
    (Signed.sub_scale (k * (k * k)) hk3 _ _ _ _
      (Signed.mul_scale k (k * k) _ _ _ _ (ha 0) (hminor 4 8 5 7))
      (Signed.mul_scale k (k * k) _ _ _ _ (ha 1) (hminor 3 8 5 6)))
    (Signed.mul_scale k (k * k) _ _ _ _ (ha 2) (hminor 3 7 4 6))).2

/-- Scaling the Jacobian and the residual by the same positive factor leaves the Newton step
unchanged. -/
theorem deltaOf_scale (M dx : Arr) (hk : 0 < k) (i : Nat) :
    deltaOf (fun m => k * M m) (fun d => k * dx d) i = deltaOf M dx i := by
  have hk3 : 0 < k * k * k := mul_pos (mul_pos hk hk) hk
  have key : ∀ (a d : ℚ) (z : Bool),
      Dbl.div (k * k * a * (k * d)) (k * k * k * det_3x3 M) z =
        Dbl.div (a * d) (det_3x3 M) z := by
    intro a d z
    rw [show k * k * a * (k * d) = k * k * k * (a * d) by ring, Dbl.div_scale _ _ _ _ hk3]
  unfold deltaOf
  simp only []
  rw [det_3x3_scale, det_3x3_negZero_scale k M hk, adjoint_3x3_scale, adjoint_3x3_scale,
    adjoint_3x3_scale, key, key, key]

/-- One pass on the scaled data, from a state with the same guess and arrays: the new guess
and arrays are the same, the norm is scaled. -/
theorem newtonPass_scale (hk : 0 < k) (a b : NewtonState) (hr : b.rst = a.rst)
    (hs : b.shape = a.shape) (hd : b.dshape = a.dshape) :
    (newtonPass mb nSide (scaleArr k coords) (scaleArr k xyz) b).rst =
      (newtonPass mb nSide coords xyz a).rst ∧
    (newtonPass mb nSide (scaleArr k coords) (scaleArr k xyz) b).norm.sq =
      k * k * (newtonPass mb nSide coords xyz a).norm.sq ∧
    (newtonPass mb nSide (scaleArr k coords) (scaleArr k xyz) b).shape =
      (newtonPass mb nSide coords xyz a).shape ∧
    (newtonPass mb nSide (scaleArr k coords) (scaleArr k xyz) b).dshape =
      (newtonPass mb nSide coords xyz a).dshape := by
  unfold newtonPass
  simp only []
  rw [hr, hs, hd]
  have hgrad : (fun m => gradOf (nSide * nSide * nSide) (scaleArr k coords)
      (calcDShape mb nSide a.shape a.dshape a.rst).2 (m / 3) (m % 3)) =
      (fun m => k * gradOf (nSide * nSide * nSide) coords
        (calcDShape mb nSide a.shape a.dshape a.rst).2 (m / 3) (m % 3)) := by
    funext m
    rw [gradOf_scale]
  have hdx : dxOf (nSide * nSide * nSide) (scaleArr k coords) (scaleArr k xyz)
      (calcDShape mb nSide a.shape a.dshape a.rst).1 =
      (fun d => k * dxOf (nSide * nSide * nSide) coords xyz
        (calcDShape mb nSide a.shape a.dshape a.rst).1 d) := by
    funext d
    rw [dxOf_scale]
  rw [hgrad, hdx]
  refine ⟨?_, ?_, rfl, rfl⟩
  · rw [deltaOf_scale k _ _ hk 0, deltaOf_scale k _ _ hk 1, deltaOf_scale k _ _ hk 2]
  · ring

theorem gt_scale (hk : 0 < k) (n n' : SqrtVal) (h : n'.sq = k * k * n.sq) (tol : ℚ) :
    n'.gt (k * tol) ↔ n.gt tol := by
  unfold SqrtVal.gt
  rw [h]
  have hkk : 0 < k * k := mul_pos hk hk
  constructor
  · rintro (h1 | h1)
    · left
      by_contra hcon
      exact absurd h1 (not_lt.mpr (mul_nonneg hk.le (not_lt.mp hcon)))
    · right
      have : k * k * (tol * tol) < k * k * n.sq := by
        calc k * k * (tol * tol) = k * tol * (k * tol) := by ring
          _ < k * k * n.sq := h1
      exact lt_of_mul_lt_mul_left this hkk.le
  · rintro (h1 | h1)
    · left
      exact mul_neg_of_pos_of_neg hk h1
    · right
      calc k * tol * (k * tol) = k * k * (tol * tol) := by ring
        _ < k * k * n.sq := mul_lt_mul_of_pos_left h1 hkk

theorem gtScaled_scale (hk : 0 < k) (n n' p p' : SqrtVal) (hn : n'.sq = k * k * n.sq)
    (hp : p'.sq = k * k * p.sq) (c : ℚ) :
    n'.gtScaled c p' ↔ n.gtScaled c p := by
  unfold SqrtVal.gtScaled
  rw [hn, hp]
  have hkk : 0 < k * k := mul_pos hk hk
  constructor
  · intro h
    have : k * k * (c * c * p.sq) < k * k * n.sq := by
      calc k * k * (c * c * p.sq) = c * c * (k * k * p.sq) := by ring
        _ < k * k * n.sq := h
    exact lt_of_mul_lt_mul_left this hkk.le
  · intro h
    calc c * c * (k * k * p.sq) = k * k * (c * c * p.sq) := by ring
      _ < k * k * n.sq := mul_lt_mul_of_pos_left h hkk

/-- The loop on the scaled data, with the scaled tolerance, from a scaled state: the states
stay in the ratio `k`. -/
theorem newtonLoop_scale (hk : 0 < k) (tol : ℚ) (fuel : Nat) (a b : NewtonState)
    (h : ScaledState k a b) :
    ScaledState k (newtonLoop mb nSide coords xyz tol fuel a)
      (newtonLoop mb nSide (scaleArr k coords) (scaleArr k xyz) (k * tol) fuel b) := by
  induction fuel generalizing a b with
  | zero => exact h
  | succ fuel ih =>
    obtain ⟨hr, hn, hp, hi, hs, hd, hpa, hst⟩ := h
    have hpass := newtonPass_scale mb nSide coords xyz k hk a b hr hs hd
    have hcond : loopCond (k * tol) b ↔ loopCond tol a := by
      unfold loopCond
      rw [gt_scale k hk a.norm b.norm hn tol, hi]
    have hstall : stallCond (newtonPass mb nSide (scaleArr k coords) (scaleArr k xyz) b) ↔
        stallCond (newtonPass mb nSide coords xyz a) := by
      have hsc := gtScaled_scale k hk (newtonPass mb nSide coords xyz a).norm
        (newtonPass mb nSide (scaleArr k coords) (scaleArr k xyz) b).norm
        (newtonPass mb nSide coords xyz a).norm_prev
        (newtonPass mb nSide (scaleArr k coords) (scaleArr k xyz) b).norm_prev
        hpass.2.1 hp (99 / 100)
      unfold stallCond
      rw [newtonPass_iter, newtonPass_iter, hi, hsc]
    rw [newtonLoop_succ, newtonLoop_succ]
    by_cases hc : loopCond tol a
    · rw [if_pos hc, if_pos (hcond.mpr hc)]
      by_cases hsc : stallCond (newtonPass mb nSide coords xyz a)
      · rw [if_pos hsc, if_pos (hstall.mpr hsc)]
        exact ⟨hpass.1, hpass.2.1, hp, hi, hpass.2.2.1, hpass.2.2.2,
          by simp only [newtonPass_passes, hpa], rfl⟩
      · rw [if_neg hsc, if_neg (fun h => hsc (hstall.mp h))]
        refine ih _ _ ⟨hpass.1, hpass.2.1, hpass.2.1, ?_, hpass.2.2.1, hpass.2.2.2, ?_, hst⟩
        · simp only [nextIter_iter, newtonPass_iter, hi]
        · simp only [nextIter_passes, newtonPass_passes, hpa]
    · rw [if_neg hc, if_neg (fun h => hc (hcond.mp h))]
      exact ⟨hr, hn, hp, hi, hs, hd, hpa, hst⟩

end Scale

theorem newtonPass_stalled (mb : dMeshBlock) (nSide : Nat) (coords xyz : Arr)
    (s : NewtonState) : (newtonPass mb nSide coords xyz s).stalled = s.stalled := rfl

theorem nextIter_stalled (s : NewtonState) : (nextIter s).stalled = s.stalled := rfl

theorem nextIter_norm_prev (s : NewtonState) : (nextIter s).norm_prev = s.norm := rfl

theorem nextIter_shape (s : NewtonState) : (nextIter s).shape = s.shape := rfl

theorem nextIter_dshape (s : NewtonState) : (nextIter s).dshape = s.dshape := rfl

/-- C17. When `1e-12 * min(bbox extents) ≥ 1` the body of the loop never runs, and `getRefLoc`
returns true with `rst = (0,0,0)`, for every element and every target. -/
theorem getRefLoc_huge_box (mb : dMeshBlock) (nSide : Nat) (u : Scratch)
    (coords bbox xyz : Arr) (h : 1 ≤ tolOf bbox) :
    getRefLoc mb nSide u coords bbox xyz = (true, ⟨0, 0, 0⟩) ∧
    (getRefLocState mb nSide u coords bbox xyz).passes = 0 ∧
    passStarts mb nSide coords xyz (tolOf bbox) iterMax (initState u) = [] := by
  have hp : ¬ 0 < (getRefLocState mb nSide u coords bbox xyz).passes := by
    rw [passes_pos_iff]
    exact not_lt.mpr h
  have hp0 : (getRefLocState mb nSide u coords bbox xyz).passes = 0 := by omega
  have hlist : passStarts mb nSide coords xyz (tolOf bbox) iterMax (initState u) = [] := by
    have hl := newtonLoop_passes mb nSide coords xyz (tolOf bbox) iterMax (initState u)
    unfold getRefLocState at hp0
    rw [hp0, initState_passes, Nat.zero_add] at hl
    exact List.length_eq_zero.mp hl.symm
  have hlast := newtonLoop_last mb nSide coords xyz (tolOf bbox) iterMax (initState u)
  rw [hlist] at hlast
  simp only [List.getLast?_nil] at hlast
  refine ⟨?_, hp0, hlist⟩
  unfold getRefLoc getRefLocState
  rw [hlast]
  refine Prod.ext ?_ rfl
  simp only [decide_eq_true_eq, initState, SqrtVal.le, SqrtVal.ofConst]
  exact ⟨by linarith, by nlinarith⟩

/-- The short circuit on the cube of side `10¹²` with a target far outside it. -/
theorem getRefLoc_huge_box_witness :
    getRefLoc mbTri 2 u0 (scaleArr 1000000000000 cubeCoords) (scaleArr 1000000000000 cubeBBox)
        (arrOfList [-7, -7, -7]) = (true, ⟨0, 0, 0⟩) ∧
    (getRefLocState mbTri 2 u0 (scaleArr 1000000000000 cubeCoords)
        (scaleArr 1000000000000 cubeBBox) (arrOfList [-7, -7, -7])).passes = 0 ∧
    passStarts mbTri 2 (scaleArr 1000000000000 cubeCoords) (arrOfList [-7, -7, -7])
        (tolOf (scaleArr 1000000000000 cubeBBox)) iterMax (initState u0) = [] :=
  getRefLoc_huge_box mbTri 2 u0 (scaleArr 1000000000000 cubeCoords)
    (scaleArr 1000000000000 cubeBBox) (arrOfList [-7, -7, -7]) (by decide!)

theorem loopCond_initState (u : Scratch) (tol : ℚ) : loopCond tol (initState u) ↔ tol < 1 := by
  simp only [loopCond, initState, SqrtVal.gt, SqrtVal.ofConst, iterMax]
  constructor
  · rintro ⟨h | h, -⟩
    · linarith
    · nlinarith
  · intro h
    refine ⟨?_, by norm_num⟩
    rcases lt_or_le tol 0 with h0 | h0
    · exact Or.inl h0
    · right; nlinarith

theorem not_stallCond_of_iter_le (s : NewtonState) (h : s.iter ≤ 1) : ¬ stallCond s := by
  intro hs
  have := hs.1
  omega

/-- C14. With `tol < 1`, if the residual norms of the first and of the second pass both exceed
`tol`, a third pass is executed whatever those norms and the initial `norm = 1`,
`norm_prev = 2` are: the first three passes start from the initial state, the state after
one pass and the state after two passes, neither of the first two passes leaves the loop
through the stall check, and at least three passes are counted. -/
theorem getRefLoc_third_pass (mb : dMeshBlock) (nSide : Nat) (u : Scratch)
    (coords bbox xyz : Arr) (htol : tolOf bbox < 1)
    (h1 : (residNorm mb nSide u.shape u.dshape coords xyz ⟨0, 0, 0⟩).gt (tolOf bbox))
    (h2 : (residNorm mb nSide (newtonPass mb nSide coords xyz (initState u)).shape
        (newtonPass mb nSide coords xyz (initState u)).dshape coords xyz
        (newtonPass mb nSide coords xyz (initState u)).rst).gt (tolOf bbox)) :
    (∃ rest, passStarts mb nSide coords xyz (tolOf bbox) iterMax (initState u) =
      initState u :: nextIter (newtonPass mb nSide coords xyz (initState u)) ::
        nextIter (newtonPass mb nSide coords xyz
          (nextIter (newtonPass mb nSide coords xyz (initState u)))) :: rest) ∧
    ¬ stallCond (newtonPass mb nSide coords xyz (initState u)) ∧
    ¬ stallCond (newtonPass mb nSide coords xyz
      (nextIter (newtonPass mb nSide coords xyz (initState u)))) ∧
    3 ≤ (getRefLocState mb nSide u coords bbox xyz).passes := by
  have hc0 : loopCond (tolOf bbox) (initState u) := (loopCond_initState u _).mpr htol
  have hs0 : ¬ stallCond (newtonPass mb nSide coords xyz (initState u)) :=
    not_stallCond_of_iter_le _ (by rw [newtonPass_iter, initState_iter]; omega)
  have hc1 : loopCond (tolOf bbox) (nextIter (newtonPass mb nSide coords xyz (initState u))) := by
    refine ⟨?_, ?_⟩
    · rw [nextIter_norm, newtonPass_norm]
      exact h1
    · rw [nextIter_iter, newtonPass_iter, initState_iter]
      unfold iterMax
      omega
  have hs1 : ¬ stallCond (newtonPass mb nSide coords xyz
      (nextIter (newtonPass mb nSide coords xyz (initState u)))) :=
    not_stallCond_of_iter_le _ (by
      rw [newtonPass_iter, nextIter_iter, newtonPass_iter, initState_iter])
  have hc2 : loopCond (tolOf bbox) (nextIter (newtonPass mb nSide coords xyz
      (nextIter (newtonPass mb nSide coords xyz (initState u))))) := by
    refine ⟨?_, ?_⟩
    · rw [nextIter_norm, newtonPass_norm]
      exact h2
    · rw [nextIter_iter, newtonPass_iter, nextIter_iter, newtonPass_iter, initState_iter]
      unfold iterMax
      omega
  have hlist : ∃ rest, passStarts mb nSide coords xyz (tolOf bbox) iterMax (initState u) =
      initState u :: nextIter (newtonPass mb nSide coords xyz (initState u)) ::
        nextIter (newtonPass mb nSide coords xyz
          (nextIter (newtonPass mb nSide coords xyz (initState u)))) :: rest := by
    unfold iterMax
    rw [passStarts_succ, if_pos hc0, if_neg hs0, passStarts_succ, if_pos hc1, if_neg hs1,
      passStarts_succ, if_pos hc2]
    exact ⟨_, rfl⟩
  refine ⟨hlist, hs0, hs1, ?_⟩
  obtain ⟨rest, hrest⟩ := hlist
  unfold getRefLocState
  rw [newtonLoop_passes, hrest, initState_passes]
  simp only [List.length_cons]
  omega

/-- The third pass on the unit cube with the target `(5,5,5)` outside it. -/
theorem getRefLoc_third_pass_witness :
    3 ≤ (getRefLocState mbTri 2 u0 cubeCoords cubeBBox (arrOfList [5, 5, 5])).passes :=
  (getRefLoc_third_pass mbTri 2 u0 cubeCoords cubeBBox (arrOfList [5, 5, 5]) (by decide!)
    (by decide!) (by decide!)).2.2.2

theorem newtonLoop_stalled (mb : dMeshBlock) (nSide : Nat) (coords xyz : Arr) (tol : ℚ)
    (fuel : Nat) (s : NewtonState) (hs : s.stalled = false)
    (hfin : (newtonLoop mb nSide coords xyz tol fuel s).stalled = true) :
    ∃ t, (passStarts mb nSide coords xyz tol fuel s).getLast? = some t ∧ loopCond tol t ∧
      stallCond (newtonPass mb nSide coords xyz t) := by
  induction fuel generalizing s with
  | zero =>
    rw [newtonLoop_zero, hs] at hfin
    exact absurd hfin (by simp)
  | succ fuel ih =>
    rw [newtonLoop_succ] at hfin
    rw [passStarts_succ]
    split_ifs at hfin ⊢ with hc hsc
    · exact ⟨s, rfl, hc, hsc⟩
    · obtain ⟨t, ht, hct, hst⟩ := ih (nextIter (newtonPass mb nSide coords xyz s))
        (by rw [nextIter_stalled, newtonPass_stalled]; exact hs) hfin
      refine ⟨t, ?_, hct, hst⟩
      rw [List.getLast?_cons, ht]
      rfl
    · rw [hs] at hfin
      exact absurd hfin (by simp)

theorem passStarts_norm_prev (mb : dMeshBlock) (nSide : Nat) (coords xyz : Arr) (tol : ℚ)
    (fuel : Nat) (s : NewtonState) (h : 1 ≤ s.iter → s.norm_prev = s.norm) :
    ∀ t ∈ passStarts mb nSide coords xyz tol fuel s, 1 ≤ t.iter → t.norm_prev = t.norm := by
  induction fuel generalizing s with
  | zero => intro t ht; simp [passStarts] at ht
  | succ fuel ih =>
    intro t ht
    rw [passStarts_succ] at ht
    split_ifs at ht with hc hs
    · rw [List.mem_singleton] at ht; rw [ht]; exact h
    · rcases List.mem_cons.mp ht with h1 | h1
      · rw [h1]; exact h
      · exact ih (nextIter (newtonPass mb nSide coords xyz s)) (fun _ => rfl) t h1
    · simp at ht

/-- C13, counterexample. On the element `stallCoords` with `tol = 0.488` and the target
`(0,-2,0)` the third pass leaves the loop through the stall check (its norm is within 1% of
the norm of the second pass), and `getRefLoc` returns true, because that norm is below
`tol`. -/
theorem getRefLoc_stall_exit_found :
    (getRefLocState mbTri 2 u0 stallCoords stallBBox stallTarget).stalled = true ∧
    (getRefLocState mbTri 2 u0 stallCoords stallBBox stallTarget).passes = 3 ∧
    (getRefLoc mbTri 2 u0 stallCoords stallBBox stallTarget).1 = true := by
  decide!

/-- C13, amended. Whenever the loop is left through the stall check (in a pass of iteration
index greater than 1, started from the state `t`, whose norm exceeds 0.99 times the
previous norm `t.norm`, itself above `tol`), `getRefLoc` returns false exactly when the norm
of that last pass exceeds `tol`; it returns true when that norm is at most `tol`. -/
theorem getRefLoc_stall_exit (mb : dMeshBlock) (nSide : Nat) (u : Scratch)
    (coords bbox xyz : Arr)
    (hst : (getRefLocState mb nSide u coords bbox xyz).stalled = true) :
    ∃ t : NewtonState,
      (passStarts mb nSide coords xyz (tolOf bbox) iterMax (initState u)).getLast? = some t ∧
      1 < t.iter ∧ t.norm.gt (tolOf bbox) ∧
      (residNorm mb nSide t.shape t.dshape coords xyz t.rst).gtScaled (99 / 100) t.norm ∧
      ((getRefLoc mb nSide u coords bbox xyz).1 = false ↔
        (residNorm mb nSide t.shape t.dshape coords xyz t.rst).gt (tolOf bbox)) := by
  obtain ⟨t, ht, hct, hsc⟩ := newtonLoop_stalled mb nSide coords xyz (tolOf bbox) iterMax
    (initState u) rfl hst
  have hlast := newtonLoop_last mb nSide coords xyz (tolOf bbox) iterMax (initState u)
  rw [ht] at hlast
  have hprev := passStarts_norm_prev mb nSide coords xyz (tolOf bbox) iterMax (initState u)
    (fun h => absurd h (by rw [initState_iter]; omega)) t (List.mem_of_getLast?_eq_some ht)
  have hiter : 1 < t.iter := by
    have := hsc.1
    rw [newtonPass_iter] at this
    exact this
  refine ⟨t, ht, hiter, hct.1, ?_, ?_⟩
  · have h2 := hsc.2
    rw [newtonPass_norm] at h2
    have h3 : (newtonPass mb nSide coords xyz t).norm_prev = t.norm := hprev (by omega)
    rw [h3] at h2
    exact h2
  · unfold getRefLoc getRefLocState
    simp only [decide_eq_false_iff_not]
    rw [hlast.1, newtonPass_norm, SqrtVal.le_iff_not_gt, not_not]

/-- The stall exit on the unit cube with the target `(5,5,5)` outside it: rejected. -/
theorem getRefLoc_stall_exit_witness :
    (getRefLocState mbTri 2 u0 cubeCoords cubeBBox (arrOfList [5, 5, 5])).stalled = true ∧
    ∃ t : NewtonState,
      (passStarts mbTri 2 cubeCoords (arrOfList [5, 5, 5]) (tolOf cubeBBox) iterMax
        (initState u0)).getLast? = some t ∧
      1 < t.iter ∧ t.norm.gt (tolOf cubeBBox) ∧
      (residNorm mbTri 2 t.shape t.dshape cubeCoords (arrOfList [5, 5, 5]) t.rst).gtScaled
        (99 / 100) t.norm ∧
      ((getRefLoc mbTri 2 u0 cubeCoords cubeBBox (arrOfList [5, 5, 5])).1 = false ↔
        (residNorm mbTri 2 t.shape t.dshape cubeCoords (arrOfList [5, 5, 5]) t.rst).gt
          (tolOf cubeBBox)) :=
  ⟨by decide!,
    getRefLoc_stall_exit mbTri 2 u0 cubeCoords cubeBBox (arrOfList [5, 5, 5]) (by decide!)⟩

/-! ## Layout of the element coordinates -/

theorem int32_of_fits (x : Int) (h0 : -2147483648 ≤ x) (h1 : x ≤ 2147483647) :
    int32 x = x := by
  unfold int32
  omega

theorem linIdx_bounds (ncells ele : Int) (nvert d i : Nat) (h0 : 0 ≤ ele)
    (h1 : ele < ncells) (hi : i < nvert) (hd : d < 3) :
    0 ≤ ncells * ((d : Int) + 3 * (i : Int)) ∧
    0 ≤ ele + ncells * ((d : Int) + 3 * (i : Int)) ∧
    ele + ncells * ((d : Int) + 3 * (i : Int)) < ncells * nvert * 3 := by
  have hn : 0 < ncells := lt_of_le_of_lt h0 h1
  have hq0 : (0 : Int) ≤ (d : Int) + 3 * (i : Int) := by omega
  have hq1 : (d : Int) + 3 * (i : Int) + 1 ≤ (nvert : Int) * 3 := by omega
  have hm : ncells * ((d : Int) + 3 * (i : Int) + 1) ≤ ncells * ((nvert : Int) * 3) :=
    mul_le_mul_of_nonneg_left hq1 hn.le
  have hp : 0 ≤ ncells * ((d : Int) + 3 * (i : Int)) := mul_nonneg hn.le hq0
  refine ⟨hp, ?_, ?_⟩
  · linarith
  · nlinarith

theorem linIdx_inj (ncells ele ele' : Int) (d d' i i' : Nat) (h0 : 0 ≤ ele)
    (h1 : ele < ncells) (h0' : 0 ≤ ele') (h1' : ele' < ncells) (hd : d < 3) (hd' : d' < 3)
    (h : ele + ncells * ((d : Int) + 3 * (i : Int)) =
      ele' + ncells * ((d' : Int) + 3 * (i' : Int))) :
    ele = ele' ∧ d = d' ∧ i = i' := by
  have hn : 0 < ncells := lt_of_le_of_lt h0 h1
  have hm : (ele + ncells * ((d : Int) + 3 * (i : Int))) % ncells =
      (ele' + ncells * ((d' : Int) + 3 * (i' : Int))) % ncells := by rw [h]
  rw [Int.add_mul_emod_self_left, Int.add_mul_emod_self_left, Int.emod_eq_of_lt h0 h1,
    Int.emod_eq_of_lt h0' h1'] at hm
  subst hm
  have hq : (d : Int) + 3 * (i : Int) = (d' : Int) + 3 * (i' : Int) :=
    Int.eq_of_mul_eq_mul_left hn.ne.symm (add_left_cancel h)
  refine ⟨rfl, ?_, ?_⟩ <;> omega

theorem linIdx_surj (ncells : Int) (nvert : Nat) (x : Int) (hx0 : 0 ≤ x)
    (hx1 : x < ncells * nvert * 3) :
    ∃ ele : Int, ∃ i d : Nat, 0 ≤ ele ∧ ele < ncells ∧ i < nvert ∧ d < 3 ∧
      ele + ncells * ((d : Int) + 3 * (i : Int)) = x := by
  have hn : 0 < ncells := by
    by_contra hcon
    have h1 : ncells ≤ 0 := not_lt.mp hcon
    have h2 : ncells * ((nvert : Int) * 3) ≤ 0 :=
      mul_nonpos_of_nonpos_of_nonneg h1 (by omega)
    rw [← mul_assoc] at h2
    omega
  have hq0 : 0 ≤ x / ncells := Int.ediv_nonneg hx0 hn.le
  have hq1 : x / ncells < (nvert : Int) * 3 := by
    apply Int.ediv_lt_of_lt_mul hn
    rw [mul_comm, ← mul_assoc]
    exact hx1
  refine ⟨x % ncells, (x / ncells).toNat / 3, (x / ncells).toNat % 3,
    Int.emod_nonneg x hn.ne.symm, Int.emod_lt_of_pos x hn, ?_, Nat.mod_lt _ (by omega), ?_⟩
  · have : (x / ncells).toNat < nvert * 3 := by omega
    omega
  · have hcast : (((x / ncells).toNat % 3 : Nat) : Int) + 3 * (((x / ncells).toNat / 3 : Nat) : Int) =
        x / ncells := by
      omega
    rw [hcast]
    exact Int.emod_add_ediv x ncells

/-- When the size `ncells*nvert*3` of `coord` fits an `int`, no operation of the index
expression overflows, and the index is `ele + ncells*(d + 3*i)`. -/
theorem coordIdx_exact (ncells ele : Int) (nvert d i : Nat) (h0 : 0 ≤ ele)
    (h1 : ele < ncells) (hi : i < nvert) (hd : d < 3)
    (hfit : ncells * nvert * 3 ≤ 2147483647) :
    coordIdx ncells ele d i = ele + ncells * ((d : Int) + 3 * (i : Int)) := by
  obtain ⟨hp, hlo, hhi⟩ := linIdx_bounds ncells ele nvert d i h0 h1 hi hd
  have hn : 0 < ncells := lt_of_le_of_lt h0 h1
  have hv : ((nvert : Int) * 3) * 1 ≤ ((nvert : Int) * 3) * ncells :=
    mul_le_mul_of_nonneg_left (by omega) (by omega)
  have hv2 : (nvert : Int) * 3 ≤ 2147483647 := by nlinarith
  unfold coordIdx
  rw [int32_of_fits (3 * (i : Int)) (by omega) (by omega),
    int32_of_fits ((d : Int) + 3 * (i : Int)) (by omega) (by omega),
    int32_of_fits (ncells * ((d : Int) + 3 * (i : Int))) (by linarith) (by linarith),
    int32_of_fits _ (by linarith) (by linarith)]

/-- C15, counterexample. With `ncells = 10⁸` elements of 8 nodes, the index of coordinate
`d = 1` of node `i = 7` of element `0`, whose mathematical value is `2.2·10⁹`, wraps in `int`
to a negative number, outside `[0, ncells*nvert*3)`, and the gather loop reads there. With
`ncells = 2²⁸`, the triples `(0, 0, 0)` and `(0, 5, 1)` get the same index. -/
theorem gatherCoords_index_overflow :
    ((0 : Int) ≤ 0 ∧ (0 : Int) < mbBig.ncells ∧ 7 < 8 ∧ 1 < 3 ∧
      coordIdx mbBig.ncells 0 1 7 = -2094967296 ∧
      ¬ (0 ≤ coordIdx mbBig.ncells 0 1 7 ∧ coordIdx mbBig.ncells 0 1 7 < mbBig.ncells * 8 * 3) ∧
      gatherCoords mbBig 3 8 (mbBig.eleList 0) u0.ecoord (1 + 3 * 7) =
        mbBig.coord (-2094967296)) ∧
    ((0 : Int) < 268435456 ∧ 5 < 8 ∧
      coordIdx 268435456 0 0 0 = coordIdx 268435456 0 1 5 ∧ (0, 0) ≠ (1, 5)) := by
  decide!

/-- C15, amended. The gather loop of `checkContainment` reads coordinate `d` of node `i` of
the element `ele = eleList[adtEle]` from `coord[ele + ncells*(d + 3*i)]`, the index taken in
`int`, and stores it at the position `d + 3*i` that `getRefLoc` reads. When `ncells*nvert*3`
is at most `2³¹ - 1`, for `0 ≤ ele < ncells`, `i < nvert`, `d < 3` that index is computed
without overflow and lies in `[0, ncells*nvert*3)`; the map `(ele, i, d) ↦ index` is injective
and onto that range; and for fixed `(d, i)` consecutive element ids occupy adjacent
positions. -/
theorem gatherCoords_layout (mb : dMeshBlock) (nvert : Nat) (u : Scratch) (adtEle : Nat)
    (hfit : mb.ncells * nvert * 3 ≤ 2147483647) :
    (∀ i d : Nat, i < nvert → d < 3 →
      gatherCoords mb 3 nvert (mb.eleList adtEle) u.ecoord (d + 3 * i) =
        mb.coord (coordIdx mb.ncells (mb.eleList adtEle) d i)) ∧
    (∀ (ele : Int) (i d : Nat), 0 ≤ ele → ele < mb.ncells → i < nvert → d < 3 →
      coordIdx mb.ncells ele d i = ele + mb.ncells * ((d : Int) + 3 * (i : Int)) ∧
      0 ≤ coordIdx mb.ncells ele d i ∧ coordIdx mb.ncells ele d i < mb.ncells * nvert * 3) ∧
    (∀ (ele ele' : Int) (i i' d d' : Nat), 0 ≤ ele → ele < mb.ncells → 0 ≤ ele' →
      ele' < mb.ncells → i < nvert → i' < nvert → d < 3 → d' < 3 →
      coordIdx mb.ncells ele d i = coordIdx mb.ncells ele' d' i' →
      ele = ele' ∧ i = i' ∧ d = d') ∧
    (∀ x : Int, 0 ≤ x → x < mb.ncells * nvert * 3 →
      ∃ ele : Int, ∃ i d : Nat, 0 ≤ ele ∧ ele < mb.ncells ∧ i < nvert ∧ d < 3 ∧
        coordIdx mb.ncells ele d i = x) ∧
    (∀ (ele : Int) (i d : Nat), 0 ≤ ele → ele + 1 < mb.ncells → i < nvert → d < 3 →
      coordIdx mb.ncells (ele + 1) d i = coordIdx mb.ncells ele d i + 1) := by
  refine ⟨?_, ?_, ?_, ?_, ?_⟩
  · intro i d hi hd
    exact gatherCoords_read mb nvert (mb.eleList adtEle) u.ecoord i d hi hd
  · intro ele i d h0 h1 hi hd
    rw [coordIdx_exact mb.ncells ele nvert d i h0 h1 hi hd hfit]
    exact ⟨rfl, (linIdx_bounds mb.ncells ele nvert d i h0 h1 hi hd).2⟩
  · intro ele ele' i i' d d' h0 h1 h0' h1' hi hi' hd hd' h
    rw [coordIdx_exact mb.ncells ele nvert d i h0 h1 hi hd hfit,
      coordIdx_exact mb.ncells ele' nvert d' i' h0' h1' hi' hd' hfit] at h
    obtain ⟨e1, e2, e3⟩ := linIdx_inj mb.ncells ele ele' d d' i i' h0 h1 h0' h1' hd hd' h
    exact ⟨e1, e3, e2⟩
  · intro x hx0 hx1
    obtain ⟨ele, i, d, h0, h1, hi, hd, hx⟩ := linIdx_surj mb.ncells nvert x hx0 hx1
    exact ⟨ele, i, d, h0, h1, hi, hd,
      (coordIdx_exact mb.ncells ele nvert d i h0 h1 hi hd hfit).trans hx⟩
  · intro ele i d h0 h1 hi hd
    rw [coordIdx_exact mb.ncells (ele + 1) nvert d i (by omega) h1 hi hd hfit,
      coordIdx_exact mb.ncells ele nvert d i h0 (by omega) hi hd hfit]
    ring

/-- The layout on the mesh block `mbPair`: the last coordinate of the last node of the second
element is read from the last position, 47, of the 48 stored values. -/
theorem gatherCoords_layout_witness :
    gatherCoords mbPair 3 8 (mbPair.eleList 1) u0.ecoord (2 + 3 * 7) = 47 ∧
    (coordIdx mbPair.ncells 1 2 7 = 1 + mbPair.ncells * (((2 : Nat) : Int) + 3 * ((7 : Nat) : Int)) ∧
      0 ≤ coordIdx mbPair.ncells 1 2 7 ∧ coordIdx mbPair.ncells 1 2 7 < mbPair.ncells * 8 * 3) ∧
    ((1 : Int) = 1 ∧ 7 = 7 ∧ 2 = 2) :=
  ⟨((gatherCoords_layout mbPair 8 u0 1 (by decide)).1 7 2 (by decide) (by decide)).trans
      (by decide!),
    (gatherCoords_layout mbPair 8 u0 1 (by decide)).2.1 1 7 2 (by decide) (by decide)
      (by decide) (by decide),
    (gatherCoords_layout mbPair 8 u0 1 (by decide)).2.2.1 1 1 7 7 2 2 (by decide) (by decide)
      (by decide) (by decide) (by decide) (by decide) (by decide) (by decide) rfl⟩

/-! ## Values of the basis functions at the nodes, partition of unity -/

/-- The 1-D Lagrange basis function number `i` is 1 at node `i` and 0 at the other nodes. -/
theorem Lagrange_gpu_node (x : Arr) (n : Nat) (hx : DistinctNodes x n) (i j : Nat)
    (hi : i < n) (hj : j < n) :
    Lagrange_gpu x n (x j) i = if i = j then 1 else 0 := by
  rw [Lagrange_gpu_eq_eval]
  by_cases hij : i = j
  · subst hij
    rw [if_pos rfl]
    exact Lagrange.eval_basis_self (injOn_of_distinct x n hx) (Finset.mem_range.mpr hi)
  · rw [if_neg hij]
    exact Lagrange.eval_basis_of_ne hij (Finset.mem_range.mpr hj)

/-- C11. For `nSide = 2`, two distinct nodal locations and a bijective node-order map,
`calcDShape` evaluated at the nodal location `(xlist[a'], xlist[b'], xlist[c'])` leaves
`shape[ijk2gmsh[a + 2*(b + 2*c)]] = 1` when `(a,b,c) = (a',b',c')` and `0` otherwise. -/
theorem calcDShape_kronecker (mb : dMeshBlock) (shape dshape : Arr)
    (hx : mb.xlist 0 ≠ mb.xlist 1) (hg : NodeOrderOK mb.ijk2gmsh 2)
    (a b c a' b' c' : Nat) (ha : a < 2) (hb : b < 2) (hc : c < 2) (ha' : a' < 2)
    (hb' : b' < 2) (hc' : c' < 2) :
    (calcDShape mb 2 shape dshape ⟨mb.xlist a', mb.xlist b', mb.xlist c'⟩).1
        (mb.ijk2gmsh (a + 2 * (b + 2 * c))) =
      if a = a' ∧ b = b' ∧ c = c' then 1 else 0 := by
  have hd : DistinctNodes mb.xlist 2 := by
    intro i hi j hj hij
    interval_cases i <;> interval_cases j
    · rfl
    · exact absurd hij hx
    · exact absurd hij.symm hx
    · rfl
  rw [(calcDShape_at mb 2 shape dshape _ hg a b c ha hb hc).1]
  simp only []
  rw [Lagrange_gpu_node _ _ hd a a' ha ha', Lagrange_gpu_node _ _ hd b b' hb hb',
    Lagrange_gpu_node _ _ hd c c' hc hc']
  by_cases h1 : a = a' <;> by_cases h2 : b = b' <;> by_cases h3 : c = c' <;>
    simp [h1, h2, h3]

/-- The identity matrix of the trilinear basis on `mbTri`: a diagonal and an off-diagonal
entry. -/
theorem calcDShape_kronecker_witness :
    (calcDShape mbTri 2 u0.shape u0.dshape ⟨mbTri.xlist 1, mbTri.xlist 0, mbTri.xlist 1⟩).1
        (mbTri.ijk2gmsh (1 + 2 * (0 + 2 * 1))) = 1 ∧
    (calcDShape mbTri 2 u0.shape u0.dshape ⟨mbTri.xlist 1, mbTri.xlist 0, mbTri.xlist 1⟩).1
        (mbTri.ijk2gmsh (0 + 2 * (0 + 2 * 1))) = 0 :=
  ⟨(calcDShape_kronecker mbTri u0.shape u0.dshape (by decide!) (by decide!) 1 0 1 1 0 1
      (by decide) (by decide) (by decide) (by decide) (by decide) (by decide)).trans
      (by decide),
    (calcDShape_kronecker mbTri u0.shape u0.dshape (by decide!) (by decide!) 0 0 1 1 0 1
      (by decide) (by decide) (by decide) (by decide) (by decide) (by decide)).trans
      (by decide)⟩

/-- A sum over the nodes of values that are products of three 1-D factors at the node of
tensor index `(i, j, k)`. -/
theorem sum_nodes_tensor (g : Nat → Nat) (nSide : Nat) (hg : NodeOrderOK g nSide)
    (V F G H : Nat → ℚ)
    (hV : ∀ i, i < nSide → ∀ j, j < nSide → ∀ k, k < nSide →
      V (g (i + nSide * (j + nSide * k))) = F i * G j * H k) :
    ∑ nd in Finset.range (nSide * nSide * nSide), V nd =
      (∑ i in Finset.range nSide, F i) * (∑ j in Finset.range nSide, G j) *
        (∑ k in Finset.range nSide, H k) := by
  rw [sum_reindex g nSide hg V, sum_range_cube, ← sum_tensor_mul]
  refine Finset.sum_congr rfl (fun k hk => Finset.sum_congr rfl (fun j hj =>
    Finset.sum_congr rfl (fun i hi => ?_)))
  exact hV i (Finset.mem_range.mp hi) j (Finset.mem_range.mp hj) k (Finset.mem_range.mp hk)

/-- The shape functions sum to 1 and each of their partial derivatives sums to 0. -/
theorem calcDShape_sums (mb : dMeshBlock) (nSide : Nat) (shape dshape : Arr)
    (loc : Vec3) (hn : 0 < nSide) (hx : DistinctNodes mb.xlist nSide)
    (hg : NodeOrderOK mb.ijk2gmsh nSide) :
    ∑ nd in Finset.range (nSide * nSide * nSide),
      (calcDShape mb nSide shape dshape loc).1 nd = 1 ∧
    ∀ j, j < 3 → ∑ nd in Finset.range (nSide * nSide * nSide),
      (calcDShape mb nSide shape dshape loc).2 (3 * nd + j) = 0 := by
  have h1 := fun ξ => sum_Lagrange_gpu mb.xlist nSide ξ hx hn
  have h3 := fun ξ => sum_dLagrange_gpu mb.xlist nSide ξ hx hn
  refine ⟨?_, ?_⟩
  · rw [sum_nodes_tensor mb.ijk2gmsh nSide hg _ _ _ _ (fun i hi j hj k hk =>
      (calcDShape_at mb nSide shape dshape loc hg i j k hi hj hk).1), h1, h1, h1]
    norm_num
  · intro j hj
    interval_cases j
    · rw [sum_nodes_tensor mb.ijk2gmsh nSide hg
        (fun nd => (calcDShape mb nSide shape dshape loc).2 (3 * nd + 0)) _ _ _
        (fun i hi j hj k hk => by
          have h := (calcDShape_at mb nSide shape dshape loc hg i j k hi hj hk).2.1
          rw [Nat.mul_comm] at h
          exact h), h3, h1, h1]
      norm_num
    · rw [sum_nodes_tensor mb.ijk2gmsh nSide hg
        (fun nd => (calcDShape mb nSide shape dshape loc).2 (3 * nd + 1)) _ _ _
        (fun i hi j hj k hk => by
          have h := (calcDShape_at mb nSide shape dshape loc hg i j k hi hj hk).2.2.1
          rw [Nat.mul_comm] at h
          exact h), h1, h3, h1]
      norm_num
    · rw [sum_nodes_tensor mb.ijk2gmsh nSide hg
        (fun nd => (calcDShape mb nSide shape dshape loc).2 (3 * nd + 2)) _ _ _
        (fun i hi j hj k hk => by
          have h := (calcDShape_at mb nSide shape dshape loc hg i j k hi hj hk).2.2.2
          rw [Nat.mul_comm] at h
          exact h), h1, h1, h3]
      norm_num

theorem tolOf_eq_minExtent (bbox : Arr) :
    tolOf bbox = 1 / 1000000000000 * minExtent bbox := rfl

/-- C16. On an element whose nodes are an affine image `c + A (x[i], x[j], x[k])` of the nodal
lattice with `det A ≠ 0` (distinct nodal locations, bijective node order, at least two nodes
per edge), for every `p` in `[-1,1]³`, faces, edges and corners included, with
`target = c + A p` and any box whose smallest extent lies in `[0, 10¹²)`, `getRefLoc`
returns true with `rst` exactly `p`, after at most two passes. -/
theorem getRefLoc_affine_exact (mb : dMeshBlock) (nSide : Nat) (u : Scratch)
    (coords bbox xyz c A : Arr) (p : Vec3) (hn : 2 ≤ nSide)
    (hx : DistinctNodes mb.xlist nSide) (hg : NodeOrderOK mb.ijk2gmsh nSide)
    (haff : AffineElement mb nSide coords c A) (hdet : det_3x3 A ≠ 0) (hp : inCube p)
    (hxyz : ∀ d, d < 3 → xyz d = affineAt c A p d)
    (hext0 : 0 ≤ minExtent bbox) (hext1 : minExtent bbox < 1000000000000) :
    getRefLoc mb nSide u coords bbox xyz = (true, p) ∧
      (getRefLocState mb nSide u coords bbox xyz).passes ≤ 2 := by
  refine getRefLoc_affine mb nSide coords c A xyz p u bbox hn hx hg haff hdet hp hxyz ?_ ?_
  · rw [tolOf_eq_minExtent]
    exact mul_nonneg (by norm_num) hext0
  · rw [tolOf_eq_minExtent]
    linarith

/-- Exact recovery of the edge point `(-1, 1, 0)` of the unit cube, with a box of extents
`3, 4, 5`. -/
theorem getRefLoc_affine_exact_witness :
    getRefLoc mbTri 2 u0 cubeCoords (arrOfList [0, 0, 0, 3, 4, 5]) (arrOfList [0, 1, 1 / 2]) =
        (true, ⟨-1, 1, 0⟩) ∧
    (getRefLocState mbTri 2 u0 cubeCoords (arrOfList [0, 0, 0, 3, 4, 5])
      (arrOfList [0, 1, 1 / 2])).passes ≤ 2 :=
  getRefLoc_affine_exact mbTri 2 u0 cubeCoords (arrOfList [0, 0, 0, 3, 4, 5])
    (arrOfList [0, 1, 1 / 2]) cubeCentre cubeMatrix ⟨-1, 1, 0⟩ (by decide) (by decide!)
    (by decide!) (by decide!) (by decide!) (by decide!) (by decide!) (by decide!) (by decide!)

/-! ## Translation of the physical points -/

section Shift

variable (mb : dMeshBlock) (nSide : Nat) (coords xyz t : Arr)

theorem tolOf_shift (bbox : Arr) : tolOf (shiftArr t bbox) = tolOf bbox := by
  unfold tolOf shiftArr
  simp only [Nat.reduceMod, Nat.mod_self, add_sub_add_right_eq_sub]

theorem gradOf_shift (hn : 0 < nSide) (hx : DistinctNodes mb.xlist nSide)
    (hg : NodeOrderOK mb.ijk2gmsh nSide) (shape dshape : Arr) (loc : Vec3) (a b : Nat)
    (hb : b < 3) :
    gradOf (nSide * nSide * nSide) (shiftArr t coords)
        (calcDShape mb nSide shape dshape loc).2 a b =
      gradOf (nSide * nSide * nSide) coords (calcDShape mb nSide shape dshape loc).2 a b := by
  have hsum := (calcDShape_sums mb nSide shape dshape loc hn hx hg).2 b hb
  unfold gradOf shiftArr
  rw [forRange_add_sum, forRange_add_sum, zero_add, zero_add]
  have hterm : ∀ nd ∈ Finset.range (nSide * nSide * nSide),
      (coords (a + 3 * nd) + t ((a + 3 * nd) % 3)) *
        (calcDShape mb nSide shape dshape loc).2 (nd * 3 + b) =
      coords (a + 3 * nd) * (calcDShape mb nSide shape dshape loc).2 (nd * 3 + b) +
        t (a % 3) * (calcDShape mb nSide shape dshape loc).2 (3 * nd + b) := by
    intro nd _
    rw [Nat.add_mul_mod_self_left, Nat.mul_comm nd 3]
    ring
  rw [Finset.sum_congr rfl hterm, Finset.sum_add_distrib, ← Finset.mul_sum, hsum]
  ring

theorem dxOf_shift (hn : 0 < nSide) (hx : DistinctNodes mb.xlist nSide)
    (hg : NodeOrderOK mb.ijk2gmsh nSide) (shape dshape : Arr) (loc : Vec3) (d : Nat) :
    dxOf (nSide * nSide * nSide) (shiftArr t coords) (shiftArr t xyz)
        (calcDShape mb nSide shape dshape loc).1 d =
      dxOf (nSide * nSide * nSide) coords xyz (calcDShape mb nSide shape dshape loc).1 d := by
  have hsum := (calcDShape_sums mb nSide shape dshape loc hn hx hg).1
  unfold dxOf shiftArr
  rw [forRange_sub_sum, forRange_sub_sum]
  have hterm : ∀ nd ∈ Finset.range (nSide * nSide * nSide),
      (calcDShape mb nSide shape dshape loc).1 nd *
        (coords (d + 3 * nd) + t ((d + 3 * nd) % 3)) =
      (calcDShape mb nSide shape dshape loc).1 nd * coords (d + 3 * nd) +
        t (d % 3) * (calcDShape mb nSide shape dshape loc).1 nd := by
    intro nd _
    rw [Nat.add_mul_mod_self_left]
    ring
  rw [Finset.sum_congr rfl hterm, Finset.sum_add_distrib, ← Finset.mul_sum, hsum]
  ring

/-- A pass on the translated data is the pass on the original data. -/
theorem newtonPass_shift (hn : 0 < nSide) (hx : DistinctNodes mb.xlist nSide)
    (hg : NodeOrderOK mb.ijk2gmsh nSide) (s : NewtonState) :
    newtonPass mb nSide (shiftArr t coords) (shiftArr t xyz) s =
      newtonPass mb nSide coords xyz s := by
  have hgrad : (fun m => gradOf (nSide * nSide * nSide) (shiftArr t coords)
      (calcDShape mb nSide s.shape s.dshape s.rst).2 (m / 3) (m % 3)) =
      (fun m => gradOf (nSide * nSide * nSide) coords
        (calcDShape mb nSide s.shape s.dshape s.rst).2 (m / 3) (m % 3)) := by
    funext m
    exact gradOf_shift mb nSide coords t hn hx hg _ _ _ _ _ (Nat.mod_lt _ (by omega))
  have hdx : dxOf (nSide * nSide * nSide) (shiftArr t coords) (shiftArr t xyz)
      (calcDShape mb nSide s.shape s.dshape s.rst).1 =
      dxOf (nSide * nSide * nSide) coords xyz
        (calcDShape mb nSide s.shape s.dshape s.rst).1 := by
    funext d
    exact dxOf_shift mb nSide coords xyz t hn hx hg _ _ _ d
  unfold newtonPass
  simp only []
  rw [hgrad, hdx]

theorem newtonLoop_shift (hn : 0 < nSide) (hx : DistinctNodes mb.xlist nSide)
    (hg : NodeOrderOK mb.ijk2gmsh nSide) (tol : ℚ) (fuel : Nat) (s : NewtonState) :
    newtonLoop mb nSide (shiftArr t coords) (shiftArr t xyz) tol fuel s =
      newtonLoop mb nSide coords xyz tol fuel s := by
  induction fuel generalizing s with
  | zero => rfl
  | succ fuel ih =>
    rw [newtonLoop_succ, newtonLoop_succ, newtonPass_shift mb nSide coords xyz t hn hx hg, ih]

end Shift

/-- C19, counterexample. In binary64, on the unit cube with its own bounding box the target
`nearCorner` is found, with `rst = (1023/1024, 1023/1024, 1023/1024)`; after the translation
of the nodes, the box and the target by `2²⁰` along each axis (all the translated values are
doubles) it is rejected. -/
theorem getRefLoc_translation_rounded :
    DistinctNodes mbTri.xlist 2 ∧ NodeOrderOK mbTri.ijk2gmsh 2 ∧
    (∀ m, m < 24 → round64 (shiftArr shift20 cubeCoords m) = shiftArr shift20 cubeCoords m) ∧
    (∀ m, m < 6 → round64 (shiftArr shift20 cubeBBox m) = shiftArr shift20 cubeBBox m) ∧
    (∀ m, m < 3 → round64 (nearCorner m) = nearCorner m ∧
      round64 (shiftArr shift20 nearCorner m) = shiftArr shift20 nearCorner m) ∧
    getRefLoc64 mbTri 2 u0 cubeCoords cubeBBox nearCorner =
      (true, ⟨1023 / 1024, 1023 / 1024, 1023 / 1024⟩) ∧
    (getRefLoc64 mbTri 2 u0 (shiftArr shift20 cubeCoords) (shiftArr shift20 cubeBBox)
      (shiftArr shift20 nearCorner)).1 = false := by
  decide!

/-- C19, amended. In exact arithmetic, for distinct nodal locations and a bijective node-order
map (at least one node per edge), adding one vector `t` to every node, to the target and to
both corners of the bounding box leaves `getRefLoc` unchanged: from any state a pass
assembles the same Jacobian and the same residual and produces the same state (guess and
norm), the loop goes through the same states, and the same boolean and `rst` are
returned. -/
theorem getRefLoc_translation_invariant (mb : dMeshBlock) (nSide : Nat) (u : Scratch)
    (coords bbox xyz t : Arr) (hn : 0 < nSide) (hx : DistinctNodes mb.xlist nSide)
    (hg : NodeOrderOK mb.ijk2gmsh nSide) :
    getRefLoc mb nSide u (shiftArr t coords) (shiftArr t bbox) (shiftArr t xyz) =
      getRefLoc mb nSide u coords bbox xyz ∧
    (∀ s : NewtonState,
      (∀ a b, b < 3 →
        gradOf (nSide * nSide * nSide) (shiftArr t coords)
            (calcDShape mb nSide s.shape s.dshape s.rst).2 a b =
          gradOf (nSide * nSide * nSide) coords
            (calcDShape mb nSide s.shape s.dshape s.rst).2 a b) ∧
      (∀ d, dxOf (nSide * nSide * nSide) (shiftArr t coords) (shiftArr t xyz)
            (calcDShape mb nSide s.shape s.dshape s.rst).1 d =
          dxOf (nSide * nSide * nSide) coords xyz
            (calcDShape mb nSide s.shape s.dshape s.rst).1 d) ∧
      newtonPass mb nSide (shiftArr t coords) (shiftArr t xyz) s =
        newtonPass mb nSide coords xyz s) ∧
    (∀ fuel : Nat,
      newtonLoop mb nSide (shiftArr t coords) (shiftArr t xyz) (tolOf (shiftArr t bbox)) fuel
          (initState u) =
        newtonLoop mb nSide coords xyz (tolOf bbox) fuel (initState u)) := by
  have hloop : ∀ fuel : Nat,
      newtonLoop mb nSide (shiftArr t coords) (shiftArr t xyz) (tolOf (shiftArr t bbox)) fuel
          (initState u) =
        newtonLoop mb nSide coords xyz (tolOf bbox) fuel (initState u) := by
    intro fuel
    rw [tolOf_shift, newtonLoop_shift mb nSide coords xyz t hn hx hg]
  refine ⟨?_, fun s => ⟨fun a b hb => gradOf_shift mb nSide coords t hn hx hg _ _ _ a b hb,
    fun d => dxOf_shift mb nSide coords xyz t hn hx hg _ _ _ d,
    newtonPass_shift mb nSide coords xyz t hn hx hg s⟩, hloop⟩
  unfold getRefLoc getRefLocState
  simp only []
  rw [hloop, tolOf_shift]

/-- Translation of the unit cube and of the target `(1, 1/4, 3/4)` by `(16, -32, 64)`. -/
theorem getRefLoc_translation_invariant_witness :
    getRefLoc mbTri 2 u0 (shiftArr (arrOfList [16, -32, 64]) cubeCoords)
        (shiftArr (arrOfList [16, -32, 64]) cubeBBox)
        (shiftArr (arrOfList [16, -32, 64]) (arrOfList [1, 1 / 4, 3 / 4])) =
      getRefLoc mbTri 2 u0 cubeCoords cubeBBox (arrOfList [1, 1 / 4, 3 / 4]) :=
  (getRefLoc_translation_invariant mbTri 2 u0 cubeCoords cubeBBox (arrOfList [1, 1 / 4, 3 / 4])
    (arrOfList [16, -32, 64]) (by decide) (by decide!) (by decide!)).1

/-! ## The stores of `calcDShape` -/

theorem forRange_map {σ τ : Type} (f : σ → τ) (n : Nat) (body : Nat → σ → σ)
    (body' : Nat → τ → τ) (h : ∀ i s, f (body i s) = body' i (f s)) (s : σ) :
    f (forRange n body s) = forRange n body' (f s) := by
  induction n with
  | zero => rfl
  | succ n ih => rw [forRange_succ, forRange_succ, h, ih]

/-- The arrays of the traced function are those of `calcDShape`. -/
theorem calcDShapeTrace_arrays (mb : dMeshBlock) (nSide : Nat) (shape dshape : Arr)
    (loc : Vec3) :
    (calcDShapeTrace mb nSide shape dshape loc).1 = calcDShape mb nSide shape dshape loc := by
  unfold calcDShapeTrace calcDShape
  simp only []
  refine forRange_map Prod.fst nSide _ _ (fun k s => ?_) _
  refine forRange_map Prod.fst nSide _ _ (fun j s => ?_) _
  refine forRange_map Prod.fst nSide _ _ (fun i s => ?_) _
  rfl

theorem forRange_additive {σ : Type} (φ : σ → Nat) (n : Nat) (body : Nat → σ → σ)
    (c : Nat → Nat) (h : ∀ i s, φ (body i s) = φ s + c i) (s : σ) :
    φ (forRange n body s) = φ s + ∑ i in Finset.range n, c i := by
  induction n with
  | zero => simp [forRange]
  | succ n ih => rw [forRange_succ, h, ih, Finset.sum_range_succ, Nat.add_assoc]

theorem forRange3_additive {σ : Type} (φ : σ → Nat) (n : Nat)
    (W : Nat → Nat → Nat → σ → σ) (c : Nat → Nat → Nat → Nat)
    (h : ∀ i j k s, φ (W i j k s) = φ s + c i j k) (s : σ) :
    φ (forRange n (fun k => forRange n (fun j => forRange n (fun i => W i j k))) s) =
      φ s + ∑ k in Finset.range n, ∑ j in Finset.range n, ∑ i in Finset.range n, c i j k := by
  refine forRange_additive φ n _ _ (fun k s => ?_) s
  refine forRange_additive φ n _ _ (fun j s => ?_) s
  exact forRange_additive φ n _ _ (fun i s => h i j k s) s

theorem sum_range_mul_nat (a b : Nat) (h : Nat → Nat) :
    ∑ t in Finset.range (a * b), h t =
      ∑ k in Finset.range a, ∑ j in Finset.range b, h (j + b * k) := by
  induction a with
  | zero => simp
  | succ a ih =>
    rw [Nat.succ_mul, Finset.sum_range_add, ih, Finset.sum_range_succ]
    congr 1
    refine Finset.sum_congr rfl (fun j _ => ?_)
    rw [Nat.add_comm, Nat.mul_comm]

theorem sum_range_cube_nat (n : Nat) (h : Nat → Nat) :
    ∑ t in Finset.range (n * n * n), h t =
      ∑ k in Finset.range n, ∑ j in Finset.range n, ∑ i in Finset.range n,
        h (i + n * (j + n * k)) := by
  rw [show n * n * n = n * (n * n) by ring, sum_range_mul_nat]
  refine Finset.sum_congr rfl (fun k _ => ?_)
  rw [sum_range_mul_nat]
  refine Finset.sum_congr rfl (fun j _ => ?_)
  refine Finset.sum_congr rfl (fun i _ => ?_)
  congr 1
  ring

/-- A bijective node-order map takes each value below `nSide³` at exactly one index. -/
theorem sum_ite_nodeOrder (g : Nat → Nat) (nSide : Nat) (hg : NodeOrderOK g nSide) (x : Nat)
    (hx : x < nSide * nSide * nSide) :
    ∑ t in Finset.range (nSide * nSide * nSide), (if g t = x then 1 else 0) = 1 := by
  have hinj : Set.InjOn g (Finset.range (nSide * nSide * nSide) : Set Nat) := by
    intro s hs t ht hst
    exact hg.2 s (by simpa using hs) t (by simpa using ht) hst
  have himg : (Finset.range (nSide * nSide * nSide)).image g =
      Finset.range (nSide * nSide * nSide) := by
    apply Finset.eq_of_subset_of_card_le
    · intro y hy
      obtain ⟨t, ht, rfl⟩ := Finset.mem_image.mp hy
      exact Finset.mem_range.mpr (hg.1 t (Finset.mem_range.mp ht))
    · rw [Finset.card_image_of_injOn hinj]
  have hmem : x ∈ (Finset.range (nSide * nSide * nSide)).image g := by
    rw [himg]; exact Finset.mem_range.mpr hx
  obtain ⟨t0, ht0, hgt0⟩ := Finset.mem_image.mp hmem
  rw [Finset.sum_eq_single t0]
  · rw [if_pos hgt0]
  · intro t ht hne
    rw [if_neg]
    intro h
    exact hne (hinj ht ht0 (h.trans hgt0.symm))
  · intro h
    exact absurd ht0 h

theorem calcDShapeTrace_count_shape (mb : dMeshBlock) (nSide : Nat) (shape dshape : Arr)
    (loc : Vec3) (x : Nat) :
    List.count x (calcDShapeTrace mb nSide shape dshape loc).2.1 =
      ∑ t in Finset.range (nSide * nSide * nSide), (if mb.ijk2gmsh t = x then 1 else 0) := by
  rw [sum_range_cube_nat]
  unfold calcDShapeTrace
  simp only []
  rw [forRange3_additive (fun st : (Arr × Arr) × (List Nat × List Nat) => List.count x st.2.1)
    nSide _ (fun i j k => if mb.ijk2gmsh (i + nSide * (j + nSide * k)) = x then 1 else 0)
    (fun i j k st => by
      simp only [List.count_append, List.count_singleton, beq_iff_eq])]
  simp

theorem calcDShapeTrace_count_dshape (mb : dMeshBlock) (nSide : Nat) (shape dshape : Arr)
    (loc : Vec3) (y : Nat) :
    List.count y (calcDShapeTrace mb nSide shape dshape loc).2.2 =
      ∑ t in Finset.range (nSide * nSide * nSide),
        (if mb.ijk2gmsh t = y / 3 then 1 else 0) := by
  rw [sum_range_cube_nat]
  unfold calcDShapeTrace
  simp only []
  rw [forRange3_additive (fun st : (Arr × Arr) × (List Nat × List Nat) => List.count y st.2.2)
    nSide _ (fun i j k => if mb.ijk2gmsh (i + nSide * (j + nSide * k)) = y / 3 then 1 else 0)
    (fun i j k st => by
      simp only [List.count_append, List.count_cons, List.count_nil, beq_iff_eq]
      split_ifs <;> omega)]
  simp

theorem calcDShapeTrace_length (mb : dMeshBlock) (nSide : Nat) (shape dshape : Arr)
    (loc : Vec3) :
    (calcDShapeTrace mb nSide shape dshape loc).2.1.length = nSide * nSide * nSide ∧
    (calcDShapeTrace mb nSide shape dshape loc).2.2.length = 3 * (nSide * nSide * nSide) := by
  unfold calcDShapeTrace
  simp only []
  constructor
  · rw [forRange3_additive (fun st : (Arr × Arr) × (List Nat × List Nat) => st.2.1.length)
      nSide _ (fun _ _ _ => 1) (fun i j k st => by simp)]
    simp
    ring
  · rw [forRange3_additive (fun st : (Arr × Arr) × (List Nat × List Nat) => st.2.2.length)
      nSide _ (fun _ _ _ => 3) (fun i j k st => by simp)]
    simp
    ring

/-- C12. If `ijk2gmsh` is a bijection onto `[0, nSide³)`, `calcDShape` at `(ξ, η, μ)` assigns
every entry of `shape` and every entry of `dshape` exactly once, and for the node
`g = ijk2gmsh[i + nSide*(j + nSide*k)]` of tensor index `(i, j, k)` it leaves
`shape[g] = L_i(ξ) L_j(η) L_k(μ)`, `dshape[3g+0] = L_i'(ξ) L_j(η) L_k(μ)`,
`dshape[3g+1] = L_i(ξ) L_j'(η) L_k(μ)`, `dshape[3g+2] = L_i(ξ) L_j(η) L_k'(μ)`, where
`L_m = Lagrange_gpu xlist nSide · m` is the value of the `m`-th Lagrange basis polynomial
on `xlist` and `L_m' = dLagrange_gpu xlist nSide · m` the value of its derivative. -/
theorem calcDShape_tensor_product (mb : dMeshBlock) (nSide : Nat) (shape dshape : Arr)
    (loc : Vec3) (hg : NodeOrderOK mb.ijk2gmsh nSide) :
    (calcDShapeTrace mb nSide shape dshape loc).1 = calcDShape mb nSide shape dshape loc ∧
    (∀ x, x < nSide * nSide * nSide →
      List.count x (calcDShapeTrace mb nSide shape dshape loc).2.1 = 1) ∧
    (calcDShapeTrace mb nSide shape dshape loc).2.1.length = nSide * nSide * nSide ∧
    (∀ y, y < 3 * (nSide * nSide * nSide) →
      List.count y (calcDShapeTrace mb nSide shape dshape loc).2.2 = 1) ∧
    (calcDShapeTrace mb nSide shape dshape loc).2.2.length = 3 * (nSide * nSide * nSide) ∧
    (∀ i j k, i < nSide → j < nSide → k < nSide →
      (calcDShape mb nSide shape dshape loc).1 (mb.ijk2gmsh (i + nSide * (j + nSide * k))) =
        Lagrange_gpu mb.xlist nSide loc.c0 i * Lagrange_gpu mb.xlist nSide loc.c1 j *
          Lagrange_gpu mb.xlist nSide loc.c2 k ∧
      (calcDShape mb nSide shape dshape loc).2
          (3 * mb.ijk2gmsh (i + nSide * (j + nSide * k)) + 0) =
        dLagrange_gpu mb.xlist nSide loc.c0 i * Lagrange_gpu mb.xlist nSide loc.c1 j *
          Lagrange_gpu mb.xlist nSide loc.c2 k ∧
      (calcDShape mb nSide shape dshape loc).2
          (3 * mb.ijk2gmsh (i + nSide * (j + nSide * k)) + 1) =
        Lagrange_gpu mb.xlist nSide loc.c0 i * dLagrange_gpu mb.xlist nSide loc.c1 j *
          Lagrange_gpu mb.xlist nSide loc.c2 k ∧
      (calcDShape mb nSide shape dshape loc).2
          (3 * mb.ijk2gmsh (i + nSide * (j + nSide * k)) + 2) =
        Lagrange_gpu mb.xlist nSide loc.c0 i * Lagrange_gpu mb.xlist nSide loc.c1 j *
          dLagrange_gpu mb.xlist nSide loc.c2 k) ∧
    (∀ (m : Nat) (x : ℚ),
      Lagrange_gpu mb.xlist nSide x m =
        Polynomial.eval x (Lagrange.basis (Finset.range nSide) mb.xlist m) ∧
      dLagrange_gpu mb.xlist nSide x m =
        Polynomial.eval x
          (Polynomial.derivative (Lagrange.basis (Finset.range nSide) mb.xlist m))) := by
  refine ⟨calcDShapeTrace_arrays mb nSide shape dshape loc, ?_,
    (calcDShapeTrace_length mb nSide shape dshape loc).1, ?_,
    (calcDShapeTrace_length mb nSide shape dshape loc).2, ?_, ?_⟩
  · intro x hx
    rw [calcDShapeTrace_count_shape, sum_ite_nodeOrder mb.ijk2gmsh nSide hg x hx]
  · intro y hy
    rw [calcDShapeTrace_count_dshape, sum_ite_nodeOrder mb.ijk2gmsh nSide hg (y / 3) (by omega)]
  · intro i j k hi hj hk
    have h := calcDShape_at mb nSide shape dshape loc hg i j k hi hj hk
    rw [Nat.mul_comm 3 (mb.ijk2gmsh (i + nSide * (j + nSide * k)))]
    exact h
  · intro m x
    exact ⟨Lagrange_gpu_eq_eval mb.xlist nSide x m, dLagrange_gpu_eq_eval mb.xlist nSide x m⟩

/-- The stores of `calcDShape` for the trilinear element of `mbTri`: entry 5 of `shape` and
entry 17 of `dshape` are assigned once. -/
theorem calcDShape_tensor_product_witness :
    List.count 5 (calcDShapeTrace mbTri 2 u0.shape u0.dshape ⟨1 / 3, -1 / 2, 1⟩).2.1 = 1 ∧
    List.count 17 (calcDShapeTrace mbTri 2 u0.shape u0.dshape ⟨1 / 3, -1 / 2, 1⟩).2.2 = 1 :=
  ⟨(calcDShape_tensor_product mbTri 2 u0.shape u0.dshape ⟨1 / 3, -1 / 2, 1⟩ (by decide!)).2.1
      5 (by decide),
    (calcDShape_tensor_product mbTri 2 u0.shape u0.dshape ⟨1 / 3, -1 / 2, 1⟩
      (by decide!)).2.2.2.1 17 (by decide)⟩

/-! ## Degenerate elements -/

theorem Dbl.div_zero_ne_fin (x q : ℚ) (z : Bool) : Dbl.div x 0 z ≠ Dbl.fin q := by
  unfold Dbl.div
  rw [if_pos rfl]
  split_ifs <;> exact fun h => Dbl.noConfusion h

theorem Dbl.add_ne_fin_right (a b : Dbl) (hb : ∀ q, b ≠ Dbl.fin q) (q : ℚ) :
    a.add b ≠ Dbl.fin q := by
  cases a <;> cases b <;> first
    | exact absurd rfl (hb _)
    | exact fun h => Dbl.noConfusion h

theorem Dbl.add_ne_fin_left (a b : Dbl) (ha : ∀ q, a ≠ Dbl.fin q) (q : ℚ) :
    a.add b ≠ Dbl.fin q := by
  cases a <;> cases b <;> first
    | exact absurd rfl (ha _)
    | exact fun h => Dbl.noConfusion h

theorem clampStep_of_ne_fin (r : ℚ) (d : Dbl) (h : ∀ q, d ≠ Dbl.fin q) :
    clampStep r d = 1 ∨ clampStep r d = -1 := by
  cases d with
  | fin q => exact absurd rfl (h q)
  | posInf => exact Or.inl rfl
  | negInf => exact Or.inr rfl
  | nan => exact Or.inl rfl

/-- With a zero determinant every component of the Newton step is an infinity or a NaN. -/
theorem deltaOf_det_zero (grad dx : Arr) (i : Nat) (h : det_3x3 grad = 0) (q : ℚ) :
    deltaOf grad dx i ≠ Dbl.fin q := by
  unfold deltaOf
  simp only []
  rw [h]
  exact Dbl.add_ne_fin_right _ _ (Dbl.div_zero_ne_fin _ · _) q

/-- A pass that starts where the determinant of the Jacobian is zero leaves every component
of the guess at `1` or `-1`. -/
theorem newtonPass_det_zero (mb : dMeshBlock) (nSide : Nat) (coords xyz : Arr)
    (s : NewtonState) (h : jacDet mb nSide s.shape s.dshape coords s.rst = 0) :
    ((newtonPass mb nSide coords xyz s).rst.c0 = 1 ∨
      (newtonPass mb nSide coords xyz s).rst.c0 = -1) ∧
    ((newtonPass mb nSide coords xyz s).rst.c1 = 1 ∨
      (newtonPass mb nSide coords xyz s).rst.c1 = -1) ∧
    ((newtonPass mb nSide coords xyz s).rst.c2 = 1 ∨
      (newtonPass mb nSide coords xyz s).rst.c2 = -1) := by
  unfold jacDet at h
  unfold newtonPass
  exact ⟨clampStep_of_ne_fin _ _ (deltaOf_det_zero _ _ 0 h),
    clampStep_of_ne_fin _ _ (deltaOf_det_zero _ _ 1 h),
    clampStep_of_ne_fin _ _ (deltaOf_det_zero _ _ 2 h)⟩

/-- When the residual at the starting guess is within the tolerance, the loop makes one pass
and `getRefLoc` returns true with the guess that pass leaves. -/
theorem getRefLoc_first_pass (mb : dMeshBlock) (nSide : Nat) (u : Scratch)
    (coords bbox xyz : Arr) (htol : tolOf bbox < 1)
    (h : (residNorm mb nSide u.shape u.dshape coords xyz ⟨0, 0, 0⟩).le (tolOf bbox)) :
    getRefLoc mb nSide u coords bbox xyz =
      (true, (newtonPass mb nSide coords xyz (initState u)).rst) ∧
    (getRefLocState mb nSide u coords bbox xyz).passes = 1 := by
  have hn : (newtonPass mb nSide coords xyz (initState u)).norm =
      residNorm mb nSide u.shape u.dshape coords xyz ⟨0, 0, 0⟩ :=
    newtonPass_norm mb nSide coords xyz (initState u)
  have hloop : getRefLocState mb nSide u coords bbox xyz =
      nextIter (newtonPass mb nSide coords xyz (initState u)) := by
    unfold getRefLocState iterMax
    rw [newtonLoop_succ mb nSide coords xyz (tolOf bbox) 9 (initState u),
      if_pos ((loopCond_initState u (tolOf bbox)).mpr htol),
      if_neg (not_stallCond_of_iter_le _ (by rw [newtonPass_iter, initState_iter]; omega)),
      newtonLoop_succ mb nSide coords xyz (tolOf bbox) 8, if_neg]
    intro hc
    have hgt := hc.1
    rw [nextIter_norm, hn] at hgt
    exact (SqrtVal.le_iff_not_gt _ _).mp h hgt
  refine ⟨?_, ?_⟩
  · unfold getRefLoc
    rw [hloop]
    simp only [nextIter_norm, nextIter_rst, hn]
    rw [decide_eq_true h]
  · rw [hloop, nextIter_passes, newtonPass_passes, initState_passes]

end Tioga
